import Mathlib

/-!
# snitch: bounded text rendering (`snitch_append.hpp`)

A shallow embedding of the constant-evaluation renderers of
`include/snitch/snitch_append.hpp` and theorems about them.

Conventions of the embedding:

* `char` is `Char`, `std::string_view` is `List Char`;
* `std::size_t`, `large_uint_t` and `fixed_digits_t` are `Nat` below `2 ^ 64`, with an
  explicit `% 2 ^ 64` wherever the source can wrap;
* `large_int_t` is `Int` in the 64-bit range, `/` and `%` being the truncating
  `Int.tdiv` and `Int.tmod`;
* an operation that the source can only perform by leaving the bounds of a string
  (or by overflowing a signed integer) yields `none`;
* `fixed_exp_t` and `float_traits<double>::exp_origin` are declared in
  `snitch_fixed_point.hpp`, which is not among the sources: the width `exp_width` of the
  type and the value `exp_origin` of the constant are parameters of every function that
  depends on them; a value of `fixed_exp_t` is an `Int` in the range of that width and
  each operation on the type is checked against the range (`exp_check`);
* each `for` loop and each recursive function is a function by structural recursion on
  a step budget, its first argument; the budget handed over at the entry point is a
  bound on the number of iterations read off the loop (the value of the loop variable
  that is divided by ten, or the iteration count), and a loop that would still have to
  run when the budget is used up yields `none`;
* the `while` loop of `set_precision` is a recursion on `base_digits` itself.

The main theorems carry the identifier of the specification property they settle
(`C1`, `C2`, ...) in their doc comments.
-/

namespace snitch

/-! ## Bounded text buffer -/

/-- Modelled from the spec: `small_string_span` and `small_string<N>` are declared in
`snitch_string.hpp`, which is not part of the sources at hand.  Following the data model
(*capacity, length ≤ capacity, fixed array of capacity bytes*), a buffer is its storage
`buffer` (whose length is the capacity) together with the current length `data_size`. -/
structure small_string_span where
  buffer : List Char
  data_size : Nat
deriving DecidableEq

namespace small_string_span

/-- Modelled from the spec: `capacity()`, the number of bytes of storage. -/
def capacity (ss : small_string_span) : Nat := ss.buffer.length

/-- Modelled from the spec: `size()`, the current length. -/
def size (ss : small_string_span) : Nat := ss.data_size

/-- Modelled from the spec: `available()`, the remaining capacity `capacity - length`. -/
def available (ss : small_string_span) : Nat := ss.capacity - ss.size

/-- Modelled from the spec: `grow(elem)` advances the length by `elem`; growing past the
capacity is not an operation of the buffer (`none`). -/
def grow (ss : small_string_span) (elem : Nat) : Option small_string_span :=
  if ss.size + elem ≤ ss.capacity then some { ss with data_size := ss.size + elem } else none

/-- Modelled from the spec: `resize(n)` sets the length to `n`; a length above the
capacity is not an operation of the buffer (`none`). -/
def resize (ss : small_string_span) (n : Nat) : Option small_string_span :=
  if n ≤ ss.capacity then some { ss with data_size := n } else none

/-- Modelled from the spec: `ss[i] = c`, a write at an index below the current length;
any other index is outside the string (`none`). -/
def set (ss : small_string_span) (i : Nat) (c : Char) : Option small_string_span :=
  if i < ss.size then some { ss with buffer := ss.buffer.set i c } else none

/-- Modelled from the spec: the conversion to `std::string_view`, the bytes written so
far (the first `size()` bytes of the storage). -/
def str (ss : small_string_span) : List Char := ss.buffer.take ss.size

/-- The data-model invariant: the length never exceeds the capacity. -/
def wf (ss : small_string_span) : Prop := ss.size ≤ ss.capacity

instance (ss : small_string_span) : Decidable ss.wf := by
  unfold wf; infer_instance

end small_string_span

/-- Modelled from the spec: a default-constructed `small_string<N>`: `N` bytes of
zero-initialised storage and length zero. -/
def small_string (N : Nat) : small_string_span :=
  { buffer := List.replicate N (Char.ofNat 0), data_size := 0 }

/-- The width of `std::size_t`, `large_uint_t` and `fixed_digits_t`. -/
def word : Nat := 2 ^ 64

/-- Unsigned subtraction `a - b` of 64-bit values (`std::size_t`, `fixed_digits_t`), which
wraps modulo `2 ^ 64`. -/
def size_sub (a b : Nat) : Nat := (a + word - b % word) % word

namespace impl

/-! ## `append_constexpr(small_string_span, std::string_view)` -/

/-- The copy loop `for (i = 0; i < copy_count; ++i) ss[offset + i] = str[i];`. -/
def append_copy_loop (str : List Char) (offset copy_count : Nat) :
    Nat → Nat → small_string_span → Option small_string_span
  | 0, i, ss => if i < copy_count then none else some ss
  | fuel + 1, i, ss =>
    if i < copy_count then
      match str[i]? with
      | none => none
      | some c =>
        match ss.set (offset + i) c with
        | none => none
        | some ss1 => append_copy_loop str offset copy_count fuel (i + 1) ss1
    else some ss

/-- `append_constexpr(small_string_span ss, std::string_view str)`: the returned flag and
the buffer after the call. -/
def append_constexpr_str (ss : small_string_span) (str : List Char) :
    Option (Bool × small_string_span) :=
  let could_fit : Bool := decide (str.length ≤ ss.available)
  let copy_count : Nat := if could_fit then str.length else ss.available
  let offset : Nat := ss.size
  match ss.grow copy_count with
  | none => none
  | some ss1 =>
    match append_copy_loop str offset copy_count copy_count 0 ss1 with
    | none => none
    | some ss2 => some (could_fit, ss2)

/-! ## Digit counts -/

/-- `num_digits(large_uint_t x)`: `x >= 10u ? 1u + num_digits(x / 10u) : 1u`, with the
recursion depth bounded by the first argument (`num_digits_unfold` is the source's
equation, for every `x`). -/
def num_digits_fuel : Nat → Nat → Nat
  | 0, _ => 1
  | fuel + 1, x => if x ≥ 10 then 1 + num_digits_fuel fuel (x / 10) else 1

/-- `num_digits(large_uint_t x)`. -/
def num_digits (x : Nat) : Nat := num_digits_fuel x x

/-- `num_digits(large_int_t x)`:
`x >= 10 ? 1u + num_digits(x / 10) : x <= -10 ? 1u + num_digits(x / 10) : x > 0 ? 1u : 2u`,
with the recursion depth bounded by the first argument. -/
def num_digits_int_fuel : Nat → Int → Nat
  | 0, x => if x > 0 then 1 else 2
  | fuel + 1, x =>
    if x ≥ 10 then 1 + num_digits_int_fuel fuel (x.tdiv 10)
    else if x ≤ -10 then 1 + num_digits_int_fuel fuel (x.tdiv 10)
    else if x > 0 then 1 else 2

/-- `num_digits(large_int_t x)`. -/
def num_digits_int (x : Int) : Nat := num_digits_int_fuel x.natAbs x

/-- `constexpr std::array<char, 10> digits`. -/
def digits : List Char := ['0', '1', '2', '3', '4', '5', '6', '7', '8', '9']

/-- `max_uint_length = num_digits(std::numeric_limits<large_uint_t>::max())`. -/
def max_uint_length : Nat := num_digits (word - 1)

/-- `max_int_length = max_uint_length + 1`. -/
def max_int_length : Nat := max_uint_length + 1

/-- The range of `large_int_t` (`std::intmax_t`, 64 bits). -/
def in_int_range (x : Int) : Prop := -(2 : Int) ^ 63 ≤ x ∧ x < (2 : Int) ^ 63

instance (x : Int) : Decidable (in_int_range x) := by
  unfold in_int_range; infer_instance

/-- Unary minus on `large_int_t`; a result outside the type is an overflow (`none`). -/
def int_neg (x : Int) : Option Int := if in_int_range (-x) then some (-x) else none

/-- `digits[idx]` for a signed index `idx`: a negative index does not designate an
element of the table, nor does one above 9. -/
def digits_at (idx : Int) : Option Char := if 0 ≤ idx then digits[idx.toNat]? else none

/-! ## `append_constexpr(small_string_span, large_uint_t)` -/

/-- The loop
`for (large_uint_t j = i; j != 0u; j /= 10u, ++k) tmp[tmp.size() - k] = digits[j % 10u];`. -/
def append_uint_loop : Nat → Nat → Nat → small_string_span → Option small_string_span
  | 0, j, _, tmp => if j ≠ 0 then none else some tmp
  | fuel + 1, j, k, tmp =>
    if j ≠ 0 then
      match digits[j % 10]? with
      | none => none
      | some c =>
        match tmp.set (size_sub tmp.size k) c with
        | none => none
        | some tmp1 => append_uint_loop fuel (j / 10) (k + 1) tmp1
    else some tmp

/-- `append_constexpr(small_string_span ss, large_uint_t i)`. -/
def append_constexpr_uint (ss : small_string_span) (i : Nat) :
    Option (Bool × small_string_span) :=
  if i ≠ 0 then
    match (small_string max_uint_length).resize (num_digits i) with
    | none => none
    | some tmp =>
      match append_uint_loop i i 1 tmp with
      | none => none
      | some tmp1 => append_constexpr_str ss tmp1.str
  else append_constexpr_str ss ['0']

/-! ## `append_constexpr(small_string_span, large_int_t)` -/

/-- The loop of the branch `i > 0`:
`for (large_int_t j = i; j != 0; j /= 10, ++k) tmp[tmp.size() - k] = digits[j % 10];`. -/
def append_int_pos_loop : Nat → Int → Nat → small_string_span → Option small_string_span
  | 0, j, _, tmp => if j ≠ 0 then none else some tmp
  | fuel + 1, j, k, tmp =>
    if j ≠ 0 then
      match digits_at (j.tmod 10) with
      | none => none
      | some c =>
        match tmp.set (size_sub tmp.size k) c with
        | none => none
        | some tmp1 => append_int_pos_loop fuel (j.tdiv 10) (k + 1) tmp1
    else some tmp

/-- The loop of the branch `i < 0`:
`for (large_int_t j = i; j != 0; j /= 10, ++k) tmp[tmp.size() - k] = digits[-(j % 10)];`. -/
def append_int_neg_loop : Nat → Int → Nat → small_string_span → Option small_string_span
  | 0, j, _, tmp => if j ≠ 0 then none else some tmp
  | fuel + 1, j, k, tmp =>
    if j ≠ 0 then
      match int_neg (j.tmod 10) with
      | none => none
      | some idx =>
        match digits_at idx with
        | none => none
        | some c =>
          match tmp.set (size_sub tmp.size k) c with
          | none => none
          | some tmp1 => append_int_neg_loop fuel (j.tdiv 10) (k + 1) tmp1
    else some tmp

/-- `append_constexpr(small_string_span ss, large_int_t i)`. -/
def append_constexpr_int (ss : small_string_span) (i : Int) :
    Option (Bool × small_string_span) :=
  if i > 0 then
    match (small_string max_int_length).resize (num_digits_int i) with
    | none => none
    | some tmp =>
      match append_int_pos_loop i.natAbs i 1 tmp with
      | none => none
      | some tmp1 => append_constexpr_str ss tmp1.str
  else if i < 0 then
    match (small_string max_int_length).resize (num_digits_int i) with
    | none => none
    | some tmp =>
      match append_int_neg_loop i.natAbs i 1 tmp with
      | none => none
      | some tmp1 =>
        match tmp1.set 0 '-' with
        | none => none
        | some tmp2 => append_constexpr_str ss tmp2.str
  else append_constexpr_str ss ['0']

end impl

/-! ## Dispatch layer (constant-evaluation path) -/

/-- The sequencing `a && b` of two `append` calls on the same buffer: `b` runs on the
buffer left by `a`, and only when `a` returned `true`. -/
def and_then (r : Option (Bool × small_string_span))
    (f : small_string_span → Option (Bool × small_string_span)) :
    Option (Bool × small_string_span) :=
  match r with
  | none => none
  | some (false, ss1) => some (false, ss1)
  | some (true, ss1) => f ss1

/-- The text and integer arguments of `append`: a `std::string_view`, an unsigned integer
(widened to `large_uint_t`) or a signed integer (widened to `large_int_t`). -/
inductive appendable where
  | text (s : List Char)
  | uint (i : Nat)
  | int (i : Int)
deriving DecidableEq

/-- `append(small_string_span ss, value)` when `std::is_constant_evaluated()`: the
overloads for `std::string_view`, `large_uint_t` and `large_int_t` forward to
`impl::append_constexpr`. -/
def append (ss : small_string_span) : appendable → Option (Bool × small_string_span)
  | .text s => impl.append_constexpr_str ss s
  | .uint i => impl.append_constexpr_uint ss i
  | .int i => impl.append_constexpr_int ss i

/-- The fold `(append(ss, std::forward<Args>(args)) && ...)`, `true` for an empty pack. -/
def append_fold (ss : small_string_span) : List appendable → Option (Bool × small_string_span)
  | [] => some (true, ss)
  | a :: rest => and_then (append ss a) (fun ss1 => append_fold ss1 rest)

/-- `append(small_string_span ss, T&& t, U&& u, Args&&... args)`:
`append(ss, t) && append(ss, u) && (append(ss, args) && ...)`. -/
def append_variadic (ss : small_string_span) (t u : appendable) (args : List appendable) :
    Option (Bool × small_string_span) :=
  and_then (and_then (append ss t) (fun ss1 => append ss1 u)) (fun ss2 => append_fold ss2 args)

/-! ## Fixed-point decimal data -/

/-- Modelled from the spec: `signed_fixed_data` is declared in `snitch_fixed_point.hpp`,
which is not part of the sources at hand.  Following the data model (*FixedPointData*):
`digits` is the unsigned magnitude (`fixed_digits_t`, 64 bits), `exponent` the signed
power-of-ten scale (`fixed_exp_t`, a signed machine integer whose width is a parameter of
the functions below, see `in_exp_range`) and `sign` the sign flag; the value is
`(sign ? -1 : 1) * digits * 10^exponent`. -/
structure signed_fixed_data where
  digits : Nat
  exponent : Int
  sign : Bool
deriving DecidableEq

/-- The values of `fixed_exp_t`.  The type is declared in `snitch_fixed_point.hpp`, which
is not part of the sources at hand, and nothing else says how wide it is: its width in
bits, `exp_width`, is a parameter, and the type holds the integers from `-2^(exp_width-1)`
up to `2^(exp_width-1) - 1`. -/
def in_exp_range (exp_width : Nat) (x : Int) : Prop :=
  -((2 ^ (exp_width - 1) : Nat) : Int) ≤ x ∧ x < ((2 ^ (exp_width - 1) : Nat) : Int)

instance (exp_width : Nat) (x : Int) : Decidable (in_exp_range exp_width x) :=
  inferInstanceAs (Decidable (_ ∧ _))

/-- The result of one arithmetic operation on `fixed_exp_t` whose mathematical value is
`x`: the value itself when the type holds it, and no result (`none`) otherwise.  For a
type at least as wide as `int` the operation is carried out in the type and its overflow
is undefined behaviour; for a narrower type, whose operands are promoted to `int`, the
check is stricter than the language, and a result `some` stands all the same. -/
def exp_check (exp_width : Nat) (x : Int) : Option Int :=
  if in_exp_range exp_width x then some x else none

/-- Modelled from the spec: the template parameter `T` of the floating-point entry
point, `float` or `double`, whose `float_traits<T>` is declared in
`snitch_fixed_point.hpp` (not part of the sources at hand). -/
inductive floating_point where
  | float
  | double
deriving DecidableEq

/-- Modelled from the spec: `float_bits<T>` (*FloatBits*), the raw significand field,
the raw biased exponent field and the sign bit of a floating-point value. -/
structure float_bits where
  significand : Nat
  exponent : Nat
  sign : Bool
deriving DecidableEq

namespace float_traits

/-- Modelled from the spec: `float_traits<T>::exp_bits_special`, the all-ones exponent
field of the IEEE-754 binary layout (§4.3): 8 bits for `float`, 11 bits for `double`. -/
def exp_bits_special : floating_point → Nat
  | .float => 0xff
  | .double => 0x7ff

/-- Modelled from the spec: `float_traits<T>::sig_bits_inf`, the significand field of an
infinity, which is zero (§4.3). -/
def sig_bits_inf : floating_point → Nat
  | .float => 0x0
  | .double => 0x0

end float_traits

namespace impl

/-- `min_exp_digits = 2u`. -/
def min_exp_digits : Nat := 2

/-- `num_exp_digits(fixed_exp_t x)`; the negation `-x` of `x > 0 ? x : -x` is an operation
on `fixed_exp_t`, and `static_cast<large_uint_t>` reduces modulo `2^64`. -/
def num_exp_digits (exp_width : Nat) (x : Int) : Option Nat :=
  match (if x > 0 then some x else exp_check exp_width (-x)) with
  | none => none
  | some a =>
    let exp_digits : Nat := num_digits (a.toNat % word)
    some (if exp_digits < min_exp_digits then min_exp_digits else exp_digits)

/-- `num_digits(const signed_fixed_data& x)`. -/
def num_digits_fixed (exp_width : Nat) (x : signed_fixed_data) : Option Nat :=
  match num_exp_digits exp_width x.exponent with
  | none => none
  | some exp_digits => some (num_digits x.digits + exp_digits + (if x.sign then 1 else 0) + 3)

/-- `max_float_length`.  The constant `float_traits<double>::exp_origin` is declared in
`snitch_fixed_point.hpp`, which is not part of the sources at hand: it is the parameter
`exp_origin`, and it initialises a `fixed_exp_t`, which has to hold it. -/
def max_float_length (exp_width : Nat) (exp_origin : Int) : Option Nat :=
  match exp_check exp_width exp_origin with
  | none => none
  | some e => num_digits_fixed exp_width { digits := word - 1, exponent := e, sign := true }

/-- `round_half_to_even(fixed_digits_t i, bool only_zero)`. -/
def round_half_to_even (i : Nat) (only_zero : Bool) : Nat :=
  let r : Nat := ((i + 5) % word) / 10
  if only_zero && decide (i % 10 = 5) then
    size_sub r (size_sub 1 ((i / 10) % 2))
  else r

/-- The loop `while (base_digits > p) { ... }` of `set_precision`, by recursion on
`base_digits`, which every iteration decreases by one; `fd.exponent += 1` is an operation on
`fixed_exp_t`. -/
def set_precision_loop (exp_width : Nat) (p : Nat) :
    Nat → signed_fixed_data → Bool → Option signed_fixed_data
  | 0, fd, _ => some fd
  | b + 1, fd, only_zero =>
    if b + 1 > p then
      if b + 1 > (p + 1) % word then
        match exp_check exp_width (fd.exponent + 1) with
        | none => none
        | some e =>
          set_precision_loop exp_width p b { fd with digits := fd.digits / 10, exponent := e }
            (if fd.digits % 10 > 0 then false else only_zero)
      else
        match exp_check exp_width (fd.exponent + 1) with
        | none => none
        | some e =>
          set_precision_loop exp_width p b
            { fd with digits := round_half_to_even fd.digits only_zero, exponent := e }
            only_zero
    else some fd

/-- `set_precision(signed_fixed_data fd, std::size_t p)`. -/
def set_precision (exp_width : Nat) (fd : signed_fixed_data) (p : Nat) :
    Option signed_fixed_data :=
  set_precision_loop exp_width p (num_digits fd.digits) fd true

/-! ## `append_constexpr(small_string_span, signed_fixed_data)` -/

/-- The mantissa loop
`for (fixed_digits_t j = fd.digits; j != 0u; j /= 10u, ++k, ++exponent_add)`; it returns
the scratch string, `k` and `exponent_add`; `++exponent_add` is an operation on
`fixed_exp_t`. -/
def fixed_digits_loop (exp_width : Nat) :
    Nat → Nat → Nat → Int → small_string_span → Option (small_string_span × Nat × Int)
  | 0, j, k, exponent_add, tmp => if j ≠ 0 then none else some (tmp, k, exponent_add)
  | fuel + 1, j, k, exponent_add, tmp =>
    if j ≠ 0 then
      match (if j < 10 then
          (match tmp.set (size_sub tmp.size k) '.' with
            | none => none
            | some tmp1 => some (tmp1, k + 1))
        else some (tmp, k)) with
      | none => none
      | some (tmp1, k1) =>
        match digits[j % 10]? with
        | none => none
        | some c =>
          match tmp1.set (size_sub tmp1.size k1) c with
          | none => none
          | some tmp2 =>
            match exp_check exp_width (exponent_add + 1) with
            | none => none
            | some exponent_add1 =>
              fixed_digits_loop exp_width fuel (j / 10) (k1 + 1) exponent_add1 tmp2
    else some (tmp, k, exponent_add)

/-- The exponent loop
`for (fixed_exp_t j = exponent > 0 ? exponent : -exponent; j != 0; j /= 10, ++k)`; it
returns the scratch string and `k`. -/
def fixed_exp_loop : Nat → Int → Nat → small_string_span → Option (small_string_span × Nat)
  | 0, j, k, tmp => if j ≠ 0 then none else some (tmp, k)
  | fuel + 1, j, k, tmp =>
    if j ≠ 0 then
      match digits_at (j.tmod 10) with
      | none => none
      | some c =>
        match tmp.set (size_sub tmp.size k) c with
        | none => none
        | some tmp1 => fixed_exp_loop fuel (j.tdiv 10) (k + 1) tmp1
    else some (tmp, k)

/-- The padding loop `for (; k <= min_exp_digits; ++k) tmp[tmp.size() - k] = '0';`. -/
def fixed_pad_loop : Nat → Nat → small_string_span → Option (small_string_span × Nat)
  | 0, k, tmp => if k ≤ min_exp_digits then none else some (tmp, k)
  | fuel + 1, k, tmp =>
    if k ≤ min_exp_digits then
      match tmp.set (size_sub tmp.size k) '0' with
      | none => none
      | some tmp1 => fixed_pad_loop fuel (k + 1) tmp1
    else some (tmp, k)

/-- The scientific renderer from its first statement to the declaration of the local
`exponent`: the scratch string `tmp` after `resize`, the mantissa loop and the sign, and the
value of `exponent`, `fd.exponent + exponent_add - 1`, an addition and a subtraction on
`fixed_exp_t`. -/
def fixed_mantissa (exp_width : Nat) (exp_origin : Int) (fd : signed_fixed_data) :
    Option (small_string_span × Int) :=
  match max_float_length exp_width exp_origin with
  | none => none
  | some max_length =>
    match num_digits_fixed exp_width fd with
    | none => none
    | some length =>
      match (small_string max_length).resize length with
      | none => none
      | some tmp =>
        match num_exp_digits exp_width fd.exponent with
        | none => none
        | some exp_digits =>
          match fixed_digits_loop exp_width fd.digits fd.digits (3 + exp_digits) 0 tmp with
          | none => none
          | some (tmp1, _, exponent_add) =>
            match (if fd.sign then tmp1.set 0 '-' else some tmp1) with
            | none => none
            | some tmp2 =>
              match exp_check exp_width (fd.exponent + exponent_add) with
              | none => none
              | some sum =>
                match exp_check exp_width (sum - 1) with
                | none => none
                | some exponent => some (tmp2, exponent)

/-- The value of the local `exponent` of the scientific renderer, the exponent it
displays. -/
def fixed_displayed_exponent (exp_width : Nat) (exp_origin : Int) (fd : signed_fixed_data) :
    Option Int :=
  (fixed_mantissa exp_width exp_origin fd).map Prod.snd

/-- The scientific renderer from `k = 1` to the write of the `e`: the exponent loop from
`exponent > 0 ? exponent : -exponent` (the negation an operation on `fixed_exp_t`), the
padding loop, the exponent sign and the `e`. -/
def fixed_exponent (exp_width : Nat) (exponent : Int) (tmp2 : small_string_span) :
    Option small_string_span :=
  match (if exponent > 0 then some exponent else exp_check exp_width (-exponent)) with
  | none => none
  | some j0 =>
    match fixed_exp_loop j0.natAbs j0 1 tmp2 with
    | none => none
    | some (tmp3, k3) =>
      match fixed_pad_loop min_exp_digits k3 tmp3 with
      | none => none
      | some (tmp4, k4) =>
        match tmp4.set (size_sub tmp4.size k4) (if exponent ≥ 0 then '+' else '-') with
        | none => none
        | some tmp5 => tmp5.set (size_sub tmp5.size (k4 + 1)) 'e'

/-- The scratch string `tmp` of the scientific renderer when it is handed to the string
overload. -/
def fixed_scratch (exp_width : Nat) (exp_origin : Int) (fd : signed_fixed_data) :
    Option small_string_span :=
  match fixed_mantissa exp_width exp_origin fd with
  | none => none
  | some (tmp2, exponent) => fixed_exponent exp_width exponent tmp2

/-- `append_constexpr(small_string_span ss, signed_fixed_data fd)`. -/
def append_constexpr_fixed (exp_width : Nat) (exp_origin : Int) (ss : small_string_span)
    (fd : signed_fixed_data) : Option (Bool × small_string_span) :=
  match fixed_scratch exp_width exp_origin fd with
  | none => none
  | some tmp => append_constexpr_str ss tmp.str

/-! ## `append_constexpr(small_string_span, T, std::size_t)` for floating-point `T` -/

/-- `std::string_view::substr(pos, count)` for `pos` within the view. -/
def substr (s : List Char) (pos count : Nat) : List Char := (s.drop pos).take count

/-- `append_constexpr(small_string_span ss, T f, std::size_t precision)`, as a function
of the bits `to_bits(f)` of `f`.  The converter `to_fixed` (declared in
`snitch_fixed_point.hpp`) is a parameter; `is_iec559` is
`std::numeric_limits<T>::is_iec559`. -/
def append_constexpr_float (exp_width : Nat) (exp_origin : Int) (T : floating_point)
    (is_iec559 : Bool) (to_fixed : float_bits → signed_fixed_data) (ss : small_string_span)
    (bits : float_bits) (precision : Nat) : Option (Bool × small_string_span) :=
  if is_iec559 then
    let precision : Nat := if precision ≤ 19 then precision else 19
    if bits.exponent = 0x0 then
      if bits.significand = 0x0 then
        let zeros : List Char := "000000000000000000".toList
        and_then
          (and_then (append_constexpr_str ss (if bits.sign then "-0.".toList else "0.".toList))
            (fun ss1 => append_constexpr_str ss1 (substr zeros 0 (size_sub precision 1))))
          (fun ss2 => append_constexpr_str ss2 "e+00".toList)
      else
        match set_precision exp_width (to_fixed bits) precision with
        | none => none
        | some fd => append_constexpr_fixed exp_width exp_origin ss fd
    else if bits.exponent = float_traits.exp_bits_special T then
      if bits.significand = float_traits.sig_bits_inf T then
        if bits.sign then append_constexpr_str ss "-inf".toList
        else append_constexpr_str ss "inf".toList
      else
        append_constexpr_str ss "nan".toList
    else
      match set_precision exp_width (to_fixed bits) precision with
      | none => none
      | some fd => append_constexpr_fixed exp_width exp_origin ss fd
  else
    append_constexpr_str ss "?".toList

end impl

/-! ## Reference renderings

The texts the specification speaks of, defined independently of the renderers. -/

/-- The canonical decimal text of a natural number: most significant digit first, no
leading zeros, `"0"` for zero (the text Lean itself prints). -/
def decimal_text (n : Nat) : List Char := Nat.toDigits 10 n

/-- The decimal text of an integer: the decimal text of `|i|`, preceded by `-` exactly
when `i < 0`. -/
def int_text (i : Int) : List Char :=
  if i < 0 then '-' :: decimal_text i.natAbs else decimal_text i.natAbs

/-- What appending a text `s` to a buffer means (§4.1 of the specification): the flag
says whether all of `s` fits in the free space, the length grows by the number of bytes
copied, and the content is the old content followed by the bytes of `s` that fit; the
storage beyond the new length is left as it was. -/
def appended (ss : small_string_span) (s : List Char) : Bool × small_string_span :=
  (decide (s.length ≤ ss.capacity - ss.size),
    { buffer := ss.str ++ s.take (ss.capacity - ss.size) ++
        ss.buffer.drop (ss.size + min s.length (ss.capacity - ss.size)),
      data_size := ss.size + min s.length (ss.capacity - ss.size) })

/-- A value of the argument types: an unsigned integer is below `2 ^ 64`, a signed one
in the 64-bit range. -/
def appendable.valid : appendable → Prop
  | .text _ => True
  | .uint i => i < word
  | .int i => impl.in_int_range i

/-- The full rendering of one argument. -/
def rendering : appendable → List Char
  | .text s => s
  | .uint i => decimal_text i
  | .int i => int_text i

/-- The concatenation of the full renderings of a sequence of arguments. -/
def renderings : List appendable → List Char
  | [] => []
  | a :: rest => rendering a ++ renderings rest

/-- Rounding `x / m` to the nearest integer, an exact tie (remainder exactly half of
`m`) going to the even neighbour. -/
def round_nearest_even (x m : Nat) : Nat :=
  if 2 * (x % m) < m then x / m
  else if m < 2 * (x % m) then x / m + 1
  else if (x / m) % 2 = 0 then x / m
  else x / m + 1

/-- The mantissa text of the scientific form: the first decimal digit, the separator
`.` (always present), then the remaining digits. -/
def mantissa_text (n : Nat) : List Char :=
  match decimal_text n with
  | [] => []
  | d :: ds => d :: '.' :: ds

/-- A digit string zero-padded on the left to at least two digits. -/
def pad_two (l : List Char) : List Char := List.replicate (2 - l.length) '0' ++ l

/-- The exponent suffix of the scientific form: `e`, a mandatory sign, and `|E|` in
decimal, zero-padded to at least two digits. -/
def exponent_text (E : Int) : List Char :=
  'e' :: (if E ≥ 0 then '+' else '-') :: pad_two (decimal_text E.natAbs)

/-- The scientific form `[-]D.FFF...e±EE` of a fixed-point value with `n` decimal digits:
`-` iff the sign is set, the mantissa text, and the exponent suffix for
`E = exponent + n - 1`. -/
def fixed_text (fd : signed_fixed_data) : List Char :=
  (if fd.sign then ['-'] else []) ++ mantissa_text fd.digits ++
    exponent_text (fd.exponent + ((decimal_text fd.digits).length : Int) - 1)

/-- The text the scientific renderer produces in general.  The renderer sizes its output
from the digits of `fd.exponent` and writes the exponent suffix of `E = exponent + n - 1`
last, over the end of the output: the text is the sign and the mantissa text, followed by
zero bytes or cut short to the length the suffix leaves, then the exponent suffix.  It is
the scientific form `fixed_text` when `fd.exponent` and `E` are printed with the same
number of digits. -/
def fixed_output (fd : signed_fixed_data) : List Char :=
  let n : Nat := (decimal_text fd.digits).length
  let E : Int := fd.exponent + (n : Int) - 1
  let exp_digits : Nat := (pad_two (decimal_text fd.exponent.natAbs)).length
  let printed : Nat := (pad_two (decimal_text E.natAbs)).length
  ((if fd.sign then ['-'] else []) ++ mantissa_text fd.digits ++
      List.replicate exp_digits (Char.ofNat 0)).take
    ((if fd.sign then 1 else 0) + n + 1 + exp_digits - printed) ++ exponent_text E

/-- The rendering of a floating-point zero at precision `p`: `0.`, then `p - 1` zeros,
then `e+00`, preceded by `-` iff the sign bit is set. -/
def zero_text (sign : Bool) (p : Nat) : List Char :=
  (if sign then ['-'] else []) ++ "0.".toList ++ List.replicate (p - 1) '0' ++ "e+00".toList

/-! ## The scratch writes of the integer renderers -/

namespace impl

/-- The writes of the digit loop
`for (j = i; j != 0u; j /= 10u, ++k) tmp[tmp.size() - k] = digits[j % 10u];` in program
order, recorded instead of performed: each iteration contributes the index
`tmp.size() - k` (unsigned subtraction) and the digit `j % 10`.  `size` is `tmp.size()`. -/
def uint_loop_writes (size : Nat) : Nat → Nat → Nat → List (Nat × Nat)
  | 0, _, _ => []
  | fuel + 1, j, k =>
    if j ≠ 0 then (size_sub size k, j % 10) :: uint_loop_writes size fuel (j / 10) (k + 1)
    else []

/-- Performing a sequence of recorded writes `tmp[index] = digits[digit]` on a scratch
string, in order. -/
def write_all : small_string_span → List (Nat × Nat) → Option small_string_span
  | tmp, [] => some tmp
  | tmp, (idx, d) :: rest =>
    match digits[d]? with
    | none => none
    | some c =>
      match tmp.set idx c with
      | none => none
      | some tmp1 => write_all tmp1 rest

end impl

/-- The indices of a sequence of writes hit every position of `lo .. hi - 1` exactly
once and no other position. -/
def written_once (indices : List Nat) (lo hi : Nat) : Prop :=
  indices.Nodup ∧ ∀ pos : Nat, pos ∈ indices ↔ lo ≤ pos ∧ pos < hi

/-! ## The run-time path -/

namespace impl

/-- Modelled from the spec: `impl::append_fast(small_string_span, large_uint_t)` is only
declared in `snitch_append.hpp`; its body is not part of the sources at hand.  By §4.2 of
the specification the integer renderer forwards to the buffer's `append_bytes` with the
generated digit string (most significant digit first, `0` rendered as a single `"0"`),
and by §4.1 `append_bytes` copies the leading bytes that fit, advances the length by the
copied count and returns `true` iff everything fit. -/
def append_fast_uint (ss : small_string_span) (i : Nat) : Option (Bool × small_string_span) :=
  some (appended ss (decimal_text i))

/-- Modelled from the spec: `impl::append_fast(small_string_span, large_int_t)`, only
declared in `snitch_append.hpp`.  By §4.2 the digit string of a signed value is that of
its magnitude with a leading `-` when the value is negative; it is handed to
`append_bytes` (§4.1). -/
def append_fast_int (ss : small_string_span) (i : Int) : Option (Bool × small_string_span) :=
  some (appended ss (int_text i))

end impl

/-- `append(small_string_span ss, large_uint_t i)`: `impl::append_constexpr` when
`std::is_constant_evaluated()`, `impl::append_fast` otherwise. -/
def append_large_uint (is_constant_evaluated : Bool) (ss : small_string_span) (i : Nat) :
    Option (Bool × small_string_span) :=
  if is_constant_evaluated then impl.append_constexpr_uint ss i
  else impl.append_fast_uint ss i

/-- `append(small_string_span ss, large_int_t i)`: `impl::append_constexpr` when
`std::is_constant_evaluated()`, `impl::append_fast` otherwise. -/
def append_large_int (is_constant_evaluated : Bool) (ss : small_string_span) (i : Int) :
    Option (Bool × small_string_span) :=
  if is_constant_evaluated then impl.append_constexpr_int ss i
  else impl.append_fast_int ss i

/-! ## Theorems -/

namespace impl

theorem append_copy_loop_spec (str : List Char) (offset copy_count sz : Nat)
    (post : List Char) (hcc : copy_count ≤ str.length) (hsz : offset + copy_count ≤ sz) :
    ∀ (fuel i : Nat) (pre mid : List Char), i ≤ copy_count → copy_count - i ≤ fuel →
      pre.length = offset + i → mid.length = copy_count - i →
      append_copy_loop str offset copy_count fuel i
          { buffer := pre ++ mid ++ post, data_size := sz } =
        some { buffer := pre ++ (str.take copy_count).drop i ++ post, data_size := sz } := by
  intro fuel
  induction fuel with
  | zero =>
    intro i pre mid hi hf hpre hmid
    have hic : i = copy_count := by omega
    subst hic
    have hm : mid = [] := List.length_eq_zero.mp (by omega)
    subst hm
    have hd : (str.take i).drop i = [] := by
      apply List.drop_eq_nil_of_le
      simp
    simp [append_copy_loop, hd]
  | succ fuel ih =>
    intro i pre mid hi hf hpre hmid
    by_cases hlt : i < copy_count
    · have hstr : i < str.length := by omega
      cases mid with
      | nil => simp at hmid; omega
      | cons x mid1 =>
        have hset : ({ buffer := pre ++ x :: mid1 ++ post, data_size := sz } :
            small_string_span).set (offset + i) (str[i]) =
            some { buffer := (pre ++ [str[i]]) ++ mid1 ++ post, data_size := sz } := by
          have hlen : pre.length < sz := by omega
          rw [← hpre]
          simp [small_string_span.set, small_string_span.size, hlen]
        have hdrop : (str.take copy_count).drop i =
            str[i] :: (str.take copy_count).drop (i + 1) := by
          have hl : i < (str.take copy_count).length := by simp; omega
          rw [List.drop_eq_getElem_cons hl]
          simp
        have hrec := ih (i + 1) (pre ++ [str[i]]) mid1 (by omega) (by omega)
          (by simp; omega) (by simp at hmid; omega)
        simp only [append_copy_loop, hlt, if_true, List.getElem?_eq_getElem hstr, hset, hrec,
          hdrop]
        simp
    · have hic : i = copy_count := by omega
      subst hic
      have hm : mid = [] := List.length_eq_zero.mp (by omega)
      subst hm
      have hd : (str.take i).drop i = [] := by
        apply List.drop_eq_nil_of_le
        simp
      simp [append_copy_loop, hd]

/-- The general contract of the string overload, in the form the other renderers use. -/
theorem append_constexpr_str_eq (ss : small_string_span) (s : List Char) (h : ss.wf) :
    append_constexpr_str ss s = some (appended ss s) := by
  unfold small_string_span.wf at h
  unfold append_constexpr_str appended
  simp only [small_string_span.available]
  have hcc : (if decide (s.length ≤ ss.capacity - ss.size) = true then s.length
      else ss.capacity - ss.size) = min s.length (ss.capacity - ss.size) := by
    by_cases hfit : s.length ≤ ss.capacity - ss.size
    · simp [hfit]
    · simp [hfit]; omega
  simp only [hcc]
  have hgrow : ss.grow (min s.length (ss.capacity - ss.size)) =
      some { buffer := ss.buffer.take ss.size ++
                (ss.buffer.drop ss.size).take (min s.length (ss.capacity - ss.size)) ++
                ss.buffer.drop (ss.size + min s.length (ss.capacity - ss.size)),
             data_size := ss.size + min s.length (ss.capacity - ss.size) } := by
    have hle : ss.size + min s.length (ss.capacity - ss.size) ≤ ss.capacity := by omega
    simp only [small_string_span.grow, hle, if_true]
    congr 1
    cases ss with
    | mk buffer data_size =>
      simp only [small_string_span.size, small_string_span.capacity]
      rw [List.append_assoc, ← List.drop_drop, List.take_append_drop, List.take_append_drop]
  simp only [hgrow]
  have hloop := append_copy_loop_spec s ss.size (min s.length (ss.capacity - ss.size))
    (ss.size + min s.length (ss.capacity - ss.size))
    (ss.buffer.drop (ss.size + min s.length (ss.capacity - ss.size)))
    (by omega) (by omega) (min s.length (ss.capacity - ss.size)) 0
    (ss.buffer.take ss.size)
    ((ss.buffer.drop ss.size).take (min s.length (ss.capacity - ss.size)))
    (by omega) (by omega)
    (by simp only [small_string_span.capacity, small_string_span.size] at h ⊢
        simp; omega)
    (by simp only [small_string_span.capacity, small_string_span.size] at h ⊢
        simp)
  simp only [hloop]
  simp only [List.drop_zero, small_string_span.str, List.take_take]
  congr 4
  by_cases hfit : s.length ≤ ss.capacity - ss.size
  · rw [min_eq_left hfit, List.take_of_length_le (le_refl _), List.take_of_length_le hfit]
  · rw [min_eq_right (by omega)]

end impl

/-! ### What `appended` leaves in the buffer -/

theorem str_length (ss : small_string_span) (h : ss.wf) : ss.str.length = ss.size := by
  unfold small_string_span.wf small_string_span.capacity at h
  simp [small_string_span.str, h]

theorem appended_capacity (ss : small_string_span) (s : List Char) (h : ss.wf) :
    (appended ss s).2.capacity = ss.capacity := by
  have hl := str_length ss h
  unfold small_string_span.wf at h
  simp only [appended, small_string_span.capacity, List.length_append, List.length_take,
    List.length_drop, hl] at h ⊢
  omega

theorem appended_size (ss : small_string_span) (s : List Char) :
    (appended ss s).2.size = ss.size + min s.length (ss.capacity - ss.size) := rfl

theorem appended_wf (ss : small_string_span) (s : List Char) (h : ss.wf) :
    (appended ss s).2.wf := by
  have hc := appended_capacity ss s h
  unfold small_string_span.wf at h ⊢
  rw [hc, appended_size]
  omega

theorem appended_str (ss : small_string_span) (s : List Char) (h : ss.wf) :
    (appended ss s).2.str = ss.str ++ s.take (ss.capacity - ss.size) := by
  cases ss with
  | mk b n =>
    simp only [small_string_span.wf, small_string_span.size, small_string_span.capacity,
      appended, small_string_span.str] at h ⊢
    apply List.take_left'
    rw [List.length_append, List.length_take, List.length_take]
    omega

theorem appended_fst (ss : small_string_span) (s : List Char) :
    (appended ss s).1 = decide (s.length ≤ ss.capacity - ss.size) := rfl

/-! ### The reference decimal text -/

theorem toDigitsCore_append (fuel : Nat) : ∀ (n : Nat) (acc : List Char),
    Nat.toDigitsCore 10 fuel n acc = Nat.toDigitsCore 10 fuel n [] ++ acc := by
  induction fuel with
  | zero => intro n acc; simp [Nat.toDigitsCore]
  | succ fuel ih =>
    intro n acc
    simp only [Nat.toDigitsCore]
    by_cases h0 : n / 10 = 0
    · simp [h0]
    · simp only [h0, if_false]
      rw [ih (n / 10) (Nat.digitChar (n % 10) :: acc), ih (n / 10) [Nat.digitChar (n % 10)]]
      simp

theorem toDigitsCore_fuel (f1 : Nat) : ∀ (f2 n : Nat), n < f1 → n < f2 →
    Nat.toDigitsCore 10 f1 n [] = Nat.toDigitsCore 10 f2 n [] := by
  induction f1 with
  | zero => intro f2 n h1; omega
  | succ f1 ih =>
    intro f2 n h1 h2
    cases f2 with
    | zero => omega
    | succ f2 =>
      simp only [Nat.toDigitsCore]
      by_cases h0 : n / 10 = 0
      · simp [h0]
      · simp only [h0, if_false]
        rw [toDigitsCore_append f1, toDigitsCore_append f2,
          ih f2 (n / 10) (by omega) (by omega)]

theorem decimal_text_lt (n : Nat) (h : n < 10) : decimal_text n = [Nat.digitChar n] := by
  have h0 : n / 10 = 0 := by omega
  have hm : n % 10 = n := by omega
  simp [decimal_text, Nat.toDigits, Nat.toDigitsCore, h0, hm]

theorem decimal_text_ge (n : Nat) (h : 10 ≤ n) :
    decimal_text n = decimal_text (n / 10) ++ [Nat.digitChar (n % 10)] := by
  have h0 : n / 10 ≠ 0 := by omega
  have h1 : Nat.toDigitsCore 10 (n + 1) n [] =
      Nat.toDigitsCore 10 n (n / 10) [Nat.digitChar (n % 10)] := by
    simp only [Nat.toDigitsCore, h0, if_false]
  unfold decimal_text Nat.toDigits
  rw [h1, toDigitsCore_append,
    toDigitsCore_fuel n (n / 10 + 1) (n / 10) (by omega) (by omega)]

theorem digits_getElem (d : Nat) (h : d < 10) : impl.digits[d]? = some (Nat.digitChar d) := by
  interval_cases d <;> rfl

/-! ### Digit counts -/

namespace impl

theorem num_digits_fuel_indep (f1 : Nat) : ∀ (f2 x : Nat), x ≤ f1 → x ≤ f2 →
    num_digits_fuel f1 x = num_digits_fuel f2 x := by
  induction f1 with
  | zero =>
    intro f2 x h1 h2
    have hx : x = 0 := by omega
    subst hx
    cases f2 <;> simp [num_digits_fuel]
  | succ f1 ih =>
    intro f2 x h1 h2
    cases f2 with
    | zero =>
      have hx : x = 0 := by omega
      subst hx
      simp [num_digits_fuel]
    | succ f2 =>
      simp only [num_digits_fuel]
      by_cases hx : x ≥ 10
      · simp only [hx, if_true]
        rw [ih f2 (x / 10) (by omega) (by omega)]
      · simp [hx]

/-- The source's equation for `num_digits(large_uint_t)`, for every `x`. -/
theorem num_digits_unfold (x : Nat) :
    num_digits x = if x ≥ 10 then 1 + num_digits (x / 10) else 1 := by
  unfold num_digits
  cases x with
  | zero => simp [num_digits_fuel]
  | succ x =>
    simp only [num_digits_fuel]
    by_cases hx : x + 1 ≥ 10
    · simp only [hx, if_true]
      rw [num_digits_fuel_indep x ((x + 1) / 10) ((x + 1) / 10) (by omega) (le_refl _)]
    · simp [hx]

theorem num_digits_pos (x : Nat) : 1 ≤ num_digits x := by
  rw [num_digits_unfold]
  split <;> omega

theorem decimal_text_length (x : Nat) : (decimal_text x).length = num_digits x := by
  induction x using Nat.strong_induction_on with
  | _ x ih =>
    rw [num_digits_unfold]
    by_cases hx : x ≥ 10
    · simp only [hx, if_true]
      rw [decimal_text_ge x hx, List.length_append, ih (x / 10) (by omega)]
      simp; omega
    · simp only [hx, if_false]
      rw [decimal_text_lt x (by omega)]
      rfl

theorem num_digits_le_of_lt_pow (e : Nat) : ∀ x : Nat, 0 < e → x < 10 ^ e →
    num_digits x ≤ e := by
  induction e with
  | zero => intro x h; omega
  | succ e ih =>
    intro x _ hx
    rw [num_digits_unfold]
    by_cases h10 : x ≥ 10
    · simp only [h10, if_true]
      have he : 0 < e := by
        rcases Nat.eq_zero_or_pos e with h0 | h0
        · subst h0; simp at hx; omega
        · exact h0
      have := ih (x / 10) he (by rw [pow_succ] at hx; omega)
      omega
    · simp only [h10, if_false]; omega

theorem max_uint_length_eq : max_uint_length = 20 := by decide

theorem num_digits_le_max (x : Nat) (h : x < word) : num_digits x ≤ max_uint_length := by
  rw [max_uint_length_eq]
  apply num_digits_le_of_lt_pow 20 x (by omega)
  unfold word at h
  omega

/-! ### The digit loop of the unsigned renderer -/

theorem size_sub_eq (a b : Nat) (hb : b ≤ a) (ha : a < word) : size_sub a b = a - b := by
  unfold size_sub
  have hbw : b % word = b := Nat.mod_eq_of_lt (by omega)
  rw [hbw]
  have : a + word - b = (a - b) + word := by omega
  rw [this, Nat.add_mod_right, Nat.mod_eq_of_lt (by omega)]

theorem set_at_mid (pre mid post : List Char) (x c : Char) (sz i : Nat)
    (hi : i = pre.length + mid.length) (hsz : i < sz) :
    ({ buffer := pre ++ (mid ++ [x]) ++ post, data_size := sz } : small_string_span).set i c =
      some { buffer := pre ++ mid ++ (c :: post), data_size := sz } := by
  subst hi
  have hlen : pre.length + mid.length = (pre ++ mid).length := by simp
  simp only [small_string_span.set, small_string_span.size, hsz, if_true]
  congr 2
  have hb : pre ++ (mid ++ [x]) ++ post = (pre ++ mid) ++ (x :: post) := by simp
  rw [hb, hlen, List.set_append_right _ _ (le_refl _)]
  simp

theorem append_uint_loop_spec (sz : Nat) (hsz : sz < word) :
    ∀ (fuel j k : Nat) (pre mid post : List Char), j ≤ fuel → 0 < j → 1 ≤ k →
      mid.length = num_digits j → pre.length + mid.length + (k - 1) = sz →
      append_uint_loop fuel j k { buffer := pre ++ mid ++ post, data_size := sz } =
        some { buffer := pre ++ decimal_text j ++ post, data_size := sz } := by
  intro fuel
  induction fuel with
  | zero => intro j k pre mid post hj hpos; omega
  | succ fuel ih =>
    intro j k pre mid post hj hpos hk hmid hlen
    have hj0 : j ≠ 0 := by omega
    have hnd := num_digits_unfold j
    have hmne : mid ≠ [] := by
      intro h
      have := num_digits_pos j
      rw [h] at hmid
      simp at hmid
      omega
    obtain ⟨mid1, x, hx⟩ : ∃ mid1 x, mid = mid1 ++ [x] :=
      ⟨mid.dropLast, mid.getLast hmne, (List.dropLast_concat_getLast hmne).symm⟩
    subst hx
    simp only [List.length_append, List.length_singleton] at hmid hlen
    have hidx : size_sub sz k = pre.length + mid1.length := by
      rw [size_sub_eq sz k (by omega) hsz]
      omega
    have hset := set_at_mid pre mid1 post x (Nat.digitChar (j % 10)) sz
      (pre.length + mid1.length) rfl (by omega)
    simp only [append_uint_loop, hj0, ne_eq, not_false_eq_true, if_true,
      digits_getElem (j % 10) (Nat.mod_lt _ (by omega)), small_string_span.size, hidx, hset]
    by_cases h10 : j ≥ 10
    · simp only [h10, if_true] at hnd
      have hrec := ih (j / 10) (k + 1) pre mid1 (Nat.digitChar (j % 10) :: post)
        (by omega) (by omega) (by omega) (by omega) (by omega)
      rw [hrec, decimal_text_ge j h10]
      simp
    · simp only [h10, if_false] at hnd
      have hj10 : j / 10 = 0 := by omega
      have hm1 : mid1 = [] := List.length_eq_zero.mp (by omega)
      subst hm1
      have hjm : j % 10 = j := by omega
      rw [hj10, decimal_text_lt j (by omega), hjm]
      cases fuel <;> simp [append_uint_loop]

theorem small_string_resize (N n : Nat) (h : n ≤ N) :
    (small_string N).resize n =
      some { buffer := [] ++ List.replicate n (Char.ofNat 0) ++
        List.replicate (N - n) (Char.ofNat 0), data_size := n } := by
  simp only [small_string, small_string_span.resize, small_string_span.capacity,
    List.length_replicate, h, if_true, List.nil_append]
  congr 2
  rw [List.append_replicate_replicate]
  congr 1
  omega

/-- The unsigned renderer appends the canonical decimal text (general form). -/
theorem append_constexpr_uint_eq (ss : small_string_span) (i : Nat) (hi : i < word) :
    append_constexpr_uint ss i = append_constexpr_str ss (decimal_text i) := by
  unfold append_constexpr_uint
  by_cases h0 : i = 0
  · subst h0
    simp only [ne_eq, not_true_eq_false, if_false]
    rfl
  · have hmax := num_digits_le_max i hi
    have hmw : num_digits i < word := by
      rw [max_uint_length_eq] at hmax
      unfold word
      omega
    simp only [ne_eq, h0, not_false_eq_true, if_true, small_string_resize _ _ hmax]
    rw [append_uint_loop_spec (num_digits i) hmw i i 1 [] _ _ (le_refl _) (by omega)
      (le_refl _) (by simp) (by simp)]
    simp only [small_string_span.str, small_string_span.size, List.nil_append]
    rw [List.take_left' (decimal_text_length i)]

end impl

/-! ### The signed renderer -/

namespace impl

theorem neg_natCast_tmod (n : Nat) : (-(n : Int)).tmod 10 = -((n % 10 : Nat) : Int) := by
  rw [Int.tmod_def, Int.neg_tdiv, Int.ofNat_tmod, Int.tmod_def]
  have h10 : ((10 : Nat) : Int) = 10 := rfl
  rw [h10]
  ring

theorem neg_natCast_tdiv (n : Nat) : (-(n : Int)).tdiv 10 = -((n / 10 : Nat) : Int) := by
  rw [Int.neg_tdiv, Int.ofNat_tdiv]
  rfl

theorem natCast_tdiv (n : Nat) : (n : Int).tdiv 10 = ((n / 10 : Nat) : Int) := by
  rw [Int.ofNat_tdiv]
  rfl

theorem natCast_tmod (n : Nat) : (n : Int).tmod 10 = ((n % 10 : Nat) : Int) := by
  rw [Int.ofNat_tmod]
  rfl

theorem digits_at_natCast (d : Nat) : digits_at (d : Int) = digits[d]? := by
  simp [digits_at]

theorem int_neg_digit (d : Nat) (h : d < 10) : int_neg (-(d : Int)) = some (d : Int) := by
  have hr : in_int_range (d : Int) := by
    unfold in_int_range
    constructor <;> omega
  simp only [int_neg, neg_neg, hr, if_true]

theorem num_digits_int_pos (fuel : Nat) : ∀ n : Nat, n ≤ fuel → 0 < n →
    num_digits_int_fuel fuel (n : Int) = num_digits n := by
  induction fuel with
  | zero => intro n h1 h2; omega
  | succ fuel ih =>
    intro n h1 h2
    rw [num_digits_unfold]
    simp only [num_digits_int_fuel]
    by_cases h10 : n ≥ 10
    · have hi : (n : Int) ≥ 10 := by omega
      simp only [hi, h10, if_true]
      rw [natCast_tdiv, ih (n / 10) (by omega) (by omega)]
    · have hi : ¬ (n : Int) ≥ 10 := by omega
      have hi2 : ¬ (n : Int) ≤ -10 := by omega
      have hi3 : (n : Int) > 0 := by omega
      simp only [hi, hi2, hi3, h10, if_true, if_false]

theorem num_digits_int_neg (fuel : Nat) : ∀ n : Nat, n ≤ fuel → 0 < n →
    num_digits_int_fuel fuel (-(n : Int)) = 1 + num_digits n := by
  induction fuel with
  | zero => intro n h1 h2; omega
  | succ fuel ih =>
    intro n h1 h2
    rw [num_digits_unfold]
    simp only [num_digits_int_fuel]
    have hi : ¬ (-(n : Int)) ≥ 10 := by omega
    by_cases h10 : n ≥ 10
    · have hi2 : (-(n : Int)) ≤ -10 := by omega
      simp only [hi, hi2, h10, if_true, if_false]
      rw [neg_natCast_tdiv, ih (n / 10) (by omega) (by omega)]
    · have hi2 : ¬ (-(n : Int)) ≤ -10 := by omega
      have hi3 : ¬ (-(n : Int)) > 0 := by omega
      simp only [hi, hi2, hi3, h10, if_false]

theorem append_int_pos_loop_eq (fuel : Nat) : ∀ (n k : Nat) (tmp : small_string_span),
    append_int_pos_loop fuel (n : Int) k tmp = append_uint_loop fuel n k tmp := by
  induction fuel with
  | zero =>
    intro n k tmp
    simp [append_int_pos_loop, append_uint_loop]
  | succ fuel ih =>
    intro n k tmp
    simp only [append_int_pos_loop, append_uint_loop, natCast_tmod, natCast_tdiv,
      digits_at_natCast, ih]
    by_cases h0 : n = 0
    · simp [h0]
    · have hi : (n : Int) ≠ 0 := by omega
      simp only [ne_eq, h0, hi, not_false_eq_true, if_true]

theorem append_int_neg_loop_eq (fuel : Nat) : ∀ (n k : Nat) (tmp : small_string_span),
    append_int_neg_loop fuel (-(n : Int)) k tmp = append_uint_loop fuel n k tmp := by
  induction fuel with
  | zero =>
    intro n k tmp
    simp [append_int_neg_loop, append_uint_loop]
  | succ fuel ih =>
    intro n k tmp
    simp only [append_int_neg_loop, append_uint_loop, neg_natCast_tmod, neg_natCast_tdiv,
      int_neg_digit (n % 10) (Nat.mod_lt _ (by omega)), digits_at_natCast, ih]
    by_cases h0 : n = 0
    · simp [h0]
    · have hi : (-(n : Int)) ≠ 0 := by omega
      simp only [ne_eq, h0, hi, not_false_eq_true, if_true]

theorem max_int_length_eq : max_int_length = 21 := by decide

/-- The signed renderer appends the decimal text of the integer (general form). -/
theorem append_constexpr_int_eq (ss : small_string_span) (i : Int) (hi : in_int_range i) :
    append_constexpr_int ss i = append_constexpr_str ss (int_text i) := by
  unfold in_int_range at hi
  unfold append_constexpr_int int_text
  rcases lt_trichotomy i 0 with hneg | hzero | hpos
  · -- `i < 0`
    obtain ⟨n, hn⟩ : ∃ n : Nat, i = -(n : Int) := ⟨i.natAbs, by omega⟩
    subst hn
    have hn0 : 0 < n := by omega
    have hnw : n < word := by unfold word; omega
    have hnd : num_digits_int (-(n : Int)) = 1 + num_digits n := by
      unfold num_digits_int
      exact num_digits_int_neg _ n (by simp) hn0
    have hmax := num_digits_le_max n hnw
    rw [max_uint_length_eq] at hmax
    have hres : (small_string max_int_length).resize (1 + num_digits n) =
        some { buffer := [Char.ofNat 0] ++ List.replicate (num_digits n) (Char.ofNat 0) ++
          List.replicate (20 - num_digits n) (Char.ofNat 0), data_size := 1 + num_digits n } := by
      have hle : 1 + num_digits n ≤ 21 := by omega
      simp only [small_string, max_int_length_eq, small_string_span.resize,
        small_string_span.capacity, List.length_replicate, hle, if_true]
      congr 2
      have h1 : [Char.ofNat 0] = List.replicate 1 (Char.ofNat 0) := rfl
      rw [h1, List.append_replicate_replicate, List.append_replicate_replicate]
      congr 1
      omega
    have hnot : ¬ (-(n : Int)) > 0 := by omega
    have hloop := append_uint_loop_spec (1 + num_digits n) (by unfold word; omega)
      n n 1 [Char.ofNat 0] (List.replicate (num_digits n) (Char.ofNat 0))
      (List.replicate (20 - num_digits n) (Char.ofNat 0)) (le_refl _) hn0 (le_refl _)
      (by simp) (by simp)
    have hset : (small_string_span.mk ([Char.ofNat 0] ++ decimal_text n ++
          List.replicate (20 - num_digits n) (Char.ofNat 0)) (1 + num_digits n)).set 0 '-' =
        some (small_string_span.mk (('-' :: decimal_text n) ++
          List.replicate (20 - num_digits n) (Char.ofNat 0)) (1 + num_digits n)) := by
      have hp : 0 < 1 + num_digits n := by omega
      simp [small_string_span.set, small_string_span.size, hp]
    have habs : (-(n : Int)).natAbs = n := by simp
    simp only [hnot, hneg, if_true, if_false, hnd, hres, habs, append_int_neg_loop_eq, hloop,
      hset, small_string_span.str, small_string_span.size]
    rw [List.take_left' (by rw [List.length_cons, decimal_text_length]; omega)]
  · subst hzero
    simp only [gt_iff_lt, lt_self_iff_false, if_false]
    rfl
  · -- `i > 0`
    obtain ⟨n, hn⟩ : ∃ n : Nat, i = (n : Int) := ⟨i.natAbs, by omega⟩
    subst hn
    have hn0 : 0 < n := by omega
    have hnw : n < word := by unfold word; omega
    have hnd : num_digits_int (n : Int) = num_digits n := by
      unfold num_digits_int
      exact num_digits_int_pos _ n (by simp) hn0
    have hmax := num_digits_le_max n hnw
    rw [max_uint_length_eq] at hmax
    have hle : num_digits n ≤ max_int_length := by rw [max_int_length_eq]; omega
    have hloop := append_uint_loop_spec (num_digits n) (by unfold word; omega)
      n n 1 [] (List.replicate (num_digits n) (Char.ofNat 0))
      (List.replicate (max_int_length - num_digits n) (Char.ofNat 0)) (le_refl _) hn0
      (le_refl _) (by simp) (by simp)
    have hnot : ¬ (n : Int) < 0 := by omega
    have habs : (n : Int).natAbs = n := by simp
    simp only [List.nil_append] at hloop
    simp only [gt_iff_lt, hpos, hnot, if_true, if_false, hnd, small_string_resize _ _ hle,
      habs, append_int_pos_loop_eq, hloop, small_string_span.str, small_string_span.size,
      List.nil_append]
    rw [List.take_left' (decimal_text_length n)]

end impl

/-! ### The contracts of the string and integer overloads -/

namespace impl

/-- C1: for every buffer whose length does not exceed its capacity and every byte
string `s`, `append_constexpr(ss, s)` returns a result, the flag tells whether
`|s| ≤ C - L`, the capacity is unchanged, the length becomes `L + min(|s|, C - L)` (so it
stays within the capacity), and the content is the old content followed by the first
`min(|s|, C - L)` bytes of `s`; the bytes already written are unchanged. -/
theorem append_constexpr_str_contract (ss : small_string_span) (s : List Char)
    (h : ss.size ≤ ss.capacity) :
    ∃ ss1 : small_string_span,
      append_constexpr_str ss s = some (decide (s.length ≤ ss.capacity - ss.size), ss1) ∧
      ss1.capacity = ss.capacity ∧
      ss1.size = ss.size + min s.length (ss.capacity - ss.size) ∧
      ss1.size ≤ ss1.capacity ∧
      ss1.str = ss.str ++ s.take (min s.length (ss.capacity - ss.size)) ∧
      ss1.str.take ss.size = ss.str := by
  have hwf : ss.wf := h
  have hstr := appended_str ss s hwf
  have hmin : s.take (min s.length (ss.capacity - ss.size)) =
      s.take (ss.capacity - ss.size) := by
    rw [List.take_eq_take]
    omega
  refine ⟨(appended ss s).2, append_constexpr_str_eq ss s hwf, appended_capacity ss s hwf,
    appended_size ss s, appended_wf ss s hwf, ?_, ?_⟩
  · rw [hmin]; exact hstr
  · rw [hstr, List.take_append_eq_append_take, str_length ss hwf, Nat.sub_self,
      List.take_zero, List.append_nil]
    exact List.take_of_length_le (le_of_eq (str_length ss hwf))

/-- The string overload at a concrete input: `"hello"` into a buffer of capacity 6 that
already holds `"ab"`. -/
theorem append_constexpr_str_contract_witness :
    ∃ ss1 : small_string_span,
      append_constexpr_str { buffer := "ab????".toList, data_size := 2 } "hello".toList =
        some (decide ("hello".toList.length ≤
          (small_string_span.mk "ab????".toList 2).capacity -
            (small_string_span.mk "ab????".toList 2).size), ss1) ∧
      ss1.capacity = (small_string_span.mk "ab????".toList 2).capacity ∧
      ss1.size = (small_string_span.mk "ab????".toList 2).size +
        min "hello".toList.length ((small_string_span.mk "ab????".toList 2).capacity -
          (small_string_span.mk "ab????".toList 2).size) ∧
      ss1.size ≤ ss1.capacity ∧
      ss1.str = (small_string_span.mk "ab????".toList 2).str ++
        "hello".toList.take (min "hello".toList.length
          ((small_string_span.mk "ab????".toList 2).capacity -
            (small_string_span.mk "ab????".toList 2).size)) ∧
      ss1.str.take (small_string_span.mk "ab????".toList 2).size =
        (small_string_span.mk "ab????".toList 2).str :=
  append_constexpr_str_contract { buffer := "ab????".toList, data_size := 2 }
    "hello".toList (by decide)

/-- C2: for every unsigned 64-bit `i` and every buffer, `append_constexpr(ss, i)` is the
append of the canonical decimal text of `i` (the text printed for `i`, `"0"` for zero):
with `N` the length of that text and `A` the free space, it returns `true` and grows the
length by `N` when `N ≤ A`, and otherwise returns `false`, fills the buffer to capacity,
and the bytes added are the first `A` bytes of the text. -/
theorem append_constexpr_uint_contract (ss : small_string_span) (i : Nat)
    (hi : i < 2 ^ 64) (h : ss.size ≤ ss.capacity) :
    (decimal_text i).asString = toString i ∧ decimal_text 0 = ['0'] ∧
    append_constexpr_uint ss i = append_constexpr_str ss (decimal_text i) ∧
    ∃ ss1 : small_string_span,
      append_constexpr_uint ss i =
        some (decide ((decimal_text i).length ≤ ss.capacity - ss.size), ss1) ∧
      ss1.capacity = ss.capacity ∧
      ((decimal_text i).length ≤ ss.capacity - ss.size →
        ss1.size = ss.size + (decimal_text i).length ∧
        ss1.str = ss.str ++ decimal_text i) ∧
      (ss.capacity - ss.size < (decimal_text i).length →
        ss1.size = ss.capacity ∧
        ss1.str = ss.str ++ (decimal_text i).take (ss.capacity - ss.size)) := by
  have hwf : ss.wf := h
  have heq := append_constexpr_uint_eq ss i hi
  refine ⟨rfl, rfl, heq, (appended ss (decimal_text i)).2, ?_, appended_capacity ss _ hwf,
    ?_, ?_⟩
  · rw [heq, append_constexpr_str_eq ss _ hwf]
    rfl
  · intro hfit
    refine ⟨?_, ?_⟩
    · rw [appended_size, min_eq_left hfit]
    · rw [appended_str ss _ hwf, List.take_of_length_le hfit]
  · intro hover
    refine ⟨?_, appended_str ss _ hwf⟩
    rw [appended_size, min_eq_right (le_of_lt hover)]
    omega

/-- The unsigned renderer at a concrete input: `12345` into an empty buffer of
capacity 3. -/
theorem append_constexpr_uint_contract_witness :
    (decimal_text 12345).asString = toString 12345 ∧ decimal_text 0 = ['0'] ∧
    append_constexpr_uint (small_string 3) 12345 =
      append_constexpr_str (small_string 3) (decimal_text 12345) ∧
    ∃ ss1 : small_string_span,
      append_constexpr_uint (small_string 3) 12345 =
        some (decide ((decimal_text 12345).length ≤
          (small_string 3).capacity - (small_string 3).size), ss1) ∧
      ss1.capacity = (small_string 3).capacity ∧
      ((decimal_text 12345).length ≤ (small_string 3).capacity - (small_string 3).size →
        ss1.size = (small_string 3).size + (decimal_text 12345).length ∧
        ss1.str = (small_string 3).str ++ decimal_text 12345) ∧
      ((small_string 3).capacity - (small_string 3).size < (decimal_text 12345).length →
        ss1.size = (small_string 3).capacity ∧
        ss1.str = (small_string 3).str ++
          (decimal_text 12345).take ((small_string 3).capacity - (small_string 3).size)) :=
  append_constexpr_uint_contract (small_string 3) 12345 (by norm_num) (by decide)

/-- C3: for every signed 64-bit `i`, the minimum value included,
`append_constexpr(ss, i)` returns a result, which is the append (truncated to the free
space, the flag telling whether all of it fit) of the decimal text of `i`: the decimal
text of `|i|` preceded by `-` exactly when `i < 0`, and `"0"` for zero.  The only
negation in the renderer is that of the remainder `j % 10`: for every negative `j` of the
type it does not overflow and the digit index `-(j % 10)` lies in `0..9`.  Examples:
`-42` gives `"-42"`, `12345` into an empty buffer of capacity 3 returns `false` and
leaves `"123"`, and the minimum value is rendered in full. -/
theorem append_constexpr_int_contract (ss : small_string_span) (i : Int)
    (hlo : -(2 : Int) ^ 63 ≤ i) (hhi : i < (2 : Int) ^ 63) (h : ss.size ≤ ss.capacity) :
    (∃ ss1 : small_string_span,
      append_constexpr_int ss i =
        some (decide ((int_text i).length ≤ ss.capacity - ss.size), ss1) ∧
      ss1.capacity = ss.capacity ∧
      ss1.size = ss.size + min (int_text i).length (ss.capacity - ss.size) ∧
      ss1.str = ss.str ++ (int_text i).take (ss.capacity - ss.size)) ∧
    int_text i = (if i < 0 then '-' :: decimal_text i.natAbs else decimal_text i.natAbs) ∧
    int_text 0 = ['0'] ∧
    (∀ j : Int, -(2 : Int) ^ 63 ≤ j → j < 0 →
      ∃ d : Nat, d ≤ 9 ∧ int_neg (j.tmod 10) = some (d : Int) ∧
        digits_at (d : Int) = some (Nat.digitChar d)) ∧
    (append_constexpr_int (small_string 32) (-42)).map (fun r => (r.1, r.2.str)) =
      some (true, "-42".toList) ∧
    (append_constexpr_int (small_string 3) 12345).map (fun r => (r.1, r.2.str)) =
      some (false, "123".toList) ∧
    (append_constexpr_int (small_string 32) (-9223372036854775808)).map
      (fun r => (r.1, r.2.str)) = some (true, "-9223372036854775808".toList) := by
  have hwf : ss.wf := h
  have heq := append_constexpr_int_eq ss i ⟨hlo, hhi⟩
  refine ⟨⟨(appended ss (int_text i)).2, ?_, appended_capacity ss _ hwf, appended_size ss _,
    appended_str ss _ hwf⟩, rfl, rfl, ?_, by decide, by decide, by decide⟩
  · rw [heq, append_constexpr_str_eq ss _ hwf]
    rfl
  · intro j _ hj
    obtain ⟨n, hn⟩ : ∃ n : Nat, j = -(n : Int) := ⟨j.natAbs, by omega⟩
    subst hn
    have hlt : n % 10 < 10 := Nat.mod_lt _ (by omega)
    refine ⟨n % 10, by omega, ?_, ?_⟩
    · rw [neg_natCast_tmod]
      exact int_neg_digit _ hlt
    · rw [digits_at_natCast]
      exact digits_getElem _ hlt

/-- The signed renderer at the minimum value, into a buffer that is too small for it. -/
theorem append_constexpr_int_contract_witness :
    (∃ ss1 : small_string_span,
      append_constexpr_int (small_string 8) (-9223372036854775808) =
        some (decide ((int_text (-9223372036854775808)).length ≤
          (small_string 8).capacity - (small_string 8).size), ss1) ∧
      ss1.capacity = (small_string 8).capacity ∧
      ss1.size = (small_string 8).size + min (int_text (-9223372036854775808)).length
        ((small_string 8).capacity - (small_string 8).size) ∧
      ss1.str = (small_string 8).str ++ (int_text (-9223372036854775808)).take
        ((small_string 8).capacity - (small_string 8).size)) ∧
    int_text (-9223372036854775808) =
      (if (-9223372036854775808 : Int) < 0
        then '-' :: decimal_text (-9223372036854775808 : Int).natAbs
        else decimal_text (-9223372036854775808 : Int).natAbs) ∧
    int_text 0 = ['0'] ∧
    (∀ j : Int, -(2 : Int) ^ 63 ≤ j → j < 0 →
      ∃ d : Nat, d ≤ 9 ∧ int_neg (j.tmod 10) = some (d : Int) ∧
        digits_at (d : Int) = some (Nat.digitChar d)) ∧
    (append_constexpr_int (small_string 32) (-42)).map (fun r => (r.1, r.2.str)) =
      some (true, "-42".toList) ∧
    (append_constexpr_int (small_string 3) 12345).map (fun r => (r.1, r.2.str)) =
      some (false, "123".toList) ∧
    (append_constexpr_int (small_string 32) (-9223372036854775808)).map
      (fun r => (r.1, r.2.str)) = some (true, "-9223372036854775808".toList) :=
  append_constexpr_int_contract (small_string 8) (-9223372036854775808)
    (by norm_num) (by norm_num) (by decide)

end impl

/-! ### The variadic form -/

theorem appended_of_not_fit (ss : small_string_span) (a b : List Char)
    (hover : ss.capacity - ss.size < a.length) :
    appended ss (a ++ b) = appended ss a := by
  have h1 : ¬ (a ++ b).length ≤ ss.capacity - ss.size := by
    rw [List.length_append]; omega
  have h2 : ¬ a.length ≤ ss.capacity - ss.size := by omega
  have h3 : min (a ++ b).length (ss.capacity - ss.size) = min a.length (ss.capacity - ss.size) := by
    rw [List.length_append]; omega
  have h4 : List.take (ss.capacity - ss.size) (a ++ b) = List.take (ss.capacity - ss.size) a :=
    List.take_append_of_le_length (le_of_lt hover)
  simp only [appended, h1, h2, h3, h4]

theorem appended_appended (ss : small_string_span) (a b : List Char) (h : ss.wf)
    (hfit : a.length ≤ ss.capacity - ss.size) :
    appended (appended ss a).2 b =
      (decide ((a ++ b).length ≤ ss.capacity - ss.size), (appended ss (a ++ b)).2) := by
  have hcap := appended_capacity ss a h
  have hsize := appended_size ss a
  have hstr := appended_str ss a h
  rw [min_eq_left hfit] at hsize
  rw [List.take_of_length_le hfit] at hstr
  have hl := str_length ss h
  have hbuf : (appended ss a).2.buffer =
      (ss.str ++ a) ++ ss.buffer.drop (ss.size + a.length) := by
    simp only [appended, List.take_of_length_le hfit, min_eq_left hfit]
  have hdrop : ∀ m, ((appended ss a).2.buffer).drop (ss.size + a.length + m) =
      ss.buffer.drop (ss.size + a.length + m) := by
    intro m
    rw [hbuf]
    have hlen : (ss.str ++ a).length = ss.size + a.length := by
      rw [List.length_append, hl]
    rw [← hlen, List.drop_append, List.drop_drop, hlen]
  have hmin : min (a ++ b).length (ss.capacity - ss.size) =
      a.length + min b.length (ss.capacity - (ss.size + a.length)) := by
    rw [List.length_append]; omega
  have htake : List.take (ss.capacity - ss.size) (a ++ b) =
      a ++ List.take (ss.capacity - (ss.size + a.length)) b := by
    rw [List.take_append_eq_append_take, List.take_of_length_le hfit]
    congr 2
    omega
  have hflag : decide (b.length ≤ ss.capacity - (ss.size + a.length)) =
      decide ((a ++ b).length ≤ ss.capacity - ss.size) := by
    rw [List.length_append]
    congr 1
    apply propext
    constructor <;> intro <;> omega
  clear hbuf
  generalize (appended ss a).2 = X at hcap hsize hstr hdrop ⊢
  simp only [appended, hcap, hsize, hstr, hdrop, hmin, htake, hflag, Prod.mk.injEq,
    small_string_span.mk.injEq, true_and]
  constructor
  · simp only [List.append_assoc, Nat.add_assoc]
  · omega

theorem append_eq (ss : small_string_span) (a : appendable) (h : ss.wf) (ha : a.valid) :
    append ss a = some (appended ss (rendering a)) := by
  cases a with
  | text s => exact impl.append_constexpr_str_eq ss s h
  | uint i =>
    simp only [append, rendering]
    rw [impl.append_constexpr_uint_eq ss i ha, impl.append_constexpr_str_eq ss _ h]
  | int i =>
    simp only [append, rendering]
    rw [impl.append_constexpr_int_eq ss i ha, impl.append_constexpr_str_eq ss _ h]

/-- Appending `a` and then, if it fit, running `f`, where `f` appends `b`: the result is
the append of `a ++ b`. -/
theorem and_then_appended (ss : small_string_span) (a b : List Char) (h : ss.wf)
    (f : small_string_span → Option (Bool × small_string_span))
    (hf : ∀ ss1 : small_string_span, ss1.wf → f ss1 = some (appended ss1 b)) :
    and_then (some (appended ss a)) f = some (appended ss (a ++ b)) := by
  by_cases hfit : a.length ≤ ss.capacity - ss.size
  · have h1 : appended ss a = (true, (appended ss a).2) := by
      simp [appended, hfit]
    rw [h1]
    simp only [and_then]
    rw [hf _ (appended_wf ss a h), appended_appended ss a b h hfit]
    rfl
  · have hover : ss.capacity - ss.size < a.length := by omega
    have h1 : appended ss a = (false, (appended ss a).2) := by
      simp [appended, hfit]
    rw [appended_of_not_fit ss a b hover, h1]
    simp only [and_then]

theorem append_fold_eq (args : List appendable) : ∀ ss : small_string_span, ss.wf →
    (∀ a ∈ args, a.valid) → append_fold ss args = some (appended ss (renderings args)) := by
  induction args with
  | nil =>
    intro ss h _
    have hl := str_length ss h
    unfold small_string_span.wf at h
    cases ss with
    | mk b n =>
      simp only [small_string_span.str, small_string_span.size,
        small_string_span.capacity] at hl h
      simp [append_fold, renderings, appended, small_string_span.str,
        small_string_span.size]
  | cons a rest ih =>
    intro ss h hv
    simp only [append_fold, renderings]
    rw [append_eq ss a h (hv a (List.mem_cons_self _ _))]
    exact and_then_appended ss _ _ h _
      (fun ss1 h1 => ih ss1 h1 (fun x hx => hv x (List.mem_cons_of_mem _ hx)))

/-- The variadic `append` is the append of the concatenated renderings (general form). -/
theorem append_variadic_eq (ss : small_string_span) (t u : appendable)
    (args : List appendable) (h : ss.wf) (ht : t.valid) (hu : u.valid)
    (hargs : ∀ a ∈ args, a.valid) :
    append_variadic ss t u args =
      some (appended ss (rendering t ++ rendering u ++ renderings args)) := by
  unfold append_variadic
  rw [append_eq ss t h ht]
  rw [and_then_appended ss (rendering t) (rendering u) h _ (fun ss1 h1 => append_eq ss1 u h1 hu)]
  exact and_then_appended ss _ _ h _ (fun ss1 h1 => append_fold_eq args ss1 h1 hargs)

/-- C4: for every sequence of two or more text or integer values and every buffer with
free space `A`, the variadic `append` returns a result; with `N` the length of the
concatenation of the full renderings, the flag is `true` iff `N ≤ A`, and in every case
the bytes added are exactly the first `min(N, A)` bytes of that concatenation (so on
overflow the buffer is full).  Example: capacity 32 with `"x="`, `7`, `", y="`, `-3`
returns `true` with content `"x=7, y=-3"`. -/
theorem append_variadic_contract (ss : small_string_span) (t u : appendable)
    (args : List appendable) (h : ss.size ≤ ss.capacity) (ht : t.valid) (hu : u.valid)
    (hargs : ∀ a ∈ args, a.valid) :
    (∃ ss1 : small_string_span,
      append_variadic ss t u args =
        some (decide ((rendering t ++ rendering u ++ renderings args).length ≤
          ss.capacity - ss.size), ss1) ∧
      ss1.capacity = ss.capacity ∧
      ss1.size = ss.size + min (rendering t ++ rendering u ++ renderings args).length
        (ss.capacity - ss.size) ∧
      ss1.str = ss.str ++ (rendering t ++ rendering u ++ renderings args).take
        (min (rendering t ++ rendering u ++ renderings args).length
          (ss.capacity - ss.size)) ∧
      (ss.capacity - ss.size < (rendering t ++ rendering u ++ renderings args).length →
        ss1.size = ss1.capacity)) ∧
    (append_variadic (small_string 32) (.text "x=".toList) (.int 7)
        [.text ", y=".toList, .int (-3)]).map (fun r => (r.1, r.2.str)) =
      some (true, "x=7, y=-3".toList) := by
  have hwf : ss.wf := h
  have hcap := appended_capacity ss (rendering t ++ rendering u ++ renderings args) hwf
  have hsize := appended_size ss (rendering t ++ rendering u ++ renderings args)
  refine ⟨⟨(appended ss (rendering t ++ rendering u ++ renderings args)).2, ?_, hcap, hsize,
    ?_, ?_⟩, by decide⟩
  · rw [append_variadic_eq ss t u args hwf ht hu hargs]
    rfl
  · rw [appended_str ss _ hwf]
    congr 1
    rw [List.take_eq_take]
    omega
  · intro hover
    rw [hcap, hsize]
    omega

/-- The variadic form at a concrete input that overflows: `"ab"`, `12345`, `"c"` into an
empty buffer of capacity 4. -/
theorem append_variadic_contract_witness :
    (∃ ss1 : small_string_span,
      append_variadic (small_string 4) (.text "ab".toList) (.uint 12345)
          [.text "c".toList] =
        some (decide ((rendering (.text "ab".toList) ++ rendering (.uint 12345) ++
          renderings [.text "c".toList]).length ≤
          (small_string 4).capacity - (small_string 4).size), ss1) ∧
      ss1.capacity = (small_string 4).capacity ∧
      ss1.size = (small_string 4).size + min (rendering (.text "ab".toList) ++
        rendering (.uint 12345) ++ renderings [.text "c".toList]).length
        ((small_string 4).capacity - (small_string 4).size) ∧
      ss1.str = (small_string 4).str ++ (rendering (.text "ab".toList) ++
        rendering (.uint 12345) ++ renderings [.text "c".toList]).take
        (min (rendering (.text "ab".toList) ++ rendering (.uint 12345) ++
          renderings [.text "c".toList]).length
          ((small_string 4).capacity - (small_string 4).size)) ∧
      ((small_string 4).capacity - (small_string 4).size <
          (rendering (.text "ab".toList) ++ rendering (.uint 12345) ++
            renderings [.text "c".toList]).length →
        ss1.size = ss1.capacity)) ∧
    (append_variadic (small_string 32) (.text "x=".toList) (.int 7)
        [.text ", y=".toList, .int (-3)]).map (fun r => (r.1, r.2.str)) =
      some (true, "x=7, y=-3".toList) :=
  append_variadic_contract (small_string 4) (.text "ab".toList) (.uint 12345)
    [.text "c".toList] (by decide) trivial (by unfold appendable.valid word; norm_num)
    (by intro a ha; simp only [List.mem_singleton] at ha; subst ha; trivial)

/-! ### `set_precision` -/

namespace impl

theorem exp_check_eq (exp_width : Nat) (x : Int) (h : in_exp_range exp_width x) :
    exp_check exp_width x = some x := if_pos h

theorem exp_check_none (exp_width : Nat) (x : Int) (h : ¬ in_exp_range exp_width x) :
    exp_check exp_width x = none := if_neg h

/-- The range of `fixed_exp_t` is an interval. -/
theorem in_exp_range_mid (exp_width : Nat) (a b x : Int) (ha : in_exp_range exp_width a)
    (hb : in_exp_range exp_width b) (h1 : a ≤ x) (h2 : x ≤ b) : in_exp_range exp_width x :=
  ⟨le_trans ha.1 h1, lt_of_le_of_lt h2 hb.2⟩

/-- The largest value of `fixed_exp_t` has no successor in the type. -/
theorem in_exp_range_max (exp_width : Nat) :
    in_exp_range exp_width (((2 ^ (exp_width - 1) : Nat) : Int) - 1) ∧
    ¬ in_exp_range exp_width (((2 ^ (exp_width - 1) : Nat) : Int) - 1 + 1) := by
  have hpos : 0 < 2 ^ (exp_width - 1) := by positivity
  unfold in_exp_range
  constructor
  · constructor <;> omega
  · intro h
    omega

theorem round_half_to_even_eq (i : Nat) (only_zero : Bool) (hi : i + 5 < word) :
    round_half_to_even i only_zero =
      if only_zero = true ∧ i % 10 = 5 then i / 10 + (i / 10) % 2 else (i + 5) / 10 := by
  unfold round_half_to_even
  have hw : (i + 5) % word = i + 5 := Nat.mod_eq_of_lt hi
  have hx : (i / 10) % 2 < 2 := Nat.mod_lt _ (by omega)
  have hword : word = 2 ^ 64 := rfl
  have h1 : size_sub 1 ((i / 10) % 2) = 1 - (i / 10) % 2 :=
    size_sub_eq 1 _ (by omega) (by omega)
  simp only [hw, h1]
  by_cases hc : only_zero = true ∧ i % 10 = 5
  · obtain ⟨hz, h5⟩ := hc
    simp only [hz, h5, decide_True, Bool.and_self, if_true, and_self]
    rw [size_sub_eq _ _ (by omega) (by omega)]
    omega
  · have hb : (only_zero && decide (i % 10 = 5)) = false := by
      cases only_zero
      · rfl
      · simp only [true_and] at hc
        simp [hc]
    simp only [hb, hc, if_false, Bool.false_eq_true]

theorem set_precision_loop_done (exp_width : Nat) (p : Nat) (b : Nat) (fd : signed_fixed_data)
    (oz : Bool) (h : b ≤ p) : set_precision_loop exp_width p b fd oz = some fd := by
  cases b with
  | zero => rfl
  | succ b =>
    have : ¬ b + 1 > p := by omega
    simp only [set_precision_loop, this, if_false]

theorem mod_ten_mul_eq_zero (d T : Nat) :
    d % (10 * T) = 0 ↔ d % 10 = 0 ∧ (d / 10) % T = 0 := by
  rw [Nat.mod_mul]
  constructor
  · intro h
    have h1 : d % 10 = 0 := by omega
    have h2 : 10 * (d / 10 % T) = 0 := by omega
    exact ⟨h1, by omega⟩
  · rintro ⟨h1, h2⟩
    rw [h1, h2]

/-- The loop of `set_precision` when no increment of the exponent overflows: the exponent
after the first increment is a value of `fixed_exp_t` and so is the one after the last. -/
theorem set_precision_loop_spec (exp_width : Nat) (p : Nat) (hp : p + 1 < word) :
    ∀ (b : Nat) (fd : signed_fixed_data) (oz : Bool), p < b →
      in_exp_range exp_width (fd.exponent + 1) →
      in_exp_range exp_width (fd.exponent + ((b - p : Nat) : Int)) →
      set_precision_loop exp_width p b fd oz =
        some (signed_fixed_data.mk
          (round_half_to_even (fd.digits / 10 ^ (b - p - 1))
            (oz && decide (fd.digits % 10 ^ (b - p - 1) = 0)))
          (fd.exponent + ((b - p : Nat) : Int)) fd.sign) := by
  intro b
  induction b with
  | zero => intro fd oz h; omega
  | succ b ih =>
    intro fd oz h hlo hhi
    have hpw : (p + 1) % word = p + 1 := Nat.mod_eq_of_lt hp
    have hgt : b + 1 > p := h
    have hstep : in_exp_range exp_width (fd.exponent + 1) := hlo
    simp only [set_precision_loop, hgt, if_true, hpw, exp_check_eq _ _ hstep]
    by_cases hb : b + 1 > p + 1
    · simp only [hb, if_true]
      have hhi2 : in_exp_range exp_width (fd.exponent + 1 + ((b - p : Nat) : Int)) := by
        have : fd.exponent + 1 + ((b - p : Nat) : Int) =
            fd.exponent + ((b + 1 - p : Nat) : Int) := by omega
        rw [this]
        exact hhi
      have hstep2 : in_exp_range exp_width (fd.exponent + 1 + 1) :=
        in_exp_range_mid exp_width _ _ _ hstep hhi2 (by omega) (by omega)
      rw [ih _ _ (by omega) hstep2 hhi2]
      have he : b + 1 - p - 1 = (b - p - 1) + 1 := by omega
      have hdiv : fd.digits / 10 / 10 ^ (b - p - 1) = fd.digits / 10 ^ (b + 1 - p - 1) := by
        rw [he, pow_succ, Nat.div_div_eq_div_mul, mul_comm]
      have hmod : ((if fd.digits % 10 > 0 then false else oz) &&
          decide (fd.digits / 10 % 10 ^ (b - p - 1) = 0)) =
          (oz && decide (fd.digits % 10 ^ (b + 1 - p - 1) = 0)) := by
        have hiff := mod_ten_mul_eq_zero fd.digits (10 ^ (b - p - 1))
        rw [he, pow_succ, mul_comm (10 ^ (b - p - 1)) 10]
        by_cases h10 : fd.digits % 10 = 0
        · have hng : ¬ fd.digits % 10 > 0 := by omega
          simp only [hng, if_false]
          congr 1
          simp only [hiff, h10, true_and]
        · have hg : fd.digits % 10 > 0 := by omega
          have hne : ¬ fd.digits % (10 * 10 ^ (b - p - 1)) = 0 := by
            rw [hiff]; tauto
          simp [hg, hne]
      simp only [hdiv, hmod]
      congr 2
      omega
    · have hbp : b = p := by omega
      subst hbp
      simp only [hb, if_false]
      rw [set_precision_loop_done exp_width b b _ _ (le_refl _)]
      have he : b + 1 - b - 1 = 0 := by omega
      simp only [he, pow_zero, Nat.div_one, Nat.mod_one, decide_True, Bool.and_true]
      congr 2
      omega

/-- The loop of `set_precision` has no result when an increment of the exponent
overflows. -/
theorem set_precision_loop_overflow (exp_width : Nat) (p : Nat) (hp : p + 1 < word) :
    ∀ (b : Nat) (fd : signed_fixed_data) (oz : Bool), p < b →
      in_exp_range exp_width fd.exponent →
      ¬ in_exp_range exp_width (fd.exponent + ((b - p : Nat) : Int)) →
      set_precision_loop exp_width p b fd oz = none := by
  intro b
  induction b with
  | zero => intro fd oz h; omega
  | succ b ih =>
    intro fd oz h hlo hhi
    have hpw : (p + 1) % word = p + 1 := Nat.mod_eq_of_lt hp
    have hgt : b + 1 > p := h
    simp only [set_precision_loop, hgt, if_true, hpw]
    by_cases hstep : in_exp_range exp_width (fd.exponent + 1)
    · simp only [exp_check_eq _ _ hstep]
      by_cases hb : b + 1 > p + 1
      · simp only [hb, if_true]
        apply ih _ _ (by omega) hstep
        have : fd.exponent + 1 + ((b - p : Nat) : Int) =
            fd.exponent + ((b + 1 - p : Nat) : Int) := by omega
        simp only [this]
        exact hhi
      · have hbp : b = p := by omega
        subst hbp
        exfalso
        apply hhi
        have : fd.exponent + ((b + 1 - b : Nat) : Int) = fd.exponent + 1 := by omega
        rw [this]
        exact hstep
    · simp only [exp_check_none _ _ hstep]
      split_ifs <;> rfl

theorem num_digits_lt_word (x : Nat) (h : x < word) : num_digits x + 1 < word := by
  have := num_digits_le_max x h
  rw [max_uint_length_eq] at this
  unfold word
  omega

theorem set_precision_eq (exp_width : Nat) (fd : signed_fixed_data) (p : Nat)
    (hd : fd.digits < word) (hp : p < num_digits fd.digits)
    (hlo : in_exp_range exp_width (fd.exponent + 1))
    (hhi : in_exp_range exp_width (fd.exponent + ((num_digits fd.digits - p : Nat) : Int))) :
    set_precision exp_width fd p =
      some (signed_fixed_data.mk
        (round_half_to_even (fd.digits / 10 ^ (num_digits fd.digits - p - 1))
          (decide (fd.digits % 10 ^ (num_digits fd.digits - p - 1) = 0)))
        (fd.exponent + ((num_digits fd.digits - p : Nat) : Int)) fd.sign) := by
  have h1 := num_digits_lt_word fd.digits hd
  unfold set_precision
  rw [set_precision_loop_spec exp_width p (by omega) _ fd true hp hlo hhi]
  simp only [Bool.true_and]

theorem set_precision_of_le (exp_width : Nat) (fd : signed_fixed_data) (p : Nat)
    (hp : num_digits fd.digits ≤ p) : set_precision exp_width fd p = some fd :=
  set_precision_loop_done exp_width p _ fd true hp

theorem set_precision_overflow (exp_width : Nat) (fd : signed_fixed_data) (p : Nat)
    (hd : fd.digits < word) (hp : p < num_digits fd.digits)
    (hlo : in_exp_range exp_width fd.exponent)
    (hhi : ¬ in_exp_range exp_width (fd.exponent + ((num_digits fd.digits - p : Nat) : Int))) :
    set_precision exp_width fd p = none := by
  have h1 := num_digits_lt_word fd.digits hd
  exact set_precision_loop_overflow exp_width p (by omega) _ fd true hp hlo hhi

/-- The final rounding step is rounding to nearest, ties to even, of the whole dropped
part. -/
theorem round_half_to_even_nearest (D T : Nat) (hT : 0 < T) (hD : D / T + 5 < word) :
    round_half_to_even (D / T) (decide (D % T = 0)) = round_nearest_even D (T * 10) := by
  rw [round_half_to_even_eq _ _ hD]
  unfold round_nearest_even
  have hq : D / (T * 10) = D / T / 10 := by rw [Nat.div_div_eq_div_mul]
  have hr : D % (T * 10) = D % T + T * (D / T % 10) := Nat.mod_mul
  have hrem : D % T < T := Nat.mod_lt _ hT
  have hd0 : D / T % 10 < 10 := Nat.mod_lt _ (by omega)
  rw [hq, hr]
  simp only [decide_eq_true_eq]
  generalize D / T = d at *
  generalize D % T = rem at *
  have hsplit : d = 10 * (d / 10) + d % 10 := (Nat.div_add_mod d 10).symm
  generalize hq0 : d / 10 = q at *
  generalize hd0' : d % 10 = d0 at *
  have hsum : (d + 5) / 10 = q + (d0 + 5) / 10 := by omega
  rw [hsum]
  interval_cases d0 <;> by_cases hz : rem = 0 <;> simp [hz] <;> split_ifs <;> omega

end impl

/-! ### Rounding to nearest, ties to even -/

theorem round_nearest_even_dist (x m : Nat) (hm : 0 < m) (z : Nat) :
    |(x : Int) - (round_nearest_even x m : Int) * (m : Int)| ≤
      |(x : Int) - (z : Int) * (m : Int)| := by
  have hnat : (x / m) * m + x % m = x := by
    rw [mul_comm]; exact Nat.div_add_mod x m
  have hx : (x : Int) = ((x / m : Nat) : Int) * (m : Int) + ((x % m : Nat) : Int) := by
    rw [← Nat.cast_mul, ← Nat.cast_add, hnat]
  have hr : x % m < m := Nat.mod_lt _ hm
  have hz : (z ≤ x / m ∧ (z : Int) * m ≤ (x / m : Nat) * (m : Int)) ∨
      (x / m + 1 ≤ z ∧ ((x / m : Nat) + 1) * (m : Int) ≤ (z : Int) * m) := by
    rcases Nat.lt_or_ge (x / m) z with h | h
    · right
      refine ⟨h, ?_⟩
      have : ((x / m + 1 : Nat) : Int) ≤ (z : Int) := by exact_mod_cast h
      have hm0 : (0 : Int) ≤ (m : Int) := by positivity
      have := mul_le_mul_of_nonneg_right this hm0
      push_cast at this
      exact this
    · left
      refine ⟨h, ?_⟩
      have : (z : Int) ≤ ((x / m : Nat) : Int) := by exact_mod_cast h
      have hm0 : (0 : Int) ≤ (m : Int) := by positivity
      exact mul_le_mul_of_nonneg_right this hm0
  have hcase : (round_nearest_even x m = x / m ∧ 2 * (x % m) ≤ m) ∨
      (round_nearest_even x m = x / m + 1 ∧ m ≤ 2 * (x % m)) := by
    unfold round_nearest_even
    split_ifs <;> first | (left; constructor <;> first | rfl | omega)
                        | (right; constructor <;> first | rfl | omega)
  generalize (x / m : Nat) = q at *
  generalize (x % m : Nat) = r at *
  have hrm : (r : Int) < m := by exact_mod_cast hr
  have hr0 : (0 : Int) ≤ r := by positivity
  rcases hcase with ⟨he, hle⟩ | ⟨he, hle⟩
  · rw [he, hx]
    have hle2 : 2 * (r : Int) ≤ m := by exact_mod_cast hle
    rcases hz with ⟨_, h2⟩ | ⟨_, h2⟩
    · rw [abs_le]
      constructor
      · have := neg_abs_le ((q : Int) * m + r - z * m)
        have h3 := le_abs_self ((q : Int) * m + r - z * m)
        linarith
      · have h3 := le_abs_self ((q : Int) * m + r - z * m)
        linarith
    · rw [abs_le]
      have h3 := neg_le_abs ((q : Int) * m + r - z * m)
      constructor <;> linarith
  · rw [he, hx]
    have hle2 : (m : Int) ≤ 2 * r := by exact_mod_cast hle
    push_cast
    rcases hz with ⟨_, h2⟩ | ⟨_, h2⟩
    · rw [abs_le]
      have h3 := le_abs_self ((q : Int) * m + r - z * m)
      constructor <;> linarith
    · rw [abs_le]
      have h3 := neg_le_abs ((q : Int) * m + r - z * m)
      constructor <;> linarith

theorem round_nearest_even_tie (x m : Nat) (h : 2 * (x % m) = m) :
    round_nearest_even x m % 2 = 0 := by
  unfold round_nearest_even
  split_ifs <;> omega

theorem round_nearest_even_exact (x m : Nat) (hm : 0 < m) (h : m ∣ x) :
    round_nearest_even x m = x / m := by
  have h0 : x % m = 0 := Nat.mod_eq_zero_of_dvd h
  unfold round_nearest_even
  simp [h0, hm]

namespace impl

/-- A value of small magnitude is a value of every `fixed_exp_t` of at least 8 bits. -/
theorem in_exp_range_small (exp_width : Nat) (x : Int) (hw : 8 ≤ exp_width)
    (h1 : -128 ≤ x) (h2 : x < 128) : in_exp_range exp_width x := by
  have hpow : 2 ^ 7 ≤ 2 ^ (exp_width - 1) := Nat.pow_le_pow_right (by omega) (by omega)
  have h128 : (2 : Nat) ^ 7 = 128 := by norm_num
  unfold in_exp_range
  constructor <;> omega

theorem set_precision_round (exp_width : Nat) (fd : signed_fixed_data) (p : Nat)
    (hd : fd.digits + 5 < word) (hp : p < num_digits fd.digits)
    (hlo : in_exp_range exp_width (fd.exponent + 1))
    (hhi : in_exp_range exp_width (fd.exponent + ((num_digits fd.digits - p : Nat) : Int))) :
    set_precision exp_width fd p =
      some { digits := round_nearest_even fd.digits (10 ^ (num_digits fd.digits - p)),
             exponent := fd.exponent + ((num_digits fd.digits - p : Nat) : Int),
             sign := fd.sign } := by
  rw [set_precision_eq exp_width fd p (by omega) hp hlo hhi]
  have he : num_digits fd.digits - p = (num_digits fd.digits - p - 1) + 1 := by omega
  have hT : 0 < 10 ^ (num_digits fd.digits - p - 1) := by positivity
  have hle : fd.digits / 10 ^ (num_digits fd.digits - p - 1) ≤ fd.digits :=
    Nat.div_le_self _ _
  rw [round_half_to_even_nearest _ _ hT (by omega), ← pow_succ, ← he]

/-- The first increment of `set_precision` stays in `fixed_exp_t` when the last one does. -/
theorem in_exp_range_succ (exp_width : Nat) (e : Int) (k : Nat) (hk : 1 ≤ k)
    (hlo : in_exp_range exp_width e) (hhi : in_exp_range exp_width (e + (k : Int))) :
    in_exp_range exp_width (e + 1) :=
  in_exp_range_mid exp_width _ _ _ hlo hhi (by omega) (by omega)

/-- C5 (as amended): `set_precision` rounds to nearest with ties to even.  For every width
of `fixed_exp_t`, every fixed-point value whose magnitude `digits` has `n` decimal digits
and is below `2^64 - 5`, and every precision `p < n` for which `exponent + (n - p)` is a
value of `fixed_exp_t` (no increment of the exponent overflows), `set_precision` returns a
value: its magnitude is `digits / 10^(n-p)` rounded to the nearest integer (no integer
multiple of `10^(n-p)` is closer to `digits`), an exact tie going to the even neighbour;
its exponent is `exponent + (n - p)` and the sign is unchanged.  Examples, for every width
of at least 8 bits: digits 25 at `p = 1` gives 2, digits 35 gives 4, digits 251 gives 3. -/
theorem set_precision_rounds_half_to_even (exp_width : Nat) (fd : signed_fixed_data) (p : Nat)
    (hd : fd.digits < 2 ^ 64 - 5) (hp : p < num_digits fd.digits)
    (hlo : in_exp_range exp_width fd.exponent)
    (hhi : in_exp_range exp_width (fd.exponent + ((num_digits fd.digits - p : Nat) : Int))) :
    (∃ r : signed_fixed_data, set_precision exp_width fd p = some r ∧
      r.digits = round_nearest_even fd.digits (10 ^ (num_digits fd.digits - p)) ∧
      (∀ z : Nat, |(fd.digits : Int) -
          (r.digits : Int) * (10 ^ (num_digits fd.digits - p) : Nat)| ≤
        |(fd.digits : Int) - (z : Int) * (10 ^ (num_digits fd.digits - p) : Nat)|) ∧
      (2 * (fd.digits % 10 ^ (num_digits fd.digits - p)) = 10 ^ (num_digits fd.digits - p) →
        r.digits % 2 = 0) ∧
      r.exponent = fd.exponent + ((num_digits fd.digits - p : Nat) : Int) ∧
      r.sign = fd.sign) ∧
    (∀ w : Nat, 8 ≤ w →
      set_precision w { digits := 25, exponent := -1, sign := false } 1 =
        some { digits := 2, exponent := 0, sign := false } ∧
      set_precision w { digits := 35, exponent := -1, sign := false } 1 =
        some { digits := 4, exponent := 0, sign := false } ∧
      set_precision w { digits := 251, exponent := -2, sign := false } 1 =
        some { digits := 3, exponent := 0, sign := false }) := by
  have hw : fd.digits + 5 < word := by unfold word; omega
  have hm : 0 < 10 ^ (num_digits fd.digits - p) := by positivity
  have hlo1 := in_exp_range_succ exp_width fd.exponent _ (by omega) hlo hhi
  refine ⟨⟨_, set_precision_round exp_width fd p hw hp hlo1 hhi, rfl,
    round_nearest_even_dist _ _ hm, round_nearest_even_tie _ _, rfl, rfl⟩, ?_⟩
  intro w h8
  refine ⟨?_, ?_, ?_⟩
  · rw [set_precision_round w _ 1 (by decide) (by decide)
      (in_exp_range_small w _ h8 (by decide) (by decide))
      (in_exp_range_small w _ h8 (by decide) (by decide))]
    decide
  · rw [set_precision_round w _ 1 (by decide) (by decide)
      (in_exp_range_small w _ h8 (by decide) (by decide))
      (in_exp_range_small w _ h8 (by decide) (by decide))]
    decide
  · rw [set_precision_round w _ 1 (by decide) (by decide)
      (in_exp_range_small w _ h8 (by decide) (by decide))
      (in_exp_range_small w _ h8 (by decide) (by decide))]
    decide

/-- Rounding `2^64 - 6`, the largest magnitude below `2^64 - 5`, to 19 digits, with a
32-bit `fixed_exp_t`. -/
theorem set_precision_rounds_half_to_even_witness :
    (∃ r : signed_fixed_data,
      set_precision 32 { digits := 18446744073709551610, exponent := 0, sign := true } 19 =
        some r ∧
      r.digits = round_nearest_even (signed_fixed_data.mk 18446744073709551610 0 true).digits
        (10 ^ (num_digits (signed_fixed_data.mk 18446744073709551610 0 true).digits - 19)) ∧
      (∀ z : Nat, |((signed_fixed_data.mk 18446744073709551610 0 true).digits : Int) -
          (r.digits : Int) *
            (10 ^ (num_digits (signed_fixed_data.mk 18446744073709551610 0 true).digits - 19)
              : Nat)| ≤
        |((signed_fixed_data.mk 18446744073709551610 0 true).digits : Int) - (z : Int) *
          (10 ^ (num_digits (signed_fixed_data.mk 18446744073709551610 0 true).digits - 19)
            : Nat)|) ∧
      (2 * ((signed_fixed_data.mk 18446744073709551610 0 true).digits %
          10 ^ (num_digits (signed_fixed_data.mk 18446744073709551610 0 true).digits - 19)) =
          10 ^ (num_digits (signed_fixed_data.mk 18446744073709551610 0 true).digits - 19) →
        r.digits % 2 = 0) ∧
      r.exponent = (signed_fixed_data.mk 18446744073709551610 0 true).exponent +
        ((num_digits (signed_fixed_data.mk 18446744073709551610 0 true).digits - 19 : Nat)
          : Int) ∧
      r.sign = (signed_fixed_data.mk 18446744073709551610 0 true).sign) ∧
    (∀ w : Nat, 8 ≤ w →
      set_precision w { digits := 25, exponent := -1, sign := false } 1 =
        some { digits := 2, exponent := 0, sign := false } ∧
      set_precision w { digits := 35, exponent := -1, sign := false } 1 =
        some { digits := 4, exponent := 0, sign := false } ∧
      set_precision w { digits := 251, exponent := -2, sign := false } 1 =
        some { digits := 3, exponent := 0, sign := false }) :=
  set_precision_rounds_half_to_even 32
    { digits := 18446744073709551610, exponent := 0, sign := true } 19
    (by norm_num) (by decide) (by decide) (by decide)

/-- C5 as stated fails at the largest exponent.  For every width of `fixed_exp_t` of at
least 32 bits, the value with digits 25 (two digits, below `2^64 - 5`) and the largest
exponent of the type has, at precision 1, no exponent `exponent + 1` in the type: the
increment `fd.exponent += 1` overflows and `set_precision` returns no value.  With 32
bits the exponent is 2147483647. -/
theorem set_precision_exponent_overflow :
    (∀ w : Nat, 32 ≤ w → in_exp_range w (((2 ^ (w - 1) : Nat) : Int) - 1) ∧
      ¬ in_exp_range w (((2 ^ (w - 1) : Nat) : Int) - 1 + 1) ∧
      set_precision w { digits := 25, exponent := ((2 ^ (w - 1) : Nat) : Int) - 1,
                        sign := false } 1 = none) ∧
    25 < 2 ^ 64 - 5 ∧ 1 < num_digits 25 ∧ num_digits 25 = 2 ∧
    in_exp_range 32 2147483647 ∧ ¬ in_exp_range 32 (2147483647 + ((2 - 1 : Nat) : Int)) ∧
    set_precision 32 { digits := 25, exponent := 2147483647, sign := false } 1 = none := by
  refine ⟨?_, by norm_num, by decide, by decide, by decide, by decide, by decide⟩
  intro w _
  obtain ⟨h1, h2⟩ := in_exp_range_max w
  refine ⟨h1, h2, ?_⟩
  apply set_precision_overflow w _ 1 (show (25 : Nat) < word by decide)
    (show 1 < num_digits 25 by decide) h1
  intro h
  apply h2
  have h3 : num_digits 25 - 1 = 1 := by decide
  simp only [h3, Nat.cast_one] at h
  exact h

/-- C6 (as amended): zero precision loss.  For every width of `fixed_exp_t`, every
fixed-point value with `n` decimal digits in `digits` and every precision `p`: if `n ≤ p`,
`set_precision` returns the value unchanged; if `n > p`, `10^(n-p)` divides `digits` and
`exponent + (n - p)` is a value of `fixed_exp_t` (no increment of the exponent overflows),
`set_precision` returns a value that denotes the same number exactly,
`digits' * 10^exponent' = digits * 10^exponent`, with `digits' * 10^(n-p) = digits`, the
exponent grown by `n - p` and the sign unchanged.  Example, for every width of at least 8
bits: digits 1000000, exponent -6 at `p = 3` gives digits 100, exponent -2. -/
theorem set_precision_exact (exp_width : Nat) (fd : signed_fixed_data) (p : Nat)
    (hd : fd.digits < 2 ^ 64) :
    (num_digits fd.digits ≤ p → set_precision exp_width fd p = some fd) ∧
    (p < num_digits fd.digits → 10 ^ (num_digits fd.digits - p) ∣ fd.digits →
      in_exp_range exp_width fd.exponent →
      in_exp_range exp_width (fd.exponent + ((num_digits fd.digits - p : Nat) : Int)) →
      ∃ r : signed_fixed_data, set_precision exp_width fd p = some r ∧
        r.digits * 10 ^ (num_digits fd.digits - p) = fd.digits ∧
        r.exponent = fd.exponent + ((num_digits fd.digits - p : Nat) : Int) ∧
        r.sign = fd.sign ∧
        (r.digits : ℚ) * (10 : ℚ) ^ r.exponent =
          (fd.digits : ℚ) * (10 : ℚ) ^ fd.exponent) ∧
    (∀ w : Nat, 8 ≤ w →
      set_precision w { digits := 1000000, exponent := -6, sign := false } 3 =
        some { digits := 100, exponent := -2, sign := false }) := by
  refine ⟨set_precision_of_le exp_width fd p, ?_, ?_⟩
  · intro hp hdvd hlo hhi
    have hw : fd.digits < word := hd
    have he : num_digits fd.digits - p = (num_digits fd.digits - p - 1) + 1 := by omega
    have hT : 0 < 10 ^ (num_digits fd.digits - p - 1) := by positivity
    have hm : 0 < 10 ^ (num_digits fd.digits - p) := by positivity
    have hlo1 := in_exp_range_succ exp_width fd.exponent _ (by omega) hlo hhi
    -- the last digit dropped is zero, so the rounding step cannot wrap
    have hlast : fd.digits / 10 ^ (num_digits fd.digits - p - 1) % 10 = 0 := by
      obtain ⟨c, hc⟩ := hdvd
      rw [he, pow_succ, mul_assoc] at hc
      rw [Nat.div_eq_of_eq_mul_right hT hc]
      omega
    have hle : fd.digits / 10 ^ (num_digits fd.digits - p - 1) ≤ fd.digits :=
      Nat.div_le_self _ _
    have hnw : fd.digits / 10 ^ (num_digits fd.digits - p - 1) + 5 < word := by
      unfold word at hw ⊢
      omega
    have hdig : round_half_to_even (fd.digits / 10 ^ (num_digits fd.digits - p - 1))
        (decide (fd.digits % 10 ^ (num_digits fd.digits - p - 1) = 0)) =
        fd.digits / 10 ^ (num_digits fd.digits - p) := by
      rw [round_half_to_even_nearest _ _ hT hnw, ← pow_succ, ← he]
      exact round_nearest_even_exact _ _ hm hdvd
    have hmul : fd.digits / 10 ^ (num_digits fd.digits - p) *
        10 ^ (num_digits fd.digits - p) = fd.digits := Nat.div_mul_cancel hdvd
    have hcast : (fd.digits : ℚ) =
        ((fd.digits / 10 ^ (num_digits fd.digits - p) : Nat) : ℚ) *
          (10 : ℚ) ^ (num_digits fd.digits - p) := by
      exact_mod_cast hmul.symm
    refine ⟨_, set_precision_eq exp_width fd p hw hp hlo1 hhi, ?_, rfl, rfl, ?_⟩
    · simp only [hdig]
      exact hmul
    · simp only [hdig]
      rw [zpow_add₀ (by norm_num : (10 : ℚ) ≠ 0), zpow_natCast]
      rw [hcast]
      ring
  · intro w h8
    rw [set_precision_eq w _ 3 (by decide) (by decide)
      (in_exp_range_small w _ h8 (by decide) (by decide))
      (in_exp_range_small w _ h8 (by decide) (by decide))]
    decide

/-- Zero precision loss at a concrete input: digits 4200 at precision 2, with a 32-bit
`fixed_exp_t`. -/
theorem set_precision_exact_witness :
    (num_digits (signed_fixed_data.mk 4200 7 true).digits ≤ 2 →
      set_precision 32 { digits := 4200, exponent := 7, sign := true } 2 =
        some { digits := 4200, exponent := 7, sign := true }) ∧
    (2 < num_digits (signed_fixed_data.mk 4200 7 true).digits →
      10 ^ (num_digits (signed_fixed_data.mk 4200 7 true).digits - 2) ∣
        (signed_fixed_data.mk 4200 7 true).digits →
      in_exp_range 32 (signed_fixed_data.mk 4200 7 true).exponent →
      in_exp_range 32 ((signed_fixed_data.mk 4200 7 true).exponent +
        ((num_digits (signed_fixed_data.mk 4200 7 true).digits - 2 : Nat) : Int)) →
      ∃ r : signed_fixed_data,
        set_precision 32 { digits := 4200, exponent := 7, sign := true } 2 = some r ∧
        r.digits * 10 ^ (num_digits (signed_fixed_data.mk 4200 7 true).digits - 2) =
          (signed_fixed_data.mk 4200 7 true).digits ∧
        r.exponent = (signed_fixed_data.mk 4200 7 true).exponent +
          ((num_digits (signed_fixed_data.mk 4200 7 true).digits - 2 : Nat) : Int) ∧
        r.sign = (signed_fixed_data.mk 4200 7 true).sign ∧
        (r.digits : ℚ) * (10 : ℚ) ^ r.exponent =
          ((signed_fixed_data.mk 4200 7 true).digits : ℚ) *
            (10 : ℚ) ^ (signed_fixed_data.mk 4200 7 true).exponent) ∧
    (∀ w : Nat, 8 ≤ w →
      set_precision w { digits := 1000000, exponent := -6, sign := false } 3 =
        some { digits := 100, exponent := -2, sign := false }) :=
  set_precision_exact 32 { digits := 4200, exponent := 7, sign := true } 2 (by norm_num)

/-- C6 as stated fails at the largest exponent.  For every width of `fixed_exp_t` of at
least 32 bits, the value with digits 100 and the largest exponent of the type has three
digits, and at precision 1 both dropped digits are zero (`10^2` divides 100), but
`exponent + 2` is not a value of the type: an increment `fd.exponent += 1` overflows and
`set_precision` returns no value, so none that denotes the input.  With 32 bits the
exponent is 2147483647. -/
theorem exact_reduction_exponent_overflow :
    (∀ w : Nat, 32 ≤ w → in_exp_range w (((2 ^ (w - 1) : Nat) : Int) - 1) ∧
      set_precision w { digits := 100, exponent := ((2 ^ (w - 1) : Nat) : Int) - 1,
                        sign := false } 1 = none) ∧
    num_digits 100 = 3 ∧ 10 ^ (num_digits 100 - 1) ∣ 100 ∧
    in_exp_range 32 2147483647 ∧
    ¬ in_exp_range 32 (2147483647 + ((num_digits 100 - 1 : Nat) : Int)) ∧
    set_precision 32 { digits := 100, exponent := 2147483647, sign := false } 1 = none := by
  refine ⟨?_, by decide, by decide, by decide, by decide, by decide⟩
  intro w _
  obtain ⟨h1, h2⟩ := in_exp_range_max w
  refine ⟨h1, ?_⟩
  apply set_precision_overflow w _ 1 (show (100 : Nat) < word by decide)
    (show 1 < num_digits 100 by decide) h1
  intro h
  apply h2
  have h3 : num_digits 100 - 1 = 2 := by decide
  simp only [h3] at h
  exact in_exp_range_mid w _ _ _ h1 h (by omega) (by omega)

end impl

/-! ### The digit counts -/

namespace impl

theorem num_digits_gt_of_pow_le (e : Nat) : ∀ x : Nat, 10 ^ e ≤ x → e + 1 ≤ num_digits x := by
  induction e with
  | zero =>
    intro x _
    have := num_digits_pos x
    omega
  | succ e ih =>
    intro x hx
    rw [pow_succ] at hx
    have hpos : 0 < 10 ^ e := by positivity
    have h10 : x ≥ 10 := by omega
    rw [num_digits_unfold]
    simp only [h10, if_true]
    have := ih (x / 10) (by omega)
    omega

theorem lt_pow_num_digits (x : Nat) : x < 10 ^ num_digits x := by
  by_contra h
  have := num_digits_gt_of_pow_le (num_digits x) x (by omega)
  omega

theorem pow_num_digits_le (x : Nat) (hx : 1 ≤ x) : 10 ^ (num_digits x - 1) ≤ x := by
  by_contra h
  have hpos := num_digits_pos x
  rcases Nat.eq_or_lt_of_le hpos with h1 | h1
  · rw [← h1] at h
    simp at h
    omega
  · have := num_digits_le_of_lt_pow (num_digits x - 1) x (by omega) (by omega)
    omega

theorem num_digits_unique (x n : Nat) (hlo : 10 ^ (n - 1) ≤ x) (hhi : x < 10 ^ n) :
    n = num_digits x := by
  have hn : 0 < n := by
    rcases Nat.eq_zero_or_pos n with h0 | h0
    · subst h0
      simp at hlo hhi
      omega
    · exact h0
  have h1 := num_digits_le_of_lt_pow n x hn hhi
  have h2 := num_digits_gt_of_pow_le (n - 1) x hlo
  omega

theorem num_digits_eq_log (x : Nat) : num_digits x = Nat.log 10 x + 1 := by
  rcases Nat.eq_zero_or_pos x with h0 | h0
  · subst h0
    rw [Nat.log_zero_right]
    rfl
  · have hlo := pow_num_digits_le x h0
    have hhi := lt_pow_num_digits x
    have hpos := num_digits_pos x
    have hlog : Nat.log 10 x = num_digits x - 1 := by
      apply Nat.log_eq_of_pow_le_of_lt_pow hlo
      have : num_digits x - 1 + 1 = num_digits x := by omega
      rw [this]
      exact hhi
    omega

/-- C14: for every `x` (in particular every unsigned 64-bit `x`), `num_digits(x)`
satisfies the source's recursion equation (the recursion ends for every `x`) and is the
number of decimal digits of `x`: it is 1 for `x < 10`, zero included, and for `x ≥ 1` it
is the unique `n` with `10^(n-1) ≤ x < 10^n`, that is `floor(log10 x) + 1`.  Boundary
values: 0, 9, 10, `10^19 - 1`, `10^19` and `2^64 - 1` have 1, 1, 2, 19, 20 and 20
digits. -/
theorem num_digits_spec (x : Nat) :
    num_digits x = (if x ≥ 10 then 1 + num_digits (x / 10) else 1) ∧
    (x < 10 → num_digits x = 1) ∧
    (1 ≤ x → 10 ^ (num_digits x - 1) ≤ x ∧ x < 10 ^ num_digits x) ∧
    (∀ n : Nat, 10 ^ (n - 1) ≤ x → x < 10 ^ n → n = num_digits x) ∧
    num_digits x = Nat.log 10 x + 1 ∧
    num_digits 0 = 1 ∧ num_digits 9 = 1 ∧ num_digits 10 = 2 ∧
    num_digits 9999999999999999999 = 19 ∧ num_digits 10000000000000000000 = 20 ∧
    num_digits 18446744073709551615 = 20 := by
  refine ⟨num_digits_unfold x, ?_, fun hx => ⟨pow_num_digits_le x hx, lt_pow_num_digits x⟩,
    fun n => num_digits_unique x n, num_digits_eq_log x, by decide, by decide, by decide,
    by decide, by decide, by decide⟩
  intro hx
  rw [num_digits_unfold]
  have : ¬ x ≥ 10 := by omega
  simp only [this, if_false]

/-- The signed digit count away from zero, for every integer: the unsigned count of the
value when it is positive, one more than the unsigned count of the magnitude when it is
negative. -/
theorem num_digits_int_of_ne_zero (x : Int) (hx : x ≠ 0) :
    num_digits_int x =
      if x < 0 then 1 + num_digits x.natAbs else num_digits x.natAbs := by
  unfold num_digits_int
  rcases lt_or_gt_of_ne hx with hneg | hpos
  · obtain ⟨n, hn⟩ : ∃ n : Nat, x = -(n : Int) := ⟨x.natAbs, by omega⟩
    subst hn
    have habs : (-(n : Int)).natAbs = n := by simp
    simp only [hneg, if_true, habs]
    exact num_digits_int_neg n n (le_refl _) (by omega)
  · obtain ⟨n, hn⟩ : ∃ n : Nat, x = (n : Int) := ⟨x.natAbs, by omega⟩
    subst hn
    have habs : (n : Int).natAbs = n := by simp
    have hnot : ¬ (n : Int) < 0 := by omega
    simp only [hnot, if_false, habs]
    exact num_digits_int_pos n n (le_refl _) (by omega)

/-- C15 at the failing input: the signed `num_digits(0)` is 2, while the unsigned
`num_digits(0)` is 1 (the branch `x > 0 ? 1u : 2u` counts a sign position for zero).
Everywhere else the claim holds: for every non-zero `x`, the minimum value included, the
signed count is the unsigned count of `x` when `x > 0` and one more than the unsigned
count of `|x|` when `x < 0`; no negation of `x` is computed on the way. -/
theorem num_digits_int_zero :
    num_digits_int 0 = 2 ∧ num_digits 0 = 1 ∧
    num_digits_int 0 ≠ num_digits (0 : Int).natAbs ∧
    (∀ x : Int, x ≠ 0 →
      num_digits_int x = if x < 0 then 1 + num_digits x.natAbs else num_digits x.natAbs) ∧
    num_digits_int (-9223372036854775808) = 1 + num_digits 9223372036854775808 ∧
    num_digits_int (-9223372036854775808) = 20 ∧
    num_digits_int 9223372036854775807 = 19 ∧
    num_digits_int (-9) = 2 ∧ num_digits_int 9 = 1 := by
  refine ⟨by decide, by decide, by decide, num_digits_int_of_ne_zero, by decide, by decide,
    by decide, by decide, by decide⟩

end impl

/-! ### The scientific renderer -/

theorem decimal_text_ne_nil (n : Nat) : decimal_text n ≠ [] := by
  intro h
  have h1 := impl.decimal_text_length n
  have h2 := impl.num_digits_pos n
  rw [h] at h1
  simp at h1
  omega

theorem mantissa_text_lt (n : Nat) (h : n < 10) :
    mantissa_text n = [Nat.digitChar n, '.'] := by
  simp only [mantissa_text, decimal_text_lt n h]

theorem mantissa_text_ge (n : Nat) (h : 10 ≤ n) :
    mantissa_text n = mantissa_text (n / 10) ++ [Nat.digitChar (n % 10)] := by
  unfold mantissa_text
  rw [decimal_text_ge n h]
  cases hd : decimal_text (n / 10) with
  | nil => exact absurd hd (decimal_text_ne_nil _)
  | cons d ds => simp

theorem mantissa_text_length (n : Nat) : (mantissa_text n).length = impl.num_digits n + 1 := by
  unfold mantissa_text
  have h1 := impl.decimal_text_length n
  cases hd : decimal_text n with
  | nil => exact absurd hd (decimal_text_ne_nil _)
  | cons d ds =>
    rw [hd] at h1
    simp only [List.length_cons] at h1 ⊢
    omega

namespace impl

/-- The mantissa loop when no increment of `exponent_add` overflows. -/
theorem fixed_digits_loop_spec (exp_width : Nat) (sz : Nat) (hsz : sz < word) :
    ∀ (fuel j k : Nat) (ea : Int) (pre mid post : List Char), j ≤ fuel → 0 < j → 1 ≤ k →
      mid.length = num_digits j + 1 → pre.length + mid.length + (k - 1) = sz →
      in_exp_range exp_width ea → in_exp_range exp_width (ea + (num_digits j : Int)) →
      fixed_digits_loop exp_width fuel j k ea
          { buffer := pre ++ mid ++ post, data_size := sz } =
        some ({ buffer := pre ++ mantissa_text j ++ post, data_size := sz },
          k + num_digits j + 1, ea + (num_digits j : Int)) := by
  intro fuel
  induction fuel with
  | zero => intro j k ea pre mid post hj hpos; omega
  | succ fuel ih =>
    intro j k ea pre mid post hj hpos hk hmid hlen hlo hhi
    have hndpos := num_digits_pos j
    have hstep : in_exp_range exp_width (ea + 1) :=
      in_exp_range_mid exp_width _ _ _ hlo hhi (by omega) (by omega)
    have hchk := exp_check_eq _ _ hstep
    have hj0 : j ≠ 0 := by omega
    have hnd := num_digits_unfold j
    have hmne : mid ≠ [] := by
      intro h
      rw [h] at hmid
      simp at hmid
    obtain ⟨mid1, x, hx⟩ : ∃ mid1 x, mid = mid1 ++ [x] :=
      ⟨mid.dropLast, mid.getLast hmne, (List.dropLast_concat_getLast hmne).symm⟩
    subst hx
    simp only [List.length_append, List.length_singleton] at hmid hlen
    have hdig := digits_getElem (j % 10) (Nat.mod_lt _ (by omega))
    by_cases h10 : j ≥ 10
    · simp only [h10, if_true] at hnd
      have hlt : ¬ j < 10 := by omega
      have hidx : size_sub sz k = pre.length + mid1.length := by
        rw [size_sub_eq sz k (by omega) hsz]
        omega
      have hset := set_at_mid pre mid1 post x (Nat.digitChar (j % 10)) sz
        (pre.length + mid1.length) rfl (by omega)
      have hhi2 : in_exp_range exp_width (ea + 1 + (num_digits (j / 10) : Int)) := by
        have : ea + 1 + (num_digits (j / 10) : Int) = ea + (num_digits j : Int) := by
          rw [hnd]; push_cast; ring
        rw [this]
        exact hhi
      have hrec := ih (j / 10) (k + 1) (ea + 1) pre mid1 (Nat.digitChar (j % 10) :: post)
        (by omega) (by omega) (by omega) (by omega) (by omega) hstep hhi2
      simp only [fixed_digits_loop, hj0, ne_eq, not_false_eq_true, if_true, hlt, if_false,
        hdig, small_string_span.size, hidx, hset, hchk, hrec, mantissa_text_ge j h10, hnd]
      simp only [List.append_assoc, List.singleton_append, Option.some.injEq, Prod.mk.injEq,
        true_and]
      constructor
      · omega
      · push_cast
        ring
    · simp only [h10, if_false] at hnd
      have hlt : j < 10 := by omega
      have hj10 : j / 10 = 0 := by omega
      have hjm : j % 10 = j := by omega
      obtain ⟨y, hy⟩ : ∃ y, mid1 = [y] := by
        cases mid1 with
        | nil => simp at hmid; omega
        | cons y t =>
          cases t with
          | nil => exact ⟨y, rfl⟩
          | cons _ _ => simp at hmid; omega
      subst hy
      simp only [List.length_singleton] at hlen
      have hidx1 : size_sub sz k = pre.length + 1 := by
        rw [size_sub_eq sz k (by omega) hsz]
        omega
      have hidx2 : size_sub sz (k + 1) = pre.length + 0 := by
        rw [size_sub_eq sz (k + 1) (by omega) hsz]
        omega
      have hset1 := set_at_mid pre [y] post x '.' sz (pre.length + 1) rfl (by omega)
      have hset2 := set_at_mid pre [] ('.' :: post) y (Nat.digitChar (j % 10)) sz
        (pre.length + 0) rfl (by omega)
      rw [hjm] at hdig hset2
      simp only [List.append_nil, List.nil_append, List.append_assoc, List.singleton_append,
        List.cons_append] at hset1 hset2
      have hend : ∀ (t : small_string_span) (k1 : Nat) (e1 : Int),
          fixed_digits_loop exp_width fuel 0 k1 e1 t = some (t, k1, e1) := by
        intro t k1 e1
        cases fuel <;> simp [fixed_digits_loop]
      simp only [fixed_digits_loop, hj0, ne_eq, not_false_eq_true, if_true, hlt,
        small_string_span.size, hidx1, List.append_assoc, List.singleton_append,
        List.cons_append, List.nil_append, hset1, hjm, hdig, hidx2, hset2, hchk, hj10, hend,
        mantissa_text_lt j hlt, hnd, Nat.cast_one]

theorem fixed_exp_loop_zero (fuel k : Nat) (tmp : small_string_span) :
    fixed_exp_loop fuel 0 k tmp = some (tmp, k) := by
  cases fuel <;> simp [fixed_exp_loop]

theorem fixed_exp_loop_spec (sz : Nat) (hsz : sz < word) :
    ∀ (fuel j k : Nat) (pre mid post : List Char), j ≤ fuel → 0 < j → 1 ≤ k →
      mid.length = num_digits j → pre.length + mid.length + (k - 1) = sz →
      fixed_exp_loop fuel (j : Int) k { buffer := pre ++ mid ++ post, data_size := sz } =
        some ({ buffer := pre ++ decimal_text j ++ post, data_size := sz },
          k + num_digits j) := by
  intro fuel
  induction fuel with
  | zero => intro j k pre mid post hj hpos; omega
  | succ fuel ih =>
    intro j k pre mid post hj hpos hk hmid hlen
    have hj0 : (j : Int) ≠ 0 := by omega
    have hnd := num_digits_unfold j
    have hmne : mid ≠ [] := by
      intro h
      have := num_digits_pos j
      rw [h] at hmid
      simp at hmid
      omega
    obtain ⟨mid1, x, hx⟩ : ∃ mid1 x, mid = mid1 ++ [x] :=
      ⟨mid.dropLast, mid.getLast hmne, (List.dropLast_concat_getLast hmne).symm⟩
    subst hx
    simp only [List.length_append, List.length_singleton] at hmid hlen
    have hidx : size_sub sz k = pre.length + mid1.length := by
      rw [size_sub_eq sz k (by omega) hsz]
      omega
    have hset := set_at_mid pre mid1 post x (Nat.digitChar (j % 10)) sz
      (pre.length + mid1.length) rfl (by omega)
    simp only [fixed_exp_loop, hj0, ne_eq, not_false_eq_true, if_true, natCast_tmod,
      natCast_tdiv, digits_at_natCast,
      digits_getElem (j % 10) (Nat.mod_lt _ (by omega)), small_string_span.size, hidx, hset]
    by_cases h10 : j ≥ 10
    · simp only [h10, if_true] at hnd
      have hrec := ih (j / 10) (k + 1) pre mid1 (Nat.digitChar (j % 10) :: post)
        (by omega) (by omega) (by omega) (by omega) (by omega)
      rw [hrec, decimal_text_ge j h10, hnd]
      simp only [List.append_assoc, List.singleton_append, Option.some.injEq, Prod.mk.injEq,
        true_and]
      omega
    · simp only [h10, if_false] at hnd
      have hj10 : j / 10 = 0 := by omega
      have hm1 : mid1 = [] := List.length_eq_zero.mp (by omega)
      subst hm1
      have hjm : j % 10 = j := by omega
      rw [hj10, decimal_text_lt j (by omega), hjm, hnd]
      simp [fixed_exp_loop_zero]

end impl

namespace impl

theorem pad_two_text_length (a : Nat) :
    (pad_two (decimal_text a)).length = max (num_digits a) 2 := by
  unfold pad_two
  rw [List.length_append, List.length_replicate, decimal_text_length]
  omega

/-- The values of a `fixed_exp_t` of at most 64 bits are below `2^64` in magnitude. -/
theorem natAbs_lt_word (exp_width : Nat) (x : Int) (hw : exp_width ≤ 64)
    (hx : in_exp_range exp_width x) : x.natAbs < word := by
  have hpow : 2 ^ (exp_width - 1) ≤ 2 ^ 63 := Nat.pow_le_pow_right (by omega) (by omega)
  have h63 : (2 : Nat) ^ 63 = 9223372036854775808 := by norm_num
  unfold in_exp_range at hx
  unfold word
  omega

/-- The exponent digit count is defined when the negation `-x` of a non-positive `x`
does not overflow. -/
theorem num_exp_digits_eq (exp_width : Nat) (x : Int) (hw : exp_width ≤ 64)
    (hx : in_exp_range exp_width x) (hneg : in_exp_range exp_width (-x)) :
    num_exp_digits exp_width x = some (max (num_digits x.natAbs) 2) := by
  have hlt := natAbs_lt_word exp_width x hw hx
  unfold num_exp_digits min_exp_digits
  by_cases hpos : x > 0
  · have h : x.toNat % word = x.natAbs := by
      rw [Nat.mod_eq_of_lt (by omega)]
      omega
    simp only [hpos, if_true, h]
    congr 1
    split <;> omega
  · have h : (-x).toNat % word = x.natAbs := by
      rw [Nat.mod_eq_of_lt (by omega)]
      omega
    simp only [hpos, if_false, exp_check_eq _ _ hneg, h]
    congr 1
    split <;> omega

/-- When the exponent digit count is defined, the negation of the exponent is a value of
`fixed_exp_t`. -/
theorem num_exp_digits_some (exp_width : Nat) (x : Int) (ed : Nat)
    (hx : in_exp_range exp_width x) (h : num_exp_digits exp_width x = some ed) :
    in_exp_range exp_width (-x) := by
  by_cases hpos : x > 0
  · unfold in_exp_range at hx ⊢
    constructor <;> omega
  · by_contra hneg
    simp [num_exp_digits, hpos, exp_check_none _ _ hneg] at h

/-- The exponent loop followed by the padding loop writes `|E|`, zero-padded to two
digits, into the last `max(num_digits |E|, 2)` bytes. -/
theorem fixed_exp_phase (sz : Nat) (hsz : sz < word) (a : Nat) (pre mid post : List Char)
    (hmid : mid.length = max (num_digits a) 2) (hlen : pre.length + mid.length = sz) :
    ∃ (t3 : small_string_span) (k3 : Nat),
      fixed_exp_loop a (a : Int) 1 { buffer := pre ++ mid ++ post, data_size := sz } =
        some (t3, k3) ∧
      fixed_pad_loop min_exp_digits k3 t3 =
        some ({ buffer := pre ++ pad_two (decimal_text a) ++ post, data_size := sz },
          max (num_digits a) 2 + 1) := by
  have hnd := num_digits_unfold a
  by_cases h10 : a ≥ 10
  · have hge : 2 ≤ num_digits a := by
      have := num_digits_pos (a / 10)
      simp only [h10, if_true] at hnd
      omega
    have hmax : max (num_digits a) 2 = num_digits a := by omega
    rw [hmax] at hmid ⊢
    refine ⟨_, _, fixed_exp_loop_spec sz hsz a a 1 pre mid post (le_refl _) (by omega)
      (le_refl _) hmid (by omega), ?_⟩
    have hk : ¬ 1 + num_digits a ≤ 2 := by omega
    have hpad : pad_two (decimal_text a) = decimal_text a := by
      unfold pad_two
      rw [decimal_text_length]
      have : 2 - num_digits a = 0 := by omega
      rw [this]
      rfl
    simp only [fixed_pad_loop, min_exp_digits, hk, if_false, hpad]
    congr 2
    omega
  · simp only [h10, if_false] at hnd
    have hmax : max (num_digits a) 2 = 2 := by omega
    rw [hmax] at hmid ⊢
    obtain ⟨x, y, hxy⟩ : ∃ x y, mid = [x] ++ [y] := by
      cases mid with
      | nil => simp at hmid
      | cons x t =>
        cases t with
        | nil => simp at hmid
        | cons y t2 =>
          cases t2 with
          | nil => exact ⟨x, y, rfl⟩
          | cons _ _ => simp at hmid
    subst hxy
    simp only [List.length_append, List.length_singleton] at hlen
    have hi2 : size_sub sz 2 = pre.length + 0 := by
      rw [size_sub_eq sz 2 (by omega) hsz]
      omega
    by_cases h0 : a = 0
    · subst h0
      refine ⟨_, _, fixed_exp_loop_zero _ _ _, ?_⟩
      have hi1 : size_sub sz 1 = pre.length + 1 := by
        rw [size_sub_eq sz 1 (by omega) hsz]
        omega
      have hset1 := set_at_mid pre [x] post y '0' sz (pre.length + 1) rfl (by omega)
      have hset2 := set_at_mid pre [] ('0' :: post) x '0' sz (pre.length + 0) rfl (by omega)
      simp only [List.append_nil, List.nil_append, List.append_assoc, List.singleton_append,
        List.cons_append] at hset1 hset2
      have hpad : pad_two (decimal_text 0) = ['0', '0'] := rfl
      simp only [fixed_pad_loop, min_exp_digits, small_string_span.size, hi1, hi2,
        List.append_assoc, List.singleton_append, List.cons_append, List.nil_append, hset1,
        hset2, hpad]
      simp
    · have hspec := fixed_exp_loop_spec sz hsz a a 1 (pre ++ [x]) [y] post (le_refl _)
        (by omega) (le_refl _) (by simp [hnd]) (by simp; omega)
      have hb : pre ++ ([x] ++ [y]) ++ post = pre ++ [x] ++ [y] ++ post := by simp
      rw [hb]
      refine ⟨_, _, hspec, ?_⟩
      have hset2 := set_at_mid pre [] (decimal_text a ++ post) x '0' sz (pre.length + 0) rfl
        (by omega)
      simp only [List.append_nil, List.nil_append, List.append_assoc, List.singleton_append,
        List.cons_append] at hset2
      have hpad : pad_two (decimal_text a) = '0' :: decimal_text a := by
        unfold pad_two
        rw [decimal_text_length, hnd]
        rfl
      simp only [fixed_pad_loop, min_exp_digits, small_string_span.size, hnd, hi2,
        List.append_assoc, List.singleton_append, List.cons_append, List.nil_append, hset2,
        hpad]
      simp

end impl

namespace impl

theorem num_digits_mono (a b : Nat) (h : a ≤ b) : num_digits a ≤ num_digits b :=
  num_digits_le_of_lt_pow _ a (num_digits_pos b) (lt_of_le_of_lt h (lt_pow_num_digits b))

/-- Adding `n` to a number adds at most `n` decimal digits. -/
theorem num_digits_add_le (a n : Nat) (hn : 1 ≤ n) : num_digits (a + n) ≤ num_digits a + n := by
  have ha := lt_pow_num_digits a
  have hpos := num_digits_pos a
  have hn10 : n < 10 ^ n := Nat.lt_pow_self (by omega) n
  have hX : 10 ≤ 10 ^ num_digits a := by
    calc 10 = 10 ^ 1 := by norm_num
      _ ≤ 10 ^ num_digits a := Nat.pow_le_pow_right (by omega) hpos
  have hY : 10 ≤ 10 ^ n := by
    calc 10 = 10 ^ 1 := by norm_num
      _ ≤ 10 ^ n := Nat.pow_le_pow_right (by omega) hn
  apply num_digits_le_of_lt_pow _ _ (by omega)
  rw [pow_add]
  nlinarith

/-- The exponent part of the renderer writes the exponent suffix over the last
`max(num_digits |E|, 2) + 2` bytes of the scratch string. -/
theorem fixed_exponent_eq (exp_width : Nat) (E : Int) (sz : Nat) (hsz : sz < word)
    (hneg : in_exp_range exp_width (-E)) (pre mid post : List Char) (x y : Char)
    (hmid : mid.length = max (num_digits E.natAbs) 2)
    (hlen : pre.length + 2 + mid.length = sz) :
    fixed_exponent exp_width E { buffer := pre ++ [x, y] ++ mid ++ post, data_size := sz } =
      some { buffer := pre ++ exponent_text E ++ post, data_size := sz } := by
  have hj0 : (if E > 0 then some E else exp_check exp_width (-E)) =
      some ((E.natAbs : Nat) : Int) := by
    split
    · congr 1; omega
    · rw [exp_check_eq _ _ hneg]; congr 1; omega
  have hnat : ((E.natAbs : Nat) : Int).natAbs = E.natAbs := Int.natAbs_ofNat _
  obtain ⟨t3, k3, hexpl, hpadl⟩ := fixed_exp_phase sz hsz E.natAbs (pre ++ [x, y]) mid post
    hmid (by simp only [List.length_append, List.length_cons, List.length_nil]; omega)
  generalize hed : max (num_digits E.natAbs) 2 = ed at hmid hpadl
  have hi1 : size_sub sz (ed + 1) = pre.length + [x].length := by
    rw [size_sub_eq sz (ed + 1) (by omega) hsz, List.length_singleton]
    omega
  have hi2 : size_sub sz (ed + 1 + 1) = pre.length + ([] : List Char).length := by
    rw [size_sub_eq sz (ed + 1 + 1) (by omega) hsz, List.length_nil]
    omega
  have hset1 := set_at_mid pre [x] (pad_two (decimal_text E.natAbs) ++ post) y
    (if E ≥ 0 then '+' else '-') sz _ rfl
    (by rw [List.length_singleton]; omega)
  have hset2 := set_at_mid pre [] ((if E ≥ 0 then '+' else '-') ::
    (pad_two (decimal_text E.natAbs) ++ post)) x 'e' sz _ rfl
    (by rw [List.length_nil]; omega)
  simp only [List.append_assoc, List.nil_append, List.cons_append, List.singleton_append]
    at hexpl hpadl hset1 hset2
  simp only [fixed_exponent, hj0, hnat, List.append_assoc, List.nil_append, List.cons_append,
    List.singleton_append, hexpl, hpadl, small_string_span.size, hi1, hi2, hset1, hset2]
  unfold exponent_text
  simp only [List.append_assoc, List.cons_append, List.nil_append, List.singleton_append]

/-- The exponent part of the renderer on any scratch string long enough for the exponent
suffix: the suffix replaces the last bytes of the string, whatever they hold. -/
theorem fixed_exponent_take (exp_width : Nat) (E : Int) (sz : Nat) (hsz : sz < word)
    (hneg : in_exp_range exp_width (-E)) (L : List Char) (hL : sz ≤ L.length)
    (hk : max (num_digits E.natAbs) 2 + 2 ≤ sz) :
    fixed_exponent exp_width E { buffer := L, data_size := sz } =
      some { buffer := L.take (sz - (max (num_digits E.natAbs) 2 + 2)) ++ exponent_text E ++
               L.drop sz,
             data_size := sz } := by
  generalize hed : max (num_digits E.natAbs) 2 = ed at hk
  have hsplit : L = L.take (sz - (ed + 2)) ++ L.drop (sz - (ed + 2)) :=
    (List.take_append_drop _ _).symm
  have hlen1 : (L.take (sz - (ed + 2))).length = sz - (ed + 2) := by
    rw [List.length_take]; omega
  have hlen2 : (L.drop (sz - (ed + 2))).length = L.length - (sz - (ed + 2)) :=
    List.length_drop _ _
  have hdrop : L.drop sz = (L.drop (sz - (ed + 2))).drop (ed + 2) := by
    rw [List.drop_drop]
    congr 1
    omega
  generalize L.take (sz - (ed + 2)) = pre at hsplit hlen1
  generalize L.drop (sz - (ed + 2)) = tl at hsplit hlen2 hdrop
  rw [hdrop]
  match tl, hlen2 with
  | [], h => simp at h; omega
  | [_], h => simp at h; omega
  | x :: y :: t, h =>
    simp only [List.length_cons] at h
    have ht : t = t.take ed ++ t.drop ed := (List.take_append_drop _ _).symm
    have hlen3 : (t.take ed).length = ed := by
      rw [List.length_take]; omega
    have hb : L = pre ++ [x, y] ++ t.take ed ++ t.drop ed := by
      rw [hsplit]
      simp only [List.append_assoc, List.cons_append, List.nil_append, List.take_append_drop]
    have hd2 : (x :: y :: t).drop (ed + 2) = t.drop ed := by
      simp only [List.drop_succ_cons]
    rw [hd2]
    conv_lhs => rw [hb]
    exact fixed_exponent_eq exp_width E sz hsz hneg pre (t.take ed) (t.drop ed) x y
      (by rw [hlen3, hed]) (by rw [hlen1, hlen3]; omega)

end impl

namespace impl

theorem in_exp_range_zero (exp_width : Nat) : in_exp_range exp_width 0 := by
  have hpos : 0 < 2 ^ (exp_width - 1) := by positivity
  unfold in_exp_range
  constructor <;> omega

/-- The scratch storage: when `max_float_length` is defined it is between 26 and 44. -/
theorem max_float_length_bounds (exp_width : Nat) (exp_origin : Int) (M : Nat)
    (hM : max_float_length exp_width exp_origin = some M) : 26 ≤ M ∧ M ≤ 44 := by
  have h20 : num_digits (word - 1) = 20 := by decide
  unfold max_float_length at hM
  cases hc : exp_check exp_width exp_origin with
  | none => simp only [hc] at hM; exact absurd hM (by simp)
  | some e =>
    simp only [hc, num_digits_fixed, num_exp_digits] at hM
    cases ha : (if e > 0 then some e else exp_check exp_width (-e)) with
    | none => simp only [ha] at hM; exact absurd hM (by simp)
    | some a =>
      have hle := num_digits_le_max (a.toNat % word) (Nat.mod_lt _ (by unfold word; omega))
      rw [max_uint_length_eq] at hle
      simp only [ha, h20, min_exp_digits, if_true, Option.some.injEq] at hM
      split at hM <;> omega

/-- The output length, when it is defined. -/
theorem num_digits_fixed_some (exp_width : Nat) (fd : signed_fixed_data) (sz : Nat)
    (hsz : num_digits_fixed exp_width fd = some sz) :
    ∃ ed : Nat, num_exp_digits exp_width fd.exponent = some ed ∧
      sz = num_digits fd.digits + ed + (if fd.sign then 1 else 0) + 3 := by
  unfold num_digits_fixed at hsz
  cases hed : num_exp_digits exp_width fd.exponent with
  | none => simp only [hed] at hsz; exact absurd hsz (by simp)
  | some ed =>
    simp only [hed, Option.some.injEq] at hsz
    exact ⟨ed, rfl, hsz.symm⟩

/-- The exponent is a value of `fixed_exp_t`, and so is its negation, when its digit count
is defined and the sum with a positive count is a value of the type. -/
theorem exponent_ranges (exp_width : Nat) (x : Int) (n ed : Nat) (hn : 1 ≤ n)
    (hed : num_exp_digits exp_width x = some ed)
    (hsum : in_exp_range exp_width (x + (n : Int))) :
    in_exp_range exp_width x ∧ in_exp_range exp_width (-x) := by
  have hpos : 0 < 2 ^ (exp_width - 1) := by positivity
  by_cases hx : x > 0
  · unfold in_exp_range at hsum ⊢
    refine ⟨⟨?_, ?_⟩, ⟨?_, ?_⟩⟩ <;> omega
  · have hneg : in_exp_range exp_width (-x) := by
      by_contra hneg
      simp [num_exp_digits, hx, exp_check_none _ _ hneg] at hed
    refine ⟨?_, hneg⟩
    unfold in_exp_range at hneg ⊢
    constructor <;> omega

/-- The first part of the renderer when no operation on `fixed_exp_t` overflows and the
output length fits the scratch storage: the scratch string holds the sign and the mantissa
text, every later byte is still the zero byte, and the local `exponent` is
`fd.exponent + n - 1`. -/
theorem fixed_mantissa_eq (exp_width : Nat) (exp_origin : Int) (fd : signed_fixed_data)
    (M sz ed : Nat) (h1 : 1 ≤ fd.digits)
    (hM : max_float_length exp_width exp_origin = some M)
    (hed : num_exp_digits exp_width fd.exponent = some ed)
    (hsz : sz = num_digits fd.digits + ed + (if fd.sign then 1 else 0) + 3)
    (hfit : sz ≤ M)
    (hn : in_exp_range exp_width (num_digits fd.digits : Int))
    (hsum : in_exp_range exp_width (fd.exponent + (num_digits fd.digits : Int))) :
    fixed_mantissa exp_width exp_origin fd =
      some (small_string_span.mk
        ((if fd.sign then ['-'] else []) ++ mantissa_text fd.digits ++
          List.replicate (M - (if fd.sign then 1 else 0) - (num_digits fd.digits + 1))
            (Char.ofNat 0)) sz,
        fd.exponent + (num_digits fd.digits : Int) - 1) := by
  obtain ⟨dg, ex, sg⟩ := fd
  simp only at h1 hed hsz hn hsum
  have hMb := max_float_length_bounds exp_width exp_origin M hM
  have hszw : sz < word := by unfold word; omega
  have hnd := num_digits_pos dg
  obtain ⟨hex, _⟩ := exponent_ranges exp_width ex (num_digits dg) ed hnd hed hsum
  have hE : in_exp_range exp_width (ex + (num_digits dg : Int) - 1) :=
    in_exp_range_mid exp_width _ _ _ hex hsum (by omega) (by omega)
  have hszf : num_digits_fixed exp_width ⟨dg, ex, sg⟩ = some sz := by
    simp only [num_digits_fixed, hed, hsz]
  have hres : (small_string M).resize sz =
      some (small_string_span.mk
        (List.replicate (if sg = true then 1 else 0) (Char.ofNat 0) ++
          List.replicate (num_digits dg + 1) (Char.ofNat 0) ++
          List.replicate (M - (if sg = true then 1 else 0) - (num_digits dg + 1))
            (Char.ofNat 0)) sz) := by
    simp only [small_string, small_string_span.resize, small_string_span.capacity,
      List.length_replicate, hfit, if_true, List.append_replicate_replicate]
    congr 3
    omega
  have hloop := fixed_digits_loop_spec exp_width sz hszw dg dg (3 + ed) 0
    (List.replicate (if sg = true then 1 else 0) (Char.ofNat 0))
    (List.replicate (num_digits dg + 1) (Char.ofNat 0))
    (List.replicate (M - (if sg = true then 1 else 0) - (num_digits dg + 1)) (Char.ofNat 0))
    (le_refl _) h1 (by omega) (by simp) (by simp; omega) (in_exp_range_zero _)
    (by rw [zero_add]; exact hn)
  have hsign : ∀ post : List Char,
      (if sg = true then
        (small_string_span.mk (List.replicate (if sg = true then 1 else 0) (Char.ofNat 0) ++
          mantissa_text dg ++ post) sz).set 0 '-'
       else some (small_string_span.mk
        (List.replicate (if sg = true then 1 else 0) (Char.ofNat 0) ++
          mantissa_text dg ++ post) sz)) =
      some (small_string_span.mk
        ((if sg = true then ['-'] else []) ++ mantissa_text dg ++ post) sz) := by
    intro post
    cases sg with
    | false => simp
    | true =>
      have hp : 0 < sz := by omega
      simp [small_string_span.set, small_string_span.size, hp]
  simp only [fixed_mantissa, hM, hszf, hres, hed, hloop, hsign, zero_add,
    exp_check_eq _ _ hsum, exp_check_eq _ _ hE]

end impl

namespace impl

theorem pad_two_text_ge (a : Nat) : 2 ≤ (pad_two (decimal_text a)).length := by
  rw [pad_two_text_length]
  omega

/-- The exponent suffix has the two bytes `e` and the sign before the padded digits. -/
theorem exponent_text_length (E : Int) :
    (exponent_text E).length = max (num_digits E.natAbs) 2 + 2 := by
  unfold exponent_text
  simp only [List.length_cons, pad_two_text_length]

/-- The displayed exponent has at most `n` digits more than `fd.exponent`. -/
theorem displayed_digits_le (ex : Int) (n : Nat) (hn : 1 ≤ n) :
    max (num_digits (ex + (n : Int) - 1).natAbs) 2 ≤ max (num_digits ex.natAbs) 2 + n := by
  have h1 : (ex + (n : Int) - 1).natAbs ≤ ex.natAbs + n := by omega
  have h2 := num_digits_mono _ _ h1
  have h3 := num_digits_add_le ex.natAbs n hn
  omega

theorem fixed_output_length (fd : signed_fixed_data) :
    (fixed_output fd).length =
      num_digits fd.digits + max (num_digits fd.exponent.natAbs) 2 +
        (if fd.sign then 1 else 0) + 3 := by
  have hn := num_digits_pos fd.digits
  have hd := displayed_digits_le fd.exponent (num_digits fd.digits) hn
  have hsl : (if fd.sign = true then ['-'] else ([] : List Char)).length =
      (if fd.sign = true then 1 else 0) := by
    cases fd.sign <;> rfl
  unfold fixed_output
  simp only [decimal_text_length, pad_two_text_length, List.length_append, List.length_take,
    List.length_replicate, mantissa_text_length, exponent_text_length, hsl]
  omega

/-- The scientific form is the general output when both exponents are printed with the
same number of digits. -/
theorem fixed_output_eq_text (fd : signed_fixed_data)
    (hexp : max (num_digits (fd.exponent + (num_digits fd.digits : Int) - 1).natAbs) 2 =
      max (num_digits fd.exponent.natAbs) 2) :
    fixed_output fd = fixed_text fd := by
  have hsl : (if fd.sign = true then ['-'] else ([] : List Char)).length =
      (if fd.sign = true then 1 else 0) := by
    cases fd.sign <;> rfl
  unfold fixed_output fixed_text
  simp only [decimal_text_length, pad_two_text_length, hexp]
  congr 1
  have hlen : (if fd.sign = true then 1 else 0) + num_digits fd.digits + 1 +
      max (num_digits fd.exponent.natAbs) 2 - max (num_digits fd.exponent.natAbs) 2 =
      ((if fd.sign = true then ['-'] else ([] : List Char)) ++
        mantissa_text fd.digits).length := by
    rw [List.length_append, mantissa_text_length, hsl]
    omega
  rw [hlen, List.take_left]

/-- The scratch string of the scientific renderer, in general: when no operation on
`fixed_exp_t` overflows and the output length fits the scratch storage, the renderer hands
the text `fixed_output fd` to the string overload. -/
theorem fixed_scratch_eq (exp_width : Nat) (exp_origin : Int) (fd : signed_fixed_data)
    (M sz : Nat) (hw : exp_width ≤ 64) (h1 : 1 ≤ fd.digits)
    (hM : max_float_length exp_width exp_origin = some M)
    (hsz : num_digits_fixed exp_width fd = some sz) (hfit : sz ≤ M)
    (hn : in_exp_range exp_width (num_digits fd.digits : Int))
    (hsum : in_exp_range exp_width (fd.exponent + (num_digits fd.digits : Int))) :
    fixed_scratch exp_width exp_origin fd =
      some (small_string_span.mk
        (fixed_output fd ++ List.replicate (M - sz) (Char.ofNat 0)) sz) := by
  obtain ⟨ed, hed, hszeq⟩ := num_digits_fixed_some exp_width fd sz hsz
  have hnd := num_digits_pos fd.digits
  obtain ⟨hex, hnegx⟩ := exponent_ranges exp_width fd.exponent _ ed hnd hed hsum
  have hedv : ed = max (num_digits fd.exponent.natAbs) 2 := by
    have := num_exp_digits_eq exp_width fd.exponent hw hex hnegx
    rw [hed] at this
    exact Option.some.inj this
  have hMb := max_float_length_bounds exp_width exp_origin M hM
  have hszw : sz < word := by unfold word; omega
  have hmant := fixed_mantissa_eq exp_width exp_origin fd M sz ed h1 hM hed hszeq hfit hn hsum
  have hnegE : in_exp_range exp_width (-(fd.exponent + (num_digits fd.digits : Int) - 1)) := by
    unfold in_exp_range at hnegx hsum hex ⊢
    constructor <;> omega
  have hdl := displayed_digits_le fd.exponent (num_digits fd.digits) hnd
  have hsl : (if fd.sign = true then ['-'] else ([] : List Char)).length =
      (if fd.sign = true then 1 else 0) := by
    cases fd.sign <;> rfl
  -- the scratch string before the exponent part: the text, `ed + 2` bytes, the rest
  have hL : (if fd.sign then ['-'] else []) ++ mantissa_text fd.digits ++
      List.replicate (M - (if fd.sign then 1 else 0) - (num_digits fd.digits + 1))
        (Char.ofNat 0) =
      ((if fd.sign then ['-'] else []) ++ mantissa_text fd.digits ++
        List.replicate ed (Char.ofNat 0)) ++
      (List.replicate 2 (Char.ofNat 0) ++ List.replicate (M - sz) (Char.ofNat 0)) := by
    simp only [List.append_assoc, List.append_replicate_replicate]
    congr 3
    omega
  have hXlen : ((if fd.sign then ['-'] else []) ++ mantissa_text fd.digits ++
      List.replicate ed (Char.ofNat 0)).length = sz - 2 := by
    simp only [List.length_append, List.length_replicate, mantissa_text_length, hsl]
    omega
  have hLlen : sz ≤ ((if fd.sign then ['-'] else []) ++ mantissa_text fd.digits ++
      List.replicate (M - (if fd.sign then 1 else 0) - (num_digits fd.digits + 1))
        (Char.ofNat 0)).length := by
    simp only [List.length_append, List.length_replicate, mantissa_text_length, hsl]
    omega
  have hexpo := fixed_exponent_take exp_width (fd.exponent + (num_digits fd.digits : Int) - 1)
    sz hszw hnegE _ hLlen (by omega)
  simp only [fixed_scratch, hmant, hexpo]
  congr 2
  rw [hL]
  generalize hX : (if fd.sign then ['-'] else []) ++ mantissa_text fd.digits ++
      List.replicate ed (Char.ofNat 0) = X at hXlen
  have htake : (X ++ (List.replicate 2 (Char.ofNat 0) ++
      List.replicate (M - sz) (Char.ofNat 0))).take
        (sz - (max (num_digits (fd.exponent + (num_digits fd.digits : Int) - 1).natAbs) 2 + 2)) =
      X.take
        (sz - (max (num_digits (fd.exponent + (num_digits fd.digits : Int) - 1).natAbs) 2 + 2)) :=
    List.take_append_of_le_length (by omega)
  have hdrop : (X ++ (List.replicate 2 (Char.ofNat 0) ++
      List.replicate (M - sz) (Char.ofNat 0))).drop sz =
      List.replicate (M - sz) (Char.ofNat 0) := by
    have hsz2 : sz = X.length + 2 := by omega
    rw [hsz2, List.drop_append]
    exact List.drop_left' (List.length_replicate _ _)
  rw [htake, hdrop]
  congr 1
  unfold fixed_output
  simp only [decimal_text_length, pad_two_text_length, ← hedv, hX]
  congr 2
  omega

end impl

/-! ### Rendering into an empty buffer -/

theorem appended_small_string (N : Nat) (s : List Char) (h : s.length ≤ N) :
    (appended (small_string N) s).1 = true ∧ (appended (small_string N) s).2.str = s := by
  have hwf : (small_string N).wf := by
    simp [small_string_span.wf, small_string, small_string_span.size]
  have hcap : (small_string N).capacity - (small_string N).size = N := by
    simp [small_string, small_string_span.capacity, small_string_span.size]
  have hstr : (small_string N).str = [] := by
    simp [small_string, small_string_span.str, small_string_span.size]
  refine ⟨?_, ?_⟩
  · simp only [appended_fst, hcap, h, decide_True]
  · rw [appended_str _ _ hwf, hcap, hstr, List.nil_append, List.take_of_length_le h]

theorem map_appended_small_string (N : Nat) (s : List Char) (h : s.length ≤ N) :
    (some (appended (small_string N) s)).map (fun r => (r.1, r.2.str)) = some (true, s) := by
  obtain ⟨h1, h2⟩ := appended_small_string N s h
  simp only [Option.map_some', h1, h2]

theorem small_string_wf (N : Nat) : (small_string N).wf := by
  simp [small_string_span.wf, small_string, small_string_span.size]

namespace impl

/-- The output length when the exponent is not the least value of `fixed_exp_t`. -/
theorem num_digits_fixed_eq (exp_width : Nat) (fd : signed_fixed_data) (hw : exp_width ≤ 64)
    (hex : in_exp_range exp_width fd.exponent) (hneg : in_exp_range exp_width (-fd.exponent)) :
    num_digits_fixed exp_width fd = some (fixed_output fd).length := by
  unfold num_digits_fixed
  rw [num_exp_digits_eq exp_width fd.exponent hw hex hneg, fixed_output_length]

/-- The output length, when it is defined, is the length of the general output. -/
theorem fixed_output_length_eq (exp_width : Nat) (fd : signed_fixed_data) (sz : Nat)
    (hw : exp_width ≤ 64) (hsz : num_digits_fixed exp_width fd = some sz)
    (hsum : in_exp_range exp_width (fd.exponent + (num_digits fd.digits : Int))) :
    (fixed_output fd).length = sz := by
  obtain ⟨ed, hed, _⟩ := num_digits_fixed_some exp_width fd sz hsz
  obtain ⟨hex, hneg⟩ := exponent_ranges exp_width fd.exponent _ ed (num_digits_pos _) hed hsum
  have := num_digits_fixed_eq exp_width fd hw hex hneg
  rw [hsz] at this
  exact (Option.some.inj this).symm

theorem printed_digits_eq (x : Int) :
    (pad_two (decimal_text x.natAbs)).length = max (num_digits x.natAbs) 2 :=
  pad_two_text_length _

/-- The scientific renderer appends the general output. -/
theorem append_constexpr_fixed_eq (exp_width : Nat) (exp_origin : Int) (ss : small_string_span)
    (fd : signed_fixed_data) (M sz : Nat) (hw : exp_width ≤ 64) (h1 : 1 ≤ fd.digits)
    (hM : max_float_length exp_width exp_origin = some M)
    (hsz : num_digits_fixed exp_width fd = some sz) (hfit : sz ≤ M)
    (hn : in_exp_range exp_width (num_digits fd.digits : Int))
    (hsum : in_exp_range exp_width (fd.exponent + (num_digits fd.digits : Int))) :
    append_constexpr_fixed exp_width exp_origin ss fd =
      append_constexpr_str ss (fixed_output fd) := by
  unfold append_constexpr_fixed
  rw [fixed_scratch_eq exp_width exp_origin fd M sz hw h1 hM hsz hfit hn hsum]
  simp only [small_string_span.str, small_string_span.size]
  rw [List.take_left' (fixed_output_length_eq exp_width fd sz hw hsz hsum)]

/-- The local `exponent` of the renderer is `fd.exponent + n - 1`. -/
theorem fixed_displayed_exponent_eq (exp_width : Nat) (exp_origin : Int)
    (fd : signed_fixed_data) (M sz : Nat) (h1 : 1 ≤ fd.digits)
    (hM : max_float_length exp_width exp_origin = some M)
    (hsz : num_digits_fixed exp_width fd = some sz) (hfit : sz ≤ M)
    (hn : in_exp_range exp_width (num_digits fd.digits : Int))
    (hsum : in_exp_range exp_width (fd.exponent + (num_digits fd.digits : Int))) :
    fixed_displayed_exponent exp_width exp_origin fd =
      some (fd.exponent + (num_digits fd.digits : Int) - 1) := by
  obtain ⟨ed, hed, hszeq⟩ := num_digits_fixed_some exp_width fd sz hsz
  unfold fixed_displayed_exponent
  rw [fixed_mantissa_eq exp_width exp_origin fd M sz ed h1 hM hed hszeq hfit hn hsum]
  rfl

/-- The renderer on a value of small exponent, for every `fixed_exp_t` of 8 to 64 bits and
every scratch length `max_float_length`: it appends the general output, which has at most
26 bytes. -/
theorem append_constexpr_fixed_small (exp_width : Nat) (exp_origin : Int) (M N : Nat)
    (fd : signed_fixed_data) (h8 : 8 ≤ exp_width) (hw : exp_width ≤ 64)
    (hM : max_float_length exp_width exp_origin = some M)
    (h1 : 1 ≤ fd.digits) (hd : fd.digits < word)
    (hlo : -100 ≤ fd.exponent) (hhi : fd.exponent ≤ 100)
    (hfit : (fixed_output fd).length ≤ 26) (hN : (fixed_output fd).length ≤ N) :
    (append_constexpr_fixed exp_width exp_origin (small_string N) fd).map
      (fun r => (r.1, r.2.str)) = some (true, fixed_output fd) := by
  have hnd := num_digits_le_max fd.digits hd
  rw [max_uint_length_eq] at hnd
  have hMb := max_float_length_bounds exp_width exp_origin M hM
  have hex := in_exp_range_small exp_width fd.exponent h8 (by omega) (by omega)
  have hneg := in_exp_range_small exp_width (-fd.exponent) h8 (by omega) (by omega)
  have hn := in_exp_range_small exp_width (num_digits fd.digits : Int) h8 (by omega) (by omega)
  have hsum := in_exp_range_small exp_width (fd.exponent + (num_digits fd.digits : Int)) h8
    (by omega) (by omega)
  rw [append_constexpr_fixed_eq exp_width exp_origin _ fd M _ hw h1 hM
      (num_digits_fixed_eq exp_width fd hw hex hneg) (by omega) hn hsum,
    append_constexpr_str_eq _ _ (small_string_wf N)]
  exact map_appended_small_string N _ hN

/-- The exponent is a value of `fixed_exp_t` when its negation and its sum with a positive
count are. -/
theorem exponent_in_range (exp_width : Nat) (x : Int) (n : Nat) (hn : 1 ≤ n)
    (hneg : in_exp_range exp_width (-x)) (hsum : in_exp_range exp_width (x + (n : Int))) :
    in_exp_range exp_width x := by
  unfold in_exp_range at hneg hsum ⊢
  constructor <;> omega

/-- C7 (as amended): for every width of `fixed_exp_t` up to 64 bits and every scratch
length `M = max_float_length`, and for every fixed-point value with `digits ≥ 1` (decimal
digits `d1 d2 ... dn`) for which `fd.exponent` and the displayed exponent
`E = fd.exponent + n - 1` are printed with the same number of digits, whose scientific
form is not longer than the renderer's scratch string, and for which no operation on
`fixed_exp_t` overflows (the negation `-fd.exponent`, the count `n` and the sum
`fd.exponent + n` are values of `fixed_exp_t`), `append_constexpr(ss, fd)` into a large
enough empty buffer returns `true` and yields exactly `-` iff `fd.sign`, then `d1`, then
`.` (also when `n = 1`), then `d2 ... dn`, then `e`, then `+` if `E ≥ 0` else `-`, then
`|E|` in decimal zero-padded to at least two digits; into any buffer it is the append of
that text, and the output length `num_digits(fd)` is the length of that text.  Example,
for every width from 8 to 64 bits: digits 100, exponent -2, positive gives
`"1.00e+00"`. -/
theorem append_constexpr_fixed_scientific (exp_width : Nat) (exp_origin : Int)
    (fd : signed_fixed_data) (M N : Nat) (hw : exp_width ≤ 64) (h1 : 1 ≤ fd.digits)
    (hM : max_float_length exp_width exp_origin = some M)
    (hneg : in_exp_range exp_width (-fd.exponent))
    (hn : in_exp_range exp_width ((decimal_text fd.digits).length : Int))
    (hsum : in_exp_range exp_width
      (fd.exponent + ((decimal_text fd.digits).length : Int)))
    (hexp : (pad_two (decimal_text
        (fd.exponent + ((decimal_text fd.digits).length : Int) - 1).natAbs)).length =
      (pad_two (decimal_text fd.exponent.natAbs)).length)
    (hfit : (fixed_text fd).length ≤ M) (hN : (fixed_text fd).length ≤ N) :
    (append_constexpr_fixed exp_width exp_origin (small_string N) fd).map
        (fun r => (r.1, r.2.str)) = some (true, fixed_text fd) ∧
    (∀ ss : small_string_span, ss.size ≤ ss.capacity →
      append_constexpr_fixed exp_width exp_origin ss fd =
        append_constexpr_str ss (fixed_text fd)) ∧
    fixed_text fd = (if fd.sign then ['-'] else []) ++ mantissa_text fd.digits ++
      ('e' :: (if fd.exponent + ((decimal_text fd.digits).length : Int) - 1 ≥ 0
          then '+' else '-') ::
        pad_two (decimal_text
          (fd.exponent + ((decimal_text fd.digits).length : Int) - 1).natAbs)) ∧
    num_digits_fixed exp_width fd = some (fixed_text fd).length ∧
    (∀ (w : Nat) (origin : Int) (M' : Nat), 8 ≤ w → w ≤ 64 →
      max_float_length w origin = some M' →
      (append_constexpr_fixed w origin (small_string 32)
          { digits := 100, exponent := -2, sign := false }).map (fun r => (r.1, r.2.str)) =
        some (true, "1.00e+00".toList)) := by
  rw [decimal_text_length] at hn hsum hexp
  rw [printed_digits_eq, printed_digits_eq] at hexp
  have heq := fixed_output_eq_text fd hexp
  have hex := exponent_in_range exp_width fd.exponent _ (num_digits_pos _) hneg hsum
  have hsz := num_digits_fixed_eq exp_width fd hw hex hneg
  rw [heq] at hsz
  have happ : ∀ ss : small_string_span, append_constexpr_fixed exp_width exp_origin ss fd =
      append_constexpr_str ss (fixed_text fd) := by
    intro ss
    rw [append_constexpr_fixed_eq exp_width exp_origin ss fd M _ hw h1 hM hsz hfit hn hsum,
      heq]
  refine ⟨?_, fun ss _ => happ ss, rfl, hsz, ?_⟩
  · rw [happ, append_constexpr_str_eq _ _ (small_string_wf N)]
    exact map_appended_small_string N _ hN
  · intro w origin M' h8 hw' hM'
    exact append_constexpr_fixed_small w origin M' 32 _ h8 hw' hM' (by decide) (by decide)
      (by decide) (by decide) (by decide) (by decide)

/-- The scientific renderer at a negative value with a negative three-digit exponent, with
a 32-bit `fixed_exp_t` and `exp_origin = -1023`, for which `max_float_length` is 28. -/
theorem append_constexpr_fixed_scientific_witness :
    (append_constexpr_fixed 32 (-1023) (small_string 16)
        { digits := 12345, exponent := -204, sign := true }).map (fun r => (r.1, r.2.str)) =
      some (true, fixed_text { digits := 12345, exponent := -204, sign := true }) ∧
    (∀ ss : small_string_span, ss.size ≤ ss.capacity →
      append_constexpr_fixed 32 (-1023) ss
          { digits := 12345, exponent := -204, sign := true } =
        append_constexpr_str ss
          (fixed_text { digits := 12345, exponent := -204, sign := true })) ∧
    fixed_text { digits := 12345, exponent := -204, sign := true } =
      (if (signed_fixed_data.mk 12345 (-204) true).sign then ['-'] else []) ++
        mantissa_text (signed_fixed_data.mk 12345 (-204) true).digits ++
      ('e' :: (if (signed_fixed_data.mk 12345 (-204) true).exponent +
            ((decimal_text (signed_fixed_data.mk 12345 (-204) true).digits).length : Int) - 1
            ≥ 0 then '+' else '-') ::
        pad_two (decimal_text
          ((signed_fixed_data.mk 12345 (-204) true).exponent +
            ((decimal_text (signed_fixed_data.mk 12345 (-204) true).digits).length : Int)
              - 1).natAbs)) ∧
    num_digits_fixed 32 { digits := 12345, exponent := -204, sign := true } =
      some (fixed_text { digits := 12345, exponent := -204, sign := true }).length ∧
    (∀ (w : Nat) (origin : Int) (M' : Nat), 8 ≤ w → w ≤ 64 →
      max_float_length w origin = some M' →
      (append_constexpr_fixed w origin (small_string 32)
          { digits := 100, exponent := -2, sign := false }).map (fun r => (r.1, r.2.str)) =
        some (true, "1.00e+00".toList)) :=
  append_constexpr_fixed_scientific 32 (-1023)
    { digits := 12345, exponent := -204, sign := true } 28 16
    (by decide) (by decide) (by decide) (by decide) (by decide) (by decide) (by decide)
    (by decide) (by decide)

/-- C7 as stated fails, at a 32-bit `fixed_exp_t` and `exp_origin = -1023`
(`max_float_length = 28`).  The value with digits `10^19` (20 digits), exponent `-200000`
and the sign set has `digits ≥ 1`, and its exponent and its displayed exponent `-199981`
are both printed with six digits, but its scientific form has 30 characters, more than the
28 of the scratch string, and the renderer does not return any text, however large the
destination buffer.  The value with digits 100 and the largest exponent 2147483647 has an
exponent and a displayed exponent of ten digits each, but the sum
`fd.exponent + exponent_add` is not a value of `fixed_exp_t`: the addition overflows and
no text is returned. -/
theorem append_constexpr_fixed_scratch_overflow :
    1 ≤ (signed_fixed_data.mk 10000000000000000000 (-200000) true).digits ∧
    (signed_fixed_data.mk 10000000000000000000 (-200000) true).digits < 2 ^ 64 ∧
    in_exp_range 32 (-(-200000)) ∧
    in_exp_range 32 ((decimal_text 10000000000000000000).length : Int) ∧
    in_exp_range 32 ((-200000 : Int) + ((decimal_text 10000000000000000000).length : Int)) ∧
    (pad_two (decimal_text ((-200000 : Int) +
        ((decimal_text 10000000000000000000).length : Int) - 1).natAbs)).length =
      (pad_two (decimal_text (-200000 : Int).natAbs)).length ∧
    (fixed_text { digits := 10000000000000000000, exponent := -200000, sign := true }).length
      ≤ 64 ∧
    max_float_length 32 (-1023) = some 28 ∧
    num_digits_fixed 32 { digits := 10000000000000000000, exponent := -200000, sign := true }
      = some 30 ∧
    append_constexpr_fixed 32 (-1023) (small_string 64)
      { digits := 10000000000000000000, exponent := -200000, sign := true } = none ∧
    in_exp_range 32 2147483647 ∧ in_exp_range 32 (-2147483647) ∧
    in_exp_range 32 ((decimal_text 100).length : Int) ∧
    (pad_two (decimal_text ((2147483647 : Int) +
        ((decimal_text 100).length : Int) - 1).natAbs)).length =
      (pad_two (decimal_text (2147483647 : Int).natAbs)).length ∧
    num_digits_fixed 32 { digits := 100, exponent := 2147483647, sign := false } = some 16 ∧
    ¬ in_exp_range 32 ((2147483647 : Int) + ((decimal_text 100).length : Int)) ∧
    append_constexpr_fixed 32 (-1023) (small_string 64)
      { digits := 100, exponent := 2147483647, sign := false } = none := by
  -- the value too long for the scratch string
  refine ⟨by decide, by decide, by decide, by decide, by decide, by decide, by decide,
    by decide, by decide, by decide, ?_⟩
  -- the value at the largest exponent
  exact ⟨by decide, by decide, by decide, by decide, by decide, by decide, by decide⟩

end impl

namespace impl

/-- The general output ends with the exponent suffix of the displayed exponent. -/
theorem fixed_output_suffix (fd : signed_fixed_data) :
    ∃ head : List Char, fixed_output fd =
      head ++ exponent_text (fd.exponent + ((decimal_text fd.digits).length : Int) - 1) :=
  ⟨_, rfl⟩

/-- C8 (as amended): for every width of `fixed_exp_t` up to 64 bits and every scratch
length `M = max_float_length`, and for every fixed-point value with `digits ≥ 1` for which
no operation on `fixed_exp_t` overflows (the negation `-data.exponent`, the digit count
`n` and the sum `data.exponent + n` are values of `fixed_exp_t`) and whose output length
(`n` bytes, the digits of `data.exponent` padded to two, the sign and three more) fits the
renderer's scratch string, the exponent displayed by the scientific renderer equals
`data.exponent + (count of digits after the first)`: it is the value of the renderer's
local `exponent`, which the exponent part of the renderer prints, and the text handed to
the destination buffer ends with the exponent suffix of that value, whether or not it is
printed with as many digits as `data.exponent`; when it is, the text is the sign, the
mantissa text and that suffix. -/
theorem fixed_displayed_exponent_spec (exp_width : Nat) (exp_origin : Int)
    (fd : signed_fixed_data) (M : Nat) (hw : exp_width ≤ 64) (h1 : 1 ≤ fd.digits)
    (hM : max_float_length exp_width exp_origin = some M)
    (hneg : in_exp_range exp_width (-fd.exponent))
    (hn : in_exp_range exp_width ((decimal_text fd.digits).length : Int))
    (hsum : in_exp_range exp_width
      (fd.exponent + ((decimal_text fd.digits).length : Int)))
    (hfit : (decimal_text fd.digits).length +
      (pad_two (decimal_text fd.exponent.natAbs)).length + (if fd.sign then 1 else 0) + 3 ≤ M) :
    fixed_displayed_exponent exp_width exp_origin fd =
      some (fd.exponent + ((decimal_text fd.digits).tail.length : Int)) ∧
    (∃ tmp2 : small_string_span,
      fixed_mantissa exp_width exp_origin fd =
        some (tmp2, fd.exponent + ((decimal_text fd.digits).tail.length : Int)) ∧
      fixed_scratch exp_width exp_origin fd =
        fixed_exponent exp_width
          (fd.exponent + ((decimal_text fd.digits).tail.length : Int)) tmp2) ∧
    (∃ (tmp : small_string_span) (head : List Char),
      fixed_scratch exp_width exp_origin fd = some tmp ∧
      tmp.str = head ++
        exponent_text (fd.exponent + ((decimal_text fd.digits).tail.length : Int)) ∧
      ∀ ss : small_string_span, ss.size ≤ ss.capacity →
        append_constexpr_fixed exp_width exp_origin ss fd =
          append_constexpr_str ss (head ++
            exponent_text (fd.exponent + ((decimal_text fd.digits).tail.length : Int)))) ∧
    ((pad_two (decimal_text
        (fd.exponent + ((decimal_text fd.digits).tail.length : Int)).natAbs)).length =
      (pad_two (decimal_text fd.exponent.natAbs)).length →
      ∃ tmp : small_string_span, fixed_scratch exp_width exp_origin fd = some tmp ∧
        tmp.str = (if fd.sign then ['-'] else []) ++ mantissa_text fd.digits ++
          exponent_text (fd.exponent + ((decimal_text fd.digits).tail.length : Int))) := by
  have hnd := num_digits_pos fd.digits
  have htail : fd.exponent + ((decimal_text fd.digits).tail.length : Int) =
      fd.exponent + ((decimal_text fd.digits).length : Int) - 1 := by
    rw [List.length_tail, decimal_text_length]
    omega
  rw [htail]
  obtain ⟨head, hhead⟩ := fixed_output_suffix fd
  rw [decimal_text_length] at hn hsum
  rw [decimal_text_length, printed_digits_eq, ← fixed_output_length] at hfit
  have hex := exponent_in_range exp_width fd.exponent _ hnd hneg hsum
  have hsz := num_digits_fixed_eq exp_width fd hw hex hneg
  generalize hszv : (fixed_output fd).length = sz at hfit hsz
  have hscr := fixed_scratch_eq exp_width exp_origin fd M sz hw h1 hM hsz hfit hn hsum
  have hlen := fixed_output_length_eq exp_width fd sz hw hsz hsum
  have hstr : (small_string_span.mk
      (fixed_output fd ++ List.replicate (M - sz) (Char.ofNat 0)) sz).str = fixed_output fd := by
    simp only [small_string_span.str, small_string_span.size]
    rw [List.take_left' hlen]
  obtain ⟨ed, hed, hszeq⟩ := num_digits_fixed_some exp_width fd sz hsz
  have hmant := fixed_mantissa_eq exp_width exp_origin fd M sz ed h1 hM hed hszeq hfit hn hsum
  refine ⟨?_, ?_, ?_, ?_⟩
  · rw [decimal_text_length]
    exact fixed_displayed_exponent_eq exp_width exp_origin fd M sz h1 hM hsz hfit hn hsum
  · rw [decimal_text_length]
    refine ⟨_, hmant, ?_⟩
    simp only [fixed_scratch, hmant]
  · refine ⟨_, head, hscr, ?_, ?_⟩
    · rw [hstr, hhead]
    · intro ss _
      rw [append_constexpr_fixed_eq exp_width exp_origin ss fd M sz hw h1 hM hsz hfit hn hsum,
        hhead]
  · intro hexp
    rw [decimal_text_length, printed_digits_eq, printed_digits_eq] at hexp
    refine ⟨_, hscr, ?_⟩
    rw [hstr, fixed_output_eq_text fd hexp]
    rfl

/-- The displayed exponent at a concrete input whose displayed exponent 100 has one digit
more than its exponent 95, with a 32-bit `fixed_exp_t` and `exp_origin = -1023`
(`max_float_length = 28`). -/
theorem fixed_displayed_exponent_spec_witness :
    fixed_displayed_exponent 32 (-1023) { digits := 100000, exponent := 95, sign := false } =
      some ((signed_fixed_data.mk 100000 95 false).exponent +
        ((decimal_text (signed_fixed_data.mk 100000 95 false).digits).tail.length : Int)) ∧
    (∃ tmp2 : small_string_span,
      fixed_mantissa 32 (-1023) { digits := 100000, exponent := 95, sign := false } =
        some (tmp2, (signed_fixed_data.mk 100000 95 false).exponent +
          ((decimal_text (signed_fixed_data.mk 100000 95 false).digits).tail.length : Int)) ∧
      fixed_scratch 32 (-1023) { digits := 100000, exponent := 95, sign := false } =
        fixed_exponent 32
          ((signed_fixed_data.mk 100000 95 false).exponent +
            ((decimal_text (signed_fixed_data.mk 100000 95 false).digits).tail.length : Int))
          tmp2) ∧
    (∃ (tmp : small_string_span) (head : List Char),
      fixed_scratch 32 (-1023) { digits := 100000, exponent := 95, sign := false } =
        some tmp ∧
      tmp.str = head ++
        exponent_text ((signed_fixed_data.mk 100000 95 false).exponent +
          ((decimal_text (signed_fixed_data.mk 100000 95 false).digits).tail.length : Int)) ∧
      ∀ ss : small_string_span, ss.size ≤ ss.capacity →
        append_constexpr_fixed 32 (-1023) ss
            { digits := 100000, exponent := 95, sign := false } =
          append_constexpr_str ss (head ++
            exponent_text ((signed_fixed_data.mk 100000 95 false).exponent +
              ((decimal_text (signed_fixed_data.mk 100000 95 false).digits).tail.length
                : Int)))) ∧
    ((pad_two (decimal_text
        ((signed_fixed_data.mk 100000 95 false).exponent +
          ((decimal_text (signed_fixed_data.mk 100000 95 false).digits).tail.length
            : Int)).natAbs)).length =
      (pad_two (decimal_text (signed_fixed_data.mk 100000 95 false).exponent.natAbs)).length →
      ∃ tmp : small_string_span,
        fixed_scratch 32 (-1023) { digits := 100000, exponent := 95, sign := false } =
          some tmp ∧
        tmp.str = (if (signed_fixed_data.mk 100000 95 false).sign then ['-'] else []) ++
          mantissa_text (signed_fixed_data.mk 100000 95 false).digits ++
          exponent_text ((signed_fixed_data.mk 100000 95 false).exponent +
            ((decimal_text (signed_fixed_data.mk 100000 95 false).digits).tail.length
              : Int))) :=
  fixed_displayed_exponent_spec 32 (-1023) { digits := 100000, exponent := 95, sign := false }
    28 (by decide) (by decide) (by decide) (by decide) (by decide) (by decide) (by decide)

/-- C8 as stated fails.  For digits 100 and exponent -2 (the value 1.00) there are two
digits after the first, so the stated formula gives `-2 + 2 - 1 = -1`, while the renderer
displays the exponent 0 (the text is `"1.00e+00"`), for every `fixed_exp_t` of 8 to 64
bits and every scratch length.  With a 32-bit `fixed_exp_t` and `exp_origin = -1023`: for
a value whose scientific form is longer than the scratch string no exponent is displayed
at all, and neither is one for digits 100 at the largest exponent 2147483647, where the
sum `fd.exponent + exponent_add` overflows. -/
theorem fixed_displayed_exponent_counterexample :
    fixed_displayed_exponent 32 (-1023) { digits := 100, exponent := -2, sign := false } =
      some 0 ∧
    (-2 : Int) + ((decimal_text 100).tail.length : Int) - 1 = -1 ∧
    fixed_displayed_exponent 32 (-1023) { digits := 100, exponent := -2, sign := false } ≠
      some ((-2 : Int) + ((decimal_text 100).tail.length : Int) - 1) ∧
    (append_constexpr_fixed 32 (-1023) (small_string 32)
        { digits := 100, exponent := -2, sign := false }).map (fun r => (r.1, r.2.str)) =
      some (true, "1.00e+00".toList) ∧
    (∀ (w : Nat) (origin : Int) (M : Nat), 8 ≤ w → w ≤ 64 →
      max_float_length w origin = some M →
      fixed_displayed_exponent w origin { digits := 100, exponent := -2, sign := false } =
        some 0 ∧
      (append_constexpr_fixed w origin (small_string 32)
          { digits := 100, exponent := -2, sign := false }).map (fun r => (r.1, r.2.str)) =
        some (true, "1.00e+00".toList)) ∧
    fixed_displayed_exponent 32 (-1023)
      { digits := 10000000000000000000, exponent := -200000, sign := true } = none ∧
    fixed_displayed_exponent 32 (-1023)
      { digits := 100, exponent := 2147483647, sign := false } = none := by
  refine ⟨by decide, by decide, by decide, by decide, ?_, by decide, by decide⟩
  intro w origin M h8 hw hM
  have hMb := max_float_length_bounds w origin M hM
  have hex := in_exp_range_small w (-2) h8 (by decide) (by decide)
  have hneg := in_exp_range_small w (-(-2)) h8 (by decide) (by decide)
  refine ⟨?_, ?_⟩
  · rw [fixed_displayed_exponent_eq w origin _ M _ (by decide) hM
      (num_digits_fixed_eq w { digits := 100, exponent := -2, sign := false } hw hex hneg)
      (by
        have : (fixed_output { digits := 100, exponent := -2, sign := false }).length = 8 := by
          decide
        omega)
      (in_exp_range_small w _ h8 (by decide) (by decide))
      (in_exp_range_small w _ h8 (by decide) (by decide))]
    decide
  · exact append_constexpr_fixed_small w origin M 32 _ h8 hw hM (by decide) (by decide)
      (by decide) (by decide) (by decide) (by decide)

end impl

/-! ### The floating-point entry point -/

namespace impl

theorem zeros_eq : "000000000000000000".toList = List.replicate 18 '0' := by decide

theorem exp_bits_special_ne_zero (T : floating_point) : float_traits.exp_bits_special T ≠ 0 := by
  cases T <;> decide

theorem sig_bits_inf_eq (T : floating_point) : float_traits.sig_bits_inf T = 0 := by
  cases T <;> rfl

/-- The zero branch of the entry point appends the zero text (general form). -/
theorem float_zero_branch_eq (exp_width : Nat) (exp_origin : Int)
    (T : floating_point)
    (to_fixed : float_bits → signed_fixed_data) (ss : small_string_span) (bits : float_bits)
    (p : Nat) (hss : ss.wf) (he : bits.exponent = 0) (hs : bits.significand = 0)
    (hp1 : 1 ≤ p) (hp19 : p ≤ 19) :
    append_constexpr_float exp_width exp_origin T true to_fixed ss bits p =
      some (appended ss (zero_text bits.sign p)) := by
  have hsub : size_sub p 1 = p - 1 := size_sub_eq p 1 hp1 (by unfold word; omega)
  have hzeros : substr "000000000000000000".toList 0 (p - 1) = List.replicate (p - 1) '0' := by
    have hmin : min (p - 1) 18 = p - 1 := by omega
    unfold substr
    rw [zeros_eq, List.drop_zero, List.take_replicate, hmin]
  have htext : (if bits.sign = true then "-0.".toList else "0.".toList) ++
      List.replicate (p - 1) '0' ++ "e+00".toList = zero_text bits.sign p := by
    unfold zero_text
    cases bits.sign
    · rfl
    · rfl
  simp only [append_constexpr_float, if_true, hp19, he, hs, hsub, hzeros]
  rw [append_constexpr_str_eq ss _ hss]
  rw [and_then_appended ss _ _ hss _ (fun ss1 h1 => append_constexpr_str_eq ss1 _ h1)]
  rw [and_then_appended ss _ _ hss _ (fun ss1 h1 => append_constexpr_str_eq ss1 _ h1)]
  rw [htext]

/-- C9: for an IEEE float whose decomposed bits have exponent field 0 and significand
field 0 (a zero) and every precision `1 ≤ p ≤ 19`, the entry point is, whatever the width
of `fixed_exp_t` and the value of `exp_origin`, the append of
`0.`, exactly `p - 1` characters `0` and `e+00`, preceded by `-` iff the sign bit is
set; into a large enough empty buffer it returns `true` and yields that text.  Hence the
renderings of `+0.0` and `-0.0` differ only in the leading sign character.  Examples at
precision 6: `"0.00000e+00"` and `"-0.00000e+00"`. -/
theorem append_constexpr_float_zero (exp_width : Nat) (exp_origin : Int)
    (T : floating_point)
    (to_fixed : float_bits → signed_fixed_data) (ss : small_string_span) (bits : float_bits)
    (p : Nat) (hss : ss.size ≤ ss.capacity) (he : bits.exponent = 0)
    (hs : bits.significand = 0) (hp1 : 1 ≤ p) (hp19 : p ≤ 19) :
    append_constexpr_float exp_width exp_origin T true to_fixed ss bits p =
      append_constexpr_str ss (zero_text bits.sign p) ∧
    (∀ N : Nat, (zero_text bits.sign p).length ≤ N →
      (append_constexpr_float exp_width exp_origin T true to_fixed (small_string N) bits p).map
        (fun r => (r.1, r.2.str)) = some (true, zero_text bits.sign p)) ∧
    zero_text bits.sign p = (if bits.sign then ['-'] else []) ++ ['0', '.'] ++
      List.replicate (p - 1) '0' ++ ['e', '+', '0', '0'] ∧
    zero_text true p = '-' :: zero_text false p ∧
    (append_constexpr_float exp_width exp_origin .double true to_fixed (small_string 32)
        { significand := 0, exponent := 0, sign := false } 6).map (fun r => (r.1, r.2.str)) =
      some (true, "0.00000e+00".toList) ∧
    (append_constexpr_float exp_width exp_origin .double true to_fixed (small_string 32)
        { significand := 0, exponent := 0, sign := true } 6).map (fun r => (r.1, r.2.str)) =
      some (true, "-0.00000e+00".toList) := by
  have hwf : ss.wf := hss
  refine ⟨?_, ?_, rfl, rfl, ?_, ?_⟩
  · rw [float_zero_branch_eq exp_width exp_origin T to_fixed ss bits p hwf he hs hp1 hp19,
      append_constexpr_str_eq ss _ hwf]
  · intro N hN
    rw [float_zero_branch_eq exp_width exp_origin T to_fixed _ bits p (small_string_wf N) he hs
      hp1 hp19]
    exact map_appended_small_string N _ hN
  · have ht : zero_text false 6 = "0.00000e+00".toList := by decide
    rw [float_zero_branch_eq exp_width exp_origin .double to_fixed _ _ 6 (small_string_wf 32)
      rfl rfl (by decide) (by decide), ← ht]
    exact map_appended_small_string 32 _ (by decide)
  · have ht : zero_text true 6 = "-0.00000e+00".toList := by decide
    rw [float_zero_branch_eq exp_width exp_origin .double to_fixed _ _ 6 (small_string_wf 32)
      rfl rfl (by decide) (by decide), ← ht]
    exact map_appended_small_string 32 _ (by decide)

/-- The zero branch at a concrete input: `-0.0f` at precision 19 into a buffer that
already holds `"x="`, with a 32-bit `fixed_exp_t` and `exp_origin = -1023`. -/
theorem append_constexpr_float_zero_witness :
    append_constexpr_float 32 (-1023) .float true
        (fun _ => { digits := 0, exponent := 0, sign := false })
        { buffer := "x=".toList ++ List.replicate 30 ' ', data_size := 2 }
        { significand := 0, exponent := 0, sign := true } 19 =
      append_constexpr_str { buffer := "x=".toList ++ List.replicate 30 ' ', data_size := 2 }
        (zero_text (float_bits.mk 0 0 true).sign 19) ∧
    (∀ N : Nat, (zero_text (float_bits.mk 0 0 true).sign 19).length ≤ N →
      (append_constexpr_float 32 (-1023) .float true
          (fun _ => { digits := 0, exponent := 0, sign := false }) (small_string N)
          { significand := 0, exponent := 0, sign := true } 19).map
        (fun r => (r.1, r.2.str)) = some (true, zero_text (float_bits.mk 0 0 true).sign 19)) ∧
    zero_text (float_bits.mk 0 0 true).sign 19 =
      (if (float_bits.mk 0 0 true).sign then ['-'] else []) ++ ['0', '.'] ++
        List.replicate (19 - 1) '0' ++ ['e', '+', '0', '0'] ∧
    zero_text true 19 = '-' :: zero_text false 19 ∧
    (append_constexpr_float 32 (-1023) .double true
        (fun _ => { digits := 0, exponent := 0, sign := false }) (small_string 32)
        { significand := 0, exponent := 0, sign := false } 6).map (fun r => (r.1, r.2.str)) =
      some (true, "0.00000e+00".toList) ∧
    (append_constexpr_float 32 (-1023) .double true
        (fun _ => { digits := 0, exponent := 0, sign := false }) (small_string 32)
        { significand := 0, exponent := 0, sign := true } 6).map (fun r => (r.1, r.2.str)) =
      some (true, "-0.00000e+00".toList) :=
  append_constexpr_float_zero 32 (-1023) .float
    (fun _ => { digits := 0, exponent := 0, sign := false })
    { buffer := "x=".toList ++ List.replicate 30 ' ', data_size := 2 }
    { significand := 0, exponent := 0, sign := true } 19 (by decide) rfl rfl (by decide)
    (by decide)

/-- C10: for an IEEE float whose decomposed exponent field is all ones, the entry point
is, for every precision and whatever the fixed-point converter, the width of `fixed_exp_t`
and the value of `exp_origin`, the append of `inf` when
the significand field is zero and the sign bit is clear, of `-inf` when the significand
field is zero and the sign bit is set, and of `nan` for every non-zero significand,
regardless of the sign bit and of the payload.  Examples into an empty buffer of
capacity 32: `"inf"`, `"-inf"`, and `"nan"` for a NaN with the sign bit set. -/
theorem append_constexpr_float_special (exp_width : Nat) (exp_origin : Int)
    (T : floating_point)
    (to_fixed : float_bits → signed_fixed_data) (ss : small_string_span) (bits : float_bits)
    (p : Nat) (he : bits.exponent = float_traits.exp_bits_special T) :
    (bits.significand = 0 → bits.sign = false →
      append_constexpr_float exp_width exp_origin T true to_fixed ss bits p =
        append_constexpr_str ss ['i', 'n', 'f']) ∧
    (bits.significand = 0 → bits.sign = true →
      append_constexpr_float exp_width exp_origin T true to_fixed ss bits p =
        append_constexpr_str ss ['-', 'i', 'n', 'f']) ∧
    (bits.significand ≠ 0 →
      append_constexpr_float exp_width exp_origin T true to_fixed ss bits p =
        append_constexpr_str ss ['n', 'a', 'n']) ∧
    float_traits.exp_bits_special .float = 2 ^ 8 - 1 ∧
    float_traits.exp_bits_special .double = 2 ^ 11 - 1 ∧
    (append_constexpr_float exp_width exp_origin .double true to_fixed (small_string 32)
        { significand := 0, exponent := 0x7ff, sign := false } p).map
      (fun r => (r.1, r.2.str)) = some (true, "inf".toList) ∧
    (append_constexpr_float exp_width exp_origin .double true to_fixed (small_string 32)
        { significand := 0, exponent := 0x7ff, sign := true } p).map
      (fun r => (r.1, r.2.str)) = some (true, "-inf".toList) ∧
    (append_constexpr_float exp_width exp_origin .float true to_fixed (small_string 32)
        { significand := 0x400001, exponent := 0xff, sign := true } p).map
      (fun r => (r.1, r.2.str)) = some (true, "nan".toList) := by
  have hne : ¬ float_traits.exp_bits_special T = 0 := exp_bits_special_ne_zero T
  have hinf := sig_bits_inf_eq T
  refine ⟨?_, ?_, ?_, rfl, rfl, ?_, ?_, ?_⟩
  · intro hs hsign
    simp only [append_constexpr_float, if_true, hne, if_false, he, hs, hinf, hsign,
      Bool.false_eq_true]
    rfl
  · intro hs hsign
    simp only [append_constexpr_float, if_true, hne, if_false, he, hs, hinf, hsign]
    rfl
  · intro hs
    simp only [append_constexpr_float, if_true, hne, if_false, he, hs, hinf]
    rfl
  · have h : append_constexpr_float exp_width exp_origin .double true to_fixed (small_string 32)
        { significand := 0, exponent := 0x7ff, sign := false } p =
        append_constexpr_str (small_string 32) "inf".toList := by
      simp [append_constexpr_float, float_traits.exp_bits_special,
        float_traits.sig_bits_inf]
    rw [h]
    decide
  · have h : append_constexpr_float exp_width exp_origin .double true to_fixed (small_string 32)
        { significand := 0, exponent := 0x7ff, sign := true } p =
        append_constexpr_str (small_string 32) "-inf".toList := by
      simp [append_constexpr_float, float_traits.exp_bits_special,
        float_traits.sig_bits_inf]
    rw [h]
    decide
  · have h : append_constexpr_float exp_width exp_origin .float true to_fixed (small_string 32)
        { significand := 0x400001, exponent := 0xff, sign := true } p =
        append_constexpr_str (small_string 32) "nan".toList := by
      simp [append_constexpr_float, float_traits.exp_bits_special,
        float_traits.sig_bits_inf]
    rw [h]
    decide

/-- The special-value branch at a concrete input: a `double` NaN with a payload, into a
buffer of capacity 2, at precision 40, with a 32-bit `fixed_exp_t` and
`exp_origin = -1023`. -/
theorem append_constexpr_float_special_witness :
    ((float_bits.mk 12345 0x7ff false).significand = 0 →
      (float_bits.mk 12345 0x7ff false).sign = false →
      append_constexpr_float 32 (-1023) .double true
          (fun _ => { digits := 0, exponent := 0, sign := false }) (small_string 2)
          { significand := 12345, exponent := 0x7ff, sign := false } 40 =
        append_constexpr_str (small_string 2) ['i', 'n', 'f']) ∧
    ((float_bits.mk 12345 0x7ff false).significand = 0 →
      (float_bits.mk 12345 0x7ff false).sign = true →
      append_constexpr_float 32 (-1023) .double true
          (fun _ => { digits := 0, exponent := 0, sign := false }) (small_string 2)
          { significand := 12345, exponent := 0x7ff, sign := false } 40 =
        append_constexpr_str (small_string 2) ['-', 'i', 'n', 'f']) ∧
    ((float_bits.mk 12345 0x7ff false).significand ≠ 0 →
      append_constexpr_float 32 (-1023) .double true
          (fun _ => { digits := 0, exponent := 0, sign := false }) (small_string 2)
          { significand := 12345, exponent := 0x7ff, sign := false } 40 =
        append_constexpr_str (small_string 2) ['n', 'a', 'n']) ∧
    float_traits.exp_bits_special .float = 2 ^ 8 - 1 ∧
    float_traits.exp_bits_special .double = 2 ^ 11 - 1 ∧
    (append_constexpr_float 32 (-1023) .double true
        (fun _ => { digits := 0, exponent := 0, sign := false }) (small_string 32)
        { significand := 0, exponent := 0x7ff, sign := false } 40).map
      (fun r => (r.1, r.2.str)) = some (true, "inf".toList) ∧
    (append_constexpr_float 32 (-1023) .double true
        (fun _ => { digits := 0, exponent := 0, sign := false }) (small_string 32)
        { significand := 0, exponent := 0x7ff, sign := true } 40).map
      (fun r => (r.1, r.2.str)) = some (true, "-inf".toList) ∧
    (append_constexpr_float 32 (-1023) .float true
        (fun _ => { digits := 0, exponent := 0, sign := false }) (small_string 32)
        { significand := 0x400001, exponent := 0xff, sign := true } 40).map
      (fun r => (r.1, r.2.str)) = some (true, "nan".toList) :=
  append_constexpr_float_special 32 (-1023) .double
    (fun _ => { digits := 0, exponent := 0, sign := false }) (small_string 2)
    { significand := 12345, exponent := 0x7ff, sign := false } 40 rfl

end impl

/-! ### The precision cap -/

namespace impl

/-- C11: precision is capped at 19.  For every floating-point type, every bit pattern,
every converter `to_fixed`, every width of `fixed_exp_t` and value of `exp_origin`, every
buffer and every requested precision `p > 19`, the
entry point at precision `p` returns what it returns at precision 19: the same flag and
the same buffer. -/
theorem append_constexpr_float_precision_cap (exp_width : Nat) (exp_origin : Int)
    (T : floating_point) (is_iec559 : Bool)
    (to_fixed : float_bits → signed_fixed_data) (ss : small_string_span) (bits : float_bits)
    (p : Nat) (hp : 19 < p) :
    append_constexpr_float exp_width exp_origin T is_iec559 to_fixed ss bits p =
      append_constexpr_float exp_width exp_origin T is_iec559 to_fixed ss bits 19 := by
  have hnot : ¬ p ≤ 19 := by omega
  simp only [append_constexpr_float, hnot, if_false, le_refl, if_true]

/-- The precision cap at a concrete input: a normal `double` whose converter result is
digits 12345678901234567890, exponent -19, at precision 50 into an empty buffer, with a
32-bit `fixed_exp_t` and `exp_origin = -1023`. -/
theorem append_constexpr_float_precision_cap_witness :
    append_constexpr_float 32 (-1023) .double true
        (fun _ => { digits := 12345678901234567890, exponent := -19, sign := false })
        (small_string 32) { significand := 1, exponent := 1023, sign := false } 50 =
      append_constexpr_float 32 (-1023) .double true
        (fun _ => { digits := 12345678901234567890, exponent := -19, sign := false })
        (small_string 32) { significand := 1, exponent := 1023, sign := false } 19 :=
  append_constexpr_float_precision_cap 32 (-1023) .double true
    (fun _ => { digits := 12345678901234567890, exponent := -19, sign := false })
    (small_string 32) { significand := 1, exponent := 1023, sign := false } 50 (by decide)

end impl

/-! ### A single significant digit -/

namespace impl

theorem fixed_text_single_digit (fd : signed_fixed_data) (h9 : fd.digits ≤ 9) :
    fixed_text fd = (if fd.sign then ['-'] else []) ++ [Nat.digitChar fd.digits, '.'] ++
      exponent_text fd.exponent := by
  have hlt : fd.digits < 10 := by omega
  have he : fd.exponent + ((1 : Nat) : Int) - 1 = fd.exponent := by omega
  unfold fixed_text
  rw [mantissa_text_lt _ hlt, decimal_text_lt _ hlt, List.length_singleton, he]

theorem num_digits_single (d : Nat) (h9 : d ≤ 9) : num_digits d = 1 := by
  rw [num_digits_unfold]
  have : ¬ d ≥ 10 := by omega
  simp only [this, if_false]

/-- For a single digit the general output is the scientific form. -/
theorem fixed_output_single_digit (fd : signed_fixed_data) (h9 : fd.digits ≤ 9) :
    fixed_output fd = (if fd.sign then ['-'] else []) ++ [Nat.digitChar fd.digits, '.'] ++
      exponent_text fd.exponent := by
  have h1 := num_digits_single fd.digits h9
  have he : fd.exponent + ((1 : Nat) : Int) - 1 = fd.exponent := by omega
  rw [fixed_output_eq_text fd (by rw [h1, he]), fixed_text_single_digit fd h9]

/-- C12 (as amended): a value reduced to a single significant digit is rendered as
that digit followed by the separator `.` and then the exponent suffix.  For every width of
`fixed_exp_t` up to 64 bits and every scratch length `max_float_length`, and for every
fixed-point value with `1 ≤ digits ≤ 9` for which no operation on `fixed_exp_t` overflows
(the negation `-fd.exponent`, which excludes the least value of the type, the count 1 and
the sum `fd.exponent + 1` are values of `fixed_exp_t`), the renderer yields `-` iff the
sign is set, the digit, `.`, and the exponent suffix of `fd.exponent`.  Examples, for every
width from 8 to 64 bits: digits 1, exponent -4 renders as `"1.e-04"`; digits 25,
exponent -1 through `set_precision(., 1)` renders as `"2.e+00"`; digits 35, exponent -1
renders as `"4.e+00"`. -/
theorem append_constexpr_fixed_single_digit (exp_width : Nat) (exp_origin : Int)
    (fd : signed_fixed_data) (M N : Nat) (hw : exp_width ≤ 64)
    (h1 : 1 ≤ fd.digits) (h9 : fd.digits ≤ 9)
    (hM : max_float_length exp_width exp_origin = some M)
    (hneg : in_exp_range exp_width (-fd.exponent))
    (hn : in_exp_range exp_width 1) (hsum : in_exp_range exp_width (fd.exponent + 1))
    (hN : (fixed_text fd).length ≤ N) :
    (append_constexpr_fixed exp_width exp_origin (small_string N) fd).map
        (fun r => (r.1, r.2.str)) =
      some (true, (if fd.sign then ['-'] else []) ++ [Nat.digitChar fd.digits, '.'] ++
        exponent_text fd.exponent) ∧
    (∀ (w : Nat) (origin : Int) (M' : Nat), 8 ≤ w → w ≤ 64 →
      max_float_length w origin = some M' →
      (set_precision w { digits := 1, exponent := -4, sign := false } 1 =
          some { digits := 1, exponent := -4, sign := false } ∧
        (append_constexpr_fixed w origin (small_string 32)
            { digits := 1, exponent := -4, sign := false }).map (fun r => (r.1, r.2.str)) =
          some (true, "1.e-04".toList)) ∧
      (set_precision w { digits := 25, exponent := -1, sign := false } 1 =
          some { digits := 2, exponent := 0, sign := false } ∧
        (append_constexpr_fixed w origin (small_string 32)
            { digits := 2, exponent := 0, sign := false }).map (fun r => (r.1, r.2.str)) =
          some (true, "2.e+00".toList)) ∧
      (set_precision w { digits := 35, exponent := -1, sign := false } 1 =
          some { digits := 4, exponent := 0, sign := false } ∧
        (append_constexpr_fixed w origin (small_string 32)
            { digits := 4, exponent := 0, sign := false }).map (fun r => (r.1, r.2.str)) =
          some (true, "4.e+00".toList))) := by
  have hnd := num_digits_single fd.digits h9
  have hn' : in_exp_range exp_width (num_digits fd.digits : Int) := by
    rw [hnd]; exact hn
  have hsum' : in_exp_range exp_width (fd.exponent + (num_digits fd.digits : Int)) := by
    rw [hnd]; exact hsum
  have hex := exponent_in_range exp_width fd.exponent 1 (le_refl _) hneg hsum
  have hsz := num_digits_fixed_eq exp_width fd hw hex hneg
  have hMb := max_float_length_bounds exp_width exp_origin M hM
  have hfit : (fixed_output fd).length ≤ M := by
    have hlt := num_digits_le_max _ (natAbs_lt_word exp_width fd.exponent hw hex)
    rw [max_uint_length_eq] at hlt
    rw [fixed_output_length, hnd]
    split <;> omega
  refine ⟨?_, ?_⟩
  · rw [append_constexpr_fixed_eq exp_width exp_origin _ fd M _ hw h1 hM hsz hfit hn' hsum',
      append_constexpr_str_eq _ _ (small_string_wf N), fixed_output_single_digit fd h9]
    rw [fixed_text_single_digit fd h9] at hN
    exact map_appended_small_string N _ hN
  · intro w origin M' h8 hw' hM'
    refine ⟨⟨?_, ?_⟩, ⟨?_, ?_⟩, ⟨?_, ?_⟩⟩
    · exact set_precision_of_le w _ 1 (by decide)
    · exact append_constexpr_fixed_small w origin M' 32 _ h8 hw' hM' (by decide) (by decide)
        (by decide) (by decide) (by decide) (by decide)
    · rw [set_precision_round w _ 1 (by decide) (by decide)
        (in_exp_range_small w _ h8 (by decide) (by decide))
        (in_exp_range_small w _ h8 (by decide) (by decide))]
      decide
    · exact append_constexpr_fixed_small w origin M' 32 _ h8 hw' hM' (by decide) (by decide)
        (by decide) (by decide) (by decide) (by decide)
    · rw [set_precision_round w _ 1 (by decide) (by decide)
        (in_exp_range_small w _ h8 (by decide) (by decide))
        (in_exp_range_small w _ h8 (by decide) (by decide))]
      decide
    · exact append_constexpr_fixed_small w origin M' 32 _ h8 hw' hM' (by decide) (by decide)
        (by decide) (by decide) (by decide) (by decide)

/-- The single-digit rendering at a concrete input: digits 7, exponent 123, sign set, with
a 32-bit `fixed_exp_t` and `exp_origin = -1023` (`max_float_length = 28`). -/
theorem append_constexpr_fixed_single_digit_witness :
    (append_constexpr_fixed 32 (-1023) (small_string 10)
        { digits := 7, exponent := 123, sign := true }).map (fun r => (r.1, r.2.str)) =
      some (true, (if (signed_fixed_data.mk 7 123 true).sign then ['-'] else []) ++
        [Nat.digitChar (signed_fixed_data.mk 7 123 true).digits, '.'] ++
        exponent_text (signed_fixed_data.mk 7 123 true).exponent) ∧
    (∀ (w : Nat) (origin : Int) (M' : Nat), 8 ≤ w → w ≤ 64 →
      max_float_length w origin = some M' →
      (set_precision w { digits := 1, exponent := -4, sign := false } 1 =
          some { digits := 1, exponent := -4, sign := false } ∧
        (append_constexpr_fixed w origin (small_string 32)
            { digits := 1, exponent := -4, sign := false }).map (fun r => (r.1, r.2.str)) =
          some (true, "1.e-04".toList)) ∧
      (set_precision w { digits := 25, exponent := -1, sign := false } 1 =
          some { digits := 2, exponent := 0, sign := false } ∧
        (append_constexpr_fixed w origin (small_string 32)
            { digits := 2, exponent := 0, sign := false }).map (fun r => (r.1, r.2.str)) =
          some (true, "2.e+00".toList)) ∧
      (set_precision w { digits := 35, exponent := -1, sign := false } 1 =
          some { digits := 4, exponent := 0, sign := false } ∧
        (append_constexpr_fixed w origin (small_string 32)
            { digits := 4, exponent := 0, sign := false }).map (fun r => (r.1, r.2.str)) =
          some (true, "4.e+00".toList))) :=
  append_constexpr_fixed_single_digit 32 (-1023) { digits := 7, exponent := 123, sign := true }
    28 10 (by decide) (by decide) (by decide) (by decide) (by decide) (by decide)
    (by decide) (by decide)

/-- C12 as stated fails, here with a 32-bit `fixed_exp_t` and `exp_origin = -1023`:
digits 1, exponent -4 (the value 0.0001 at precision 1) is rendered as `"1.e-04"`, with the
separator between the digit and the exponent suffix, not as `"1e-04"`; likewise 2.5 and
3.5 at precision 1 give `"2.e+00"` and `"4.e+00"`.  At the least exponent -2147483648 the
negation in `num_exp_digits` overflows and a single digit 7 is not rendered at all. -/
theorem single_digit_separator_counterexample :
    set_precision 32 { digits := 1, exponent := -4, sign := false } 1 =
      some { digits := 1, exponent := -4, sign := false } ∧
    (append_constexpr_fixed 32 (-1023) (small_string 32)
        { digits := 1, exponent := -4, sign := false }).map (fun r => (r.1, r.2.str)) =
      some (true, "1.e-04".toList) ∧
    (append_constexpr_fixed 32 (-1023) (small_string 32)
        { digits := 1, exponent := -4, sign := false }).map (fun r => (r.1, r.2.str)) ≠
      some (true, "1e-04".toList) ∧
    set_precision 32 { digits := 25, exponent := -1, sign := false } 1 =
      some { digits := 2, exponent := 0, sign := false } ∧
    (append_constexpr_fixed 32 (-1023) (small_string 32)
        { digits := 2, exponent := 0, sign := false }).map (fun r => (r.1, r.2.str)) =
      some (true, "2.e+00".toList) ∧
    (append_constexpr_fixed 32 (-1023) (small_string 32)
        { digits := 2, exponent := 0, sign := false }).map (fun r => (r.1, r.2.str)) ≠
      some (true, "2e+00".toList) ∧
    set_precision 32 { digits := 35, exponent := -1, sign := false } 1 =
      some { digits := 4, exponent := 0, sign := false } ∧
    (append_constexpr_fixed 32 (-1023) (small_string 32)
        { digits := 4, exponent := 0, sign := false }).map (fun r => (r.1, r.2.str)) =
      some (true, "4.e+00".toList) ∧
    (append_constexpr_fixed 32 (-1023) (small_string 32)
        { digits := 4, exponent := 0, sign := false }).map (fun r => (r.1, r.2.str)) ≠
      some (true, "4e+00".toList) ∧
    in_exp_range 32 (-2147483648) ∧ ¬ in_exp_range 32 (-(-2147483648)) ∧
    num_exp_digits 32 (-2147483648) = none ∧
    append_constexpr_fixed 32 (-1023) (small_string 32)
      { digits := 7, exponent := -2147483648, sign := false } = none := by
  refine ⟨by decide, by decide, by decide, by decide, by decide, by decide, by decide,
    by decide, by decide, by decide, by decide, by decide, by decide⟩

end impl

/-! ### The digit count after `set_precision` -/

theorem round_nearest_even_cases (x m : Nat) :
    round_nearest_even x m = x / m ∨ round_nearest_even x m = x / m + 1 := by
  unfold round_nearest_even
  split_ifs <;> simp

namespace impl

theorem leading_digits_bounds (D p : Nat) (hp1 : 1 ≤ p) (hp : p < num_digits D) :
    10 ^ (p - 1) ≤ D / 10 ^ (num_digits D - p) ∧ D / 10 ^ (num_digits D - p) < 10 ^ p := by
  have hD : 1 ≤ D := by
    rcases Nat.eq_zero_or_pos D with h0 | h0
    · subst h0
      have : num_digits 0 = 1 := by decide
      omega
    · exact h0
  have hlo := pow_num_digits_le D hD
  have hhi := lt_pow_num_digits D
  have hm : 0 < 10 ^ (num_digits D - p) := by positivity
  have e1 : 10 ^ (num_digits D - 1) = 10 ^ (p - 1) * 10 ^ (num_digits D - p) := by
    rw [← pow_add]
    congr 1
    omega
  have e2 : 10 ^ num_digits D = 10 ^ (num_digits D - p) * 10 ^ p := by
    rw [← pow_add]
    congr 1
    omega
  constructor
  · rw [Nat.le_div_iff_mul_le hm, ← e1]
    exact hlo
  · apply Nat.div_lt_of_lt_mul
    rw [← e2]
    exact hhi

/-- C16 (as amended): for every width of `fixed_exp_t`, every fixed-point value whose
magnitude has `n` decimal digits and is below `2^64 - 5`, and every precision `1 ≤ p < n`
for which `exponent + (n - p)` is a value of `fixed_exp_t` (no increment of the exponent
overflows), `set_precision` returns a value whose magnitude `digits'` satisfies
`10^(p-1) ≤ digits' ≤ 10^p`.  It has exactly `p` decimal digits unless it is `10^p`; in
that case the leading `p` digits of the input were all nines (rounding carried out of
them) and it has `p + 1` digits.  In both cases `digits'` is `digits / 10^(n-p)` rounded
to nearest, ties to even, and the exponent is `exponent + (n - p)`, the sign unchanged.
Example, for every width of at least 8 bits: digits 999 at `p = 2` gives digits 100 and
the exponent grown by one. -/
theorem set_precision_digit_count (exp_width : Nat) (fd : signed_fixed_data) (p : Nat)
    (hd : fd.digits < 2 ^ 64 - 5) (hp1 : 1 ≤ p) (hp : p < num_digits fd.digits)
    (hlo : in_exp_range exp_width fd.exponent)
    (hhi : in_exp_range exp_width (fd.exponent + ((num_digits fd.digits - p : Nat) : Int))) :
    (∃ r : signed_fixed_data, set_precision exp_width fd p = some r ∧
      10 ^ (p - 1) ≤ r.digits ∧
      r.digits ≤ 10 ^ p ∧
      (r.digits ≠ 10 ^ p → num_digits r.digits = p) ∧
      (r.digits = 10 ^ p →
        fd.digits / 10 ^ (num_digits fd.digits - p) = 10 ^ p - 1 ∧
        num_digits r.digits = p + 1) ∧
      r.digits = round_nearest_even fd.digits (10 ^ (num_digits fd.digits - p)) ∧
      (∀ z : Nat, |(fd.digits : Int) -
          (r.digits : Int) * (10 ^ (num_digits fd.digits - p) : Nat)| ≤
        |(fd.digits : Int) - (z : Int) * (10 ^ (num_digits fd.digits - p) : Nat)|) ∧
      r.exponent = fd.exponent + ((num_digits fd.digits - p : Nat) : Int) ∧
      r.sign = fd.sign) ∧
    (∀ w : Nat, 8 ≤ w →
      set_precision w { digits := 999, exponent := -2, sign := false } 2 =
        some { digits := 100, exponent := -1, sign := false }) := by
  have hw : fd.digits + 5 < word := by unfold word; omega
  have hm : 0 < 10 ^ (num_digits fd.digits - p) := by positivity
  have hlo1 := in_exp_range_succ exp_width fd.exponent _ (by omega) hlo hhi
  obtain ⟨hqlo, hqhi⟩ := leading_digits_bounds fd.digits p hp1 hp
  have hcases := round_nearest_even_cases fd.digits (10 ^ (num_digits fd.digits - p))
  refine ⟨⟨_, set_precision_round exp_width fd p hw hp hlo1 hhi, ?_⟩, ?_⟩
  · simp only
    generalize hr : round_nearest_even fd.digits (10 ^ (num_digits fd.digits - p)) = r
      at hcases
    have hrd := round_nearest_even_dist fd.digits (10 ^ (num_digits fd.digits - p)) hm
    rw [hr] at hrd
    have hlo : 10 ^ (p - 1) ≤ r := by
      rcases hcases with h | h <;> rw [h] <;> omega
    have hhi : r ≤ 10 ^ p := by
      rcases hcases with h | h <;> rw [h] <;> omega
    refine ⟨hlo, hhi, ?_, ?_, trivial, hrd, trivial, trivial⟩
    · intro hne
      exact (num_digits_unique r p hlo (lt_of_le_of_ne hhi hne)).symm
    · intro heq
      have hq : fd.digits / 10 ^ (num_digits fd.digits - p) = 10 ^ p - 1 := by
        rw [heq] at hcases
        generalize fd.digits / 10 ^ (num_digits fd.digits - p) = q at hcases hqhi
        generalize 10 ^ p = P at hcases hqhi
        omega
      refine ⟨hq, ?_⟩
      rw [heq]
      refine (num_digits_unique (10 ^ p) (p + 1) ?_ ?_).symm
      · simp
      · exact Nat.pow_lt_pow_right (by norm_num) (by omega)
  · intro w h8
    rw [set_precision_round w _ 2 (by decide) (by decide)
      (in_exp_range_small w _ h8 (by decide) (by decide))
      (in_exp_range_small w _ h8 (by decide) (by decide))]
    decide

/-- The digit count after `set_precision` at a concrete input: digits 99996 at
precision 4 carries out of the nines and gives 10000, with a 32-bit `fixed_exp_t`. -/
theorem set_precision_digit_count_witness :
    (∃ r : signed_fixed_data,
      set_precision 32 { digits := 99996, exponent := 0, sign := true } 4 = some r ∧
      10 ^ (4 - 1) ≤ r.digits ∧
      r.digits ≤ 10 ^ 4 ∧
      (r.digits ≠ 10 ^ 4 → num_digits r.digits = 4) ∧
      (r.digits = 10 ^ 4 →
        (signed_fixed_data.mk 99996 0 true).digits /
            10 ^ (num_digits (signed_fixed_data.mk 99996 0 true).digits - 4) = 10 ^ 4 - 1 ∧
        num_digits r.digits = 4 + 1) ∧
      r.digits = round_nearest_even (signed_fixed_data.mk 99996 0 true).digits
        (10 ^ (num_digits (signed_fixed_data.mk 99996 0 true).digits - 4)) ∧
      (∀ z : Nat, |((signed_fixed_data.mk 99996 0 true).digits : Int) -
          (r.digits : Int) *
            (10 ^ (num_digits (signed_fixed_data.mk 99996 0 true).digits - 4) : Nat)| ≤
        |((signed_fixed_data.mk 99996 0 true).digits : Int) - (z : Int) *
          (10 ^ (num_digits (signed_fixed_data.mk 99996 0 true).digits - 4) : Nat)|) ∧
      r.exponent = (signed_fixed_data.mk 99996 0 true).exponent +
        ((num_digits (signed_fixed_data.mk 99996 0 true).digits - 4 : Nat) : Int) ∧
      r.sign = (signed_fixed_data.mk 99996 0 true).sign) ∧
    (∀ w : Nat, 8 ≤ w →
      set_precision w { digits := 999, exponent := -2, sign := false } 2 =
        some { digits := 100, exponent := -1, sign := false }) :=
  set_precision_digit_count 32 { digits := 99996, exponent := 0, sign := true } 4
    (by norm_num) (by decide) (by decide) (by decide) (by decide)

/-- C16 as stated fails at the largest exponent.  For every width of `fixed_exp_t` of at
least 32 bits, the value with digits 999 (three digits, below `2^64 - 5`) and the largest
exponent of the type has, at precision 2, no exponent `exponent + 1` in the type: the
increment `fd.exponent += 1` overflows and `set_precision` returns no magnitude and no
exponent.  With 32 bits the exponent is 2147483647. -/
theorem digit_count_exponent_overflow :
    (∀ w : Nat, 32 ≤ w → in_exp_range w (((2 ^ (w - 1) : Nat) : Int) - 1) ∧
      set_precision w { digits := 999, exponent := ((2 ^ (w - 1) : Nat) : Int) - 1,
                        sign := false } 2 = none) ∧
    999 < 2 ^ 64 - 5 ∧ num_digits 999 = 3 ∧
    in_exp_range 32 2147483647 ∧
    ¬ in_exp_range 32 (2147483647 + ((num_digits 999 - 2 : Nat) : Int)) ∧
    set_precision 32 { digits := 999, exponent := 2147483647, sign := false } 2 = none := by
  refine ⟨?_, by norm_num, by decide, by decide, by decide, by decide⟩
  intro w _
  obtain ⟨h1, h2⟩ := in_exp_range_max w
  refine ⟨h1, ?_⟩
  apply set_precision_overflow w _ 2 (show (999 : Nat) < word by decide)
    (show 2 < num_digits 999 by decide) h1
  intro h
  apply h2
  have h3 : num_digits 999 - 2 = 1 := by decide
  simp only [h3, Nat.cast_one] at h
  exact h

end impl

/-! ### Inputs on which the rounding step and the scientific renderer go wrong -/

namespace impl

/-- Below `2^64 - 5` the rounding step returns `i / 10` or `i / 10 + 1`. -/
theorem round_half_to_even_range (i : Nat) (only_zero : Bool) (hi : i + 5 < word) :
    round_half_to_even i only_zero = i / 10 ∨ round_half_to_even i only_zero = i / 10 + 1 := by
  rw [round_half_to_even_eq i only_zero hi]
  split_ifs <;> omega

/-- The local `exponent` of the renderer on a value of small exponent, for every
`fixed_exp_t` of 8 to 64 bits and every scratch length. -/
theorem fixed_displayed_exponent_small (exp_width : Nat) (exp_origin : Int) (M : Nat)
    (fd : signed_fixed_data) (h8 : 8 ≤ exp_width) (hw : exp_width ≤ 64)
    (hM : max_float_length exp_width exp_origin = some M)
    (h1 : 1 ≤ fd.digits) (hd : fd.digits < word)
    (hlo : -100 ≤ fd.exponent) (hhi : fd.exponent ≤ 100)
    (hfit : (fixed_output fd).length ≤ 26) :
    fixed_displayed_exponent exp_width exp_origin fd =
      some (fd.exponent + (num_digits fd.digits : Int) - 1) := by
  have hnd := num_digits_le_max fd.digits hd
  rw [max_uint_length_eq] at hnd
  have hMb := max_float_length_bounds exp_width exp_origin M hM
  have hex := in_exp_range_small exp_width fd.exponent h8 (by omega) (by omega)
  have hneg := in_exp_range_small exp_width (-fd.exponent) h8 (by omega) (by omega)
  exact fixed_displayed_exponent_eq exp_width exp_origin fd M _ h1 hM
    (num_digits_fixed_eq exp_width fd hw hex hneg) (by omega)
    (in_exp_range_small exp_width _ h8 (by omega) (by omega))
    (in_exp_range_small exp_width _ h8 (by omega) (by omega))

/-- The renderer on the magnitude 0 without sign, for every `fixed_exp_t` of 8 to 64 bits
and every scratch length: the mantissa loop does not run, the local `exponent` is
`fd.exponent - 1`, and the bytes before the exponent suffix keep the zero byte of the
fresh scratch string. -/
theorem append_constexpr_fixed_zero_digits (exp_width : Nat) (exp_origin : Int) (M N : Nat)
    (ex : Int) (h8 : 8 ≤ exp_width) (hw : exp_width ≤ 64)
    (hM : max_float_length exp_width exp_origin = some M)
    (hlo : -100 ≤ ex) (hhi : ex ≤ 100) (hN : 26 ≤ N) :
    (append_constexpr_fixed exp_width exp_origin (small_string N)
        { digits := 0, exponent := ex, sign := false }).map (fun r => (r.1, r.2.str)) =
      some (true,
        List.replicate (max (num_digits ex.natAbs) 2 + 2 - max (num_digits (ex - 1).natAbs) 2)
          (Char.ofNat 0) ++ exponent_text (ex - 1)) := by
  have hMb := max_float_length_bounds exp_width exp_origin M hM
  have hex := in_exp_range_small exp_width ex h8 (by omega) (by omega)
  have hneg := in_exp_range_small exp_width (-ex) h8 (by omega) (by omega)
  have hE := in_exp_range_small exp_width (ex - 1) h8 (by omega) (by omega)
  have hnegE := in_exp_range_small exp_width (-(ex - 1)) h8 (by omega) (by omega)
  have hed := num_exp_digits_eq exp_width ex hw hex hneg
  have h0 : num_digits 0 = 1 := by decide
  have hle : max (num_digits ex.natAbs) 2 ≤ 3 := by
    have := num_digits_le_of_lt_pow 3 ex.natAbs (by omega) (by omega)
    omega
  have hdl : max (num_digits (ex - 1).natAbs) 2 ≤ max (num_digits ex.natAbs) 2 + 1 := by
    have h1 : (ex - 1).natAbs ≤ ex.natAbs + 1 := by omega
    have h2 := num_digits_mono _ _ h1
    have h3 := num_digits_add_le ex.natAbs 1 (le_refl _)
    omega
  generalize hedv : max (num_digits ex.natAbs) 2 = ed at hed hle hdl
  generalize hedv2 : max (num_digits (ex - 1).natAbs) 2 = ed2 at hdl
  have hszf : num_digits_fixed exp_width { digits := 0, exponent := ex, sign := false } =
      some (ed + 4) := by
    simp only [num_digits_fixed, hed, h0, Bool.false_eq_true, if_false]
    congr 1
    omega
  have hres : (small_string M).resize (ed + 4) =
      some (small_string_span.mk (List.replicate M (Char.ofNat 0)) (ed + 4)) := by
    have hfit : ed + 4 ≤ M := by omega
    simp only [small_string, small_string_span.resize, small_string_span.capacity,
      List.length_replicate, hfit, if_true]
  have hloop : ∀ (k : Nat) (t : small_string_span),
      fixed_digits_loop exp_width 0 0 k 0 t = some (t, k, 0) := by
    intro k t
    simp [fixed_digits_loop]
  have hmant : fixed_mantissa exp_width exp_origin
      { digits := 0, exponent := ex, sign := false } =
      some (small_string_span.mk (List.replicate M (Char.ofNat 0)) (ed + 4), ex - 1) := by
    simp only [fixed_mantissa, hM, hszf, hres, hed, hloop, Bool.false_eq_true, if_false,
      add_zero, exp_check_eq _ _ hex, exp_check_eq _ _ hE]
  have hexpo := fixed_exponent_take exp_width (ex - 1) (ed + 4) (by unfold word; omega) hnegE
    (List.replicate M (Char.ofNat 0)) (by rw [List.length_replicate]; omega)
    (by rw [hedv2]; omega)
  rw [hedv2] at hexpo
  have htake : (List.replicate M (Char.ofNat 0)).take (ed + 4 - (ed2 + 2)) =
      List.replicate (ed + 2 - ed2) (Char.ofNat 0) := by
    rw [List.take_replicate]
    congr 1
    omega
  have hlen : (List.replicate (ed + 2 - ed2) (Char.ofNat 0) ++ exponent_text (ex - 1)).length =
      ed + 4 := by
    rw [List.length_append, List.length_replicate, exponent_text_length, hedv2]
    omega
  have hstr : (small_string_span.mk
      (List.replicate (ed + 2 - ed2) (Char.ofNat 0) ++ exponent_text (ex - 1) ++
        (List.replicate M (Char.ofNat 0)).drop (ed + 4)) (ed + 4)).str =
      List.replicate (ed + 2 - ed2) (Char.ofNat 0) ++ exponent_text (ex - 1) := by
    simp only [small_string_span.str, small_string_span.size]
    rw [List.take_left' hlen]
  simp only [append_constexpr_fixed, fixed_scratch, hmant, hexpo, htake, hstr]
  rw [append_constexpr_str_eq _ _ (small_string_wf N)]
  exact map_appended_small_string N _ (by rw [hlen]; omega)

/-- C20 at the failing inputs: for each of the five largest 64-bit values the sum
`i + 5` wraps modulo `2^64` and `round_half_to_even` returns 0 for both values of
`only_zero`, neither `i / 10 = 1844674407370955161` nor `i / 10 + 1`; through
`set_precision` a 20-digit magnitude `2^64 - 1` reduced to precision 19 becomes 0, for
every `fixed_exp_t` of at least 8 bits.  For every `i < 2^64 - 5` the result is `i / 10`
or `i / 10 + 1`. -/
theorem round_half_to_even_wraps :
    (∀ i ∈ [18446744073709551611, 18446744073709551612, 18446744073709551613,
        18446744073709551614, 18446744073709551615],
      ∀ only_zero : Bool, i < 2 ^ 64 ∧ (i + 5) % 2 ^ 64 < 5 ∧
        round_half_to_even i only_zero = 0 ∧ i / 10 = 1844674407370955161) ∧
    (∀ w : Nat, 8 ≤ w →
      set_precision w { digits := 18446744073709551615, exponent := 0, sign := false } 19 =
        some { digits := 0, exponent := 1, sign := false }) ∧
    set_precision 32 { digits := 18446744073709551615, exponent := 0, sign := false } 19 =
      some { digits := 0, exponent := 1, sign := false } ∧
    num_digits 18446744073709551615 = 20 ∧
    (∀ (i : Nat) (only_zero : Bool), i < 2 ^ 64 - 5 →
      round_half_to_even i only_zero = i / 10 ∨
      round_half_to_even i only_zero = i / 10 + 1) := by
  refine ⟨by decide, ?_, by decide, by decide, ?_⟩
  · intro w h8
    rw [set_precision_eq w _ 19 (by decide) (by decide)
      (in_exp_range_small w _ h8 (by decide) (by decide))
      (in_exp_range_small w _ h8 (by decide) (by decide))]
    decide
  · intro i only_zero hi
    exact round_half_to_even_range i only_zero (by unfold word; omega)

/-- C19 at the failing inputs, for every `fixed_exp_t` of 8 to 64 bits and every scratch
length `max_float_length`, and in particular for 32 bits and `exp_origin = -1023`
(`max_float_length = 28`).  For digits 100000 and exponent 95 the displayed exponent
is 100: the scientific form `"1.00000e+100"` needs 12 bytes, the renderer sizes its
output from the two digits of 95 to 11 bytes, and the result is `"1.0000e+100"`, the
last mantissa digit overwritten by the `e`.  For digits 123456 and exponent -100 the
displayed exponent is -95: the form `"1.23456e-95"` needs 11 bytes, the output is sized
to 12 bytes, and the byte before the `e` is never written (it keeps the zero byte of the
fresh scratch string). -/
theorem append_constexpr_fixed_exponent_length :
    fixed_text { digits := 100000, exponent := 95, sign := false } = "1.00000e+100".toList ∧
    fixed_text { digits := 123456, exponent := -100, sign := false } = "1.23456e-95".toList ∧
    (∀ (w : Nat) (origin : Int) (M : Nat), 8 ≤ w → w ≤ 64 →
      max_float_length w origin = some M →
      fixed_displayed_exponent w origin { digits := 100000, exponent := 95, sign := false } =
        some 100 ∧
      num_digits_fixed w { digits := 100000, exponent := 95, sign := false } = some 11 ∧
      (append_constexpr_fixed w origin (small_string 32)
          { digits := 100000, exponent := 95, sign := false }).map (fun r => (r.1, r.2.str)) =
        some (true, "1.0000e+100".toList) ∧
      fixed_displayed_exponent w origin { digits := 123456, exponent := -100, sign := false } =
        some (-95) ∧
      num_digits_fixed w { digits := 123456, exponent := -100, sign := false } = some 12 ∧
      (append_constexpr_fixed w origin (small_string 32)
          { digits := 123456, exponent := -100, sign := false }).map
          (fun r => (r.1, r.2.str)) =
        some (true, "1.23456".toList ++ [Char.ofNat 0] ++ "e-95".toList)) ∧
    max_float_length 32 (-1023) = some 28 ∧
    fixed_displayed_exponent 32 (-1023) { digits := 100000, exponent := 95, sign := false } =
      some 100 ∧
    num_digits_fixed 32 { digits := 100000, exponent := 95, sign := false } = some 11 ∧
    (append_constexpr_fixed 32 (-1023) (small_string 32)
        { digits := 100000, exponent := 95, sign := false }).map (fun r => (r.1, r.2.str)) =
      some (true, "1.0000e+100".toList) ∧
    fixed_displayed_exponent 32 (-1023) { digits := 123456, exponent := -100, sign := false } =
      some (-95) ∧
    num_digits_fixed 32 { digits := 123456, exponent := -100, sign := false } = some 12 ∧
    (append_constexpr_fixed 32 (-1023) (small_string 32)
        { digits := 123456, exponent := -100, sign := false }).map (fun r => (r.1, r.2.str)) =
      some (true, "1.23456".toList ++ [Char.ofNat 0] ++ "e-95".toList) := by
  refine ⟨by decide, by decide, ?_, by decide, by decide, by decide, by decide, by decide,
    by decide, by decide⟩
  intro w origin M h8 hw hM
  have hex1 := in_exp_range_small w 95 h8 (by decide) (by decide)
  have hneg1 := in_exp_range_small w (-95) h8 (by decide) (by decide)
  have hex2 := in_exp_range_small w (-100) h8 (by decide) (by decide)
  have hneg2 := in_exp_range_small w (-(-100)) h8 (by decide) (by decide)
  refine ⟨?_, ?_, ?_, ?_, ?_, ?_⟩
  · rw [fixed_displayed_exponent_small w origin M _ h8 hw hM (by decide) (by decide)
      (by decide) (by decide) (by decide)]
    decide
  · rw [num_digits_fixed_eq w { digits := 100000, exponent := 95, sign := false } hw hex1
      hneg1]
    decide
  · exact append_constexpr_fixed_small w origin M 32 _ h8 hw hM (by decide) (by decide)
      (by decide) (by decide) (by decide) (by decide)
  · rw [fixed_displayed_exponent_small w origin M _ h8 hw hM (by decide) (by decide)
      (by decide) (by decide) (by decide)]
    decide
  · rw [num_digits_fixed_eq w { digits := 123456, exponent := -100, sign := false } hw hex2
      hneg2]
    decide
  · exact append_constexpr_fixed_small w origin M 32 _ h8 hw hM (by decide) (by decide)
      (by decide) (by decide) (by decide) (by decide)

/-- The zero branch of the entry point does not depend on the width of `fixed_exp_t` or on
`exp_origin`. -/
theorem float_zero_branch_indep (exp_width : Nat) (exp_origin : Int) (T : floating_point)
    (to_fixed : float_bits → signed_fixed_data) (ss : small_string_span) (bits : float_bits)
    (p : Nat) (he : bits.exponent = 0) (hs : bits.significand = 0) :
    append_constexpr_float exp_width exp_origin T true to_fixed ss bits p =
      append_constexpr_float 32 (-1023) T true to_fixed ss bits p := by
  simp only [append_constexpr_float, if_true, he, hs]

/-- C17 at the failing inputs, for every `fixed_exp_t` of 8 to 64 bits and every scratch
length `max_float_length`, and in particular for 32 bits and `exp_origin = -1023`.  A
floating-point zero at precision 0 is rendered as `0.` followed by eighteen zeros and
`e+00`: `precision - 1` wraps and `substr` returns the whole string of zeros.  The
non-zero value with digits 3 and exponent 0 is reduced by `set_precision(., 0)` to the
magnitude 0, for which the mantissa loop does not run: no digit character is written and
the two mantissa bytes keep the zero bytes of the fresh scratch string.  A value whose
leading digit rounds up (digits 7) is reduced to the magnitude 1 and rendered as
`"1.e+01"`. -/
theorem precision_zero_renderings :
    size_sub 0 1 = 2 ^ 64 - 1 ∧
    (∀ (w : Nat) (origin : Int) (M : Nat), 8 ≤ w → w ≤ 64 →
      max_float_length w origin = some M →
      (append_constexpr_float w origin .double true
          (fun _ => { digits := 0, exponent := 0, sign := false }) (small_string 32)
          { significand := 0, exponent := 0, sign := false } 0).map
          (fun r => (r.1, r.2.str)) =
        some (true, "0.000000000000000000e+00".toList) ∧
      set_precision w { digits := 3, exponent := 0, sign := false } 0 =
        some { digits := 0, exponent := 1, sign := false } ∧
      (append_constexpr_fixed w origin (small_string 32)
          { digits := 0, exponent := 1, sign := false }).map (fun r => (r.1, r.2.str)) =
        some (true, [Char.ofNat 0, Char.ofNat 0] ++ "e+00".toList) ∧
      set_precision w { digits := 7, exponent := 0, sign := false } 0 =
        some { digits := 1, exponent := 1, sign := false } ∧
      (append_constexpr_fixed w origin (small_string 32)
          { digits := 1, exponent := 1, sign := false }).map (fun r => (r.1, r.2.str)) =
        some (true, "1.e+01".toList)) ∧
    max_float_length 32 (-1023) = some 28 ∧
    (append_constexpr_float 32 (-1023) .double true
        (fun _ => { digits := 0, exponent := 0, sign := false }) (small_string 32)
        { significand := 0, exponent := 0, sign := false } 0).map (fun r => (r.1, r.2.str)) =
      some (true, "0.000000000000000000e+00".toList) ∧
    set_precision 32 { digits := 3, exponent := 0, sign := false } 0 =
      some { digits := 0, exponent := 1, sign := false } ∧
    (append_constexpr_fixed 32 (-1023) (small_string 32)
        { digits := 0, exponent := 1, sign := false }).map (fun r => (r.1, r.2.str)) =
      some (true, [Char.ofNat 0, Char.ofNat 0] ++ "e+00".toList) ∧
    (append_constexpr_float 32 (-1023) .double true
        (fun _ => { digits := 3, exponent := 0, sign := false }) (small_string 32)
        { significand := 0, exponent := 1023, sign := false } 0).map
        (fun r => (r.1, r.2.str)) =
      some (true, [Char.ofNat 0, Char.ofNat 0] ++ "e+00".toList) ∧
    set_precision 32 { digits := 7, exponent := 0, sign := false } 0 =
      some { digits := 1, exponent := 1, sign := false } ∧
    (append_constexpr_fixed 32 (-1023) (small_string 32)
        { digits := 1, exponent := 1, sign := false }).map (fun r => (r.1, r.2.str)) =
      some (true, "1.e+01".toList) ∧
    (append_constexpr_float 32 (-1023) .double true
        (fun _ => { digits := 7, exponent := 0, sign := false }) (small_string 32)
        { significand := 0, exponent := 1023, sign := false } 0).map
        (fun r => (r.1, r.2.str)) =
      some (true, "1.e+01".toList) := by
  refine ⟨by decide, ?_, by decide, by decide, by decide, by decide, by decide, by decide,
    by decide, by decide⟩
  intro w origin M h8 hw hM
  refine ⟨?_, ?_, ?_, ?_, ?_⟩
  · rw [float_zero_branch_indep w origin .double _ _ _ 0 rfl rfl]
    decide
  · rw [set_precision_eq w _ 0 (by decide) (by decide)
      (in_exp_range_small w _ h8 (by decide) (by decide))
      (in_exp_range_small w _ h8 (by decide) (by decide))]
    decide
  · rw [append_constexpr_fixed_zero_digits w origin M 32 1 h8 hw hM (by decide) (by decide)
      (by decide)]
    decide
  · rw [set_precision_eq w _ 0 (by decide) (by decide)
      (in_exp_range_small w _ h8 (by decide) (by decide))
      (in_exp_range_small w _ h8 (by decide) (by decide))]
    decide
  · exact append_constexpr_fixed_small w origin M 32 _ h8 hw hM (by decide) (by decide)
      (by decide) (by decide) (by decide) (by decide)

end impl

/-! ### The two execution modes -/

/-- C13: for every unsigned and every signed 64-bit integer and every buffer, the two
branches of `snitch::append` agree: the constant-evaluation renderer
`impl::append_constexpr` and the run-time renderer `impl::append_fast` return the same
flag and leave the same buffer, and both return a result. -/
theorem append_constexpr_eq_append_fast (ss : small_string_span) (i : Nat) (x : Int)
    (hss : ss.size ≤ ss.capacity) (hi : i < 2 ^ 64)
    (hlo : -(2 : Int) ^ 63 ≤ x) (hhi : x < (2 : Int) ^ 63) :
    append_large_uint true ss i = append_large_uint false ss i ∧
    append_large_int true ss x = append_large_int false ss x ∧
    impl.append_constexpr_uint ss i = impl.append_fast_uint ss i ∧
    impl.append_constexpr_int ss x = impl.append_fast_int ss x ∧
    (append_large_uint true ss i).isSome = true ∧
    (append_large_int true ss x).isSome = true := by
  have hwf : ss.wf := hss
  have hu : impl.append_constexpr_uint ss i = impl.append_fast_uint ss i := by
    rw [impl.append_constexpr_uint_eq ss i hi, impl.append_constexpr_str_eq ss _ hwf]
    rfl
  have hs : impl.append_constexpr_int ss x = impl.append_fast_int ss x := by
    rw [impl.append_constexpr_int_eq ss x ⟨hlo, hhi⟩, impl.append_constexpr_str_eq ss _ hwf]
    rfl
  refine ⟨hu, hs, hu, hs, ?_, ?_⟩
  · simp only [append_large_uint, if_true, hu, impl.append_fast_uint, Option.isSome_some]
  · simp only [append_large_int, if_true, hs, impl.append_fast_int, Option.isSome_some]

/-- The two execution modes at concrete inputs: `2^64 - 1` and `-2^63` into a buffer of
capacity 8 that already holds `"n="`. -/
theorem append_constexpr_eq_append_fast_witness :
    append_large_uint true { buffer := "n=      ".toList, data_size := 2 }
        18446744073709551615 =
      append_large_uint false { buffer := "n=      ".toList, data_size := 2 }
        18446744073709551615 ∧
    append_large_int true { buffer := "n=      ".toList, data_size := 2 }
        (-9223372036854775808) =
      append_large_int false { buffer := "n=      ".toList, data_size := 2 }
        (-9223372036854775808) ∧
    impl.append_constexpr_uint { buffer := "n=      ".toList, data_size := 2 }
        18446744073709551615 =
      impl.append_fast_uint { buffer := "n=      ".toList, data_size := 2 }
        18446744073709551615 ∧
    impl.append_constexpr_int { buffer := "n=      ".toList, data_size := 2 }
        (-9223372036854775808) =
      impl.append_fast_int { buffer := "n=      ".toList, data_size := 2 }
        (-9223372036854775808) ∧
    (append_large_uint true { buffer := "n=      ".toList, data_size := 2 }
        18446744073709551615).isSome = true ∧
    (append_large_int true { buffer := "n=      ".toList, data_size := 2 }
        (-9223372036854775808)).isSome = true :=
  append_constexpr_eq_append_fast { buffer := "n=      ".toList, data_size := 2 }
    18446744073709551615 (-9223372036854775808) (by decide) (by norm_num) (by norm_num)
    (by norm_num)

/-! ### The scratch writes of the integer renderers -/

namespace impl

theorem set_size (tmp tmp1 : small_string_span) (i : Nat) (c : Char)
    (h : tmp.set i c = some tmp1) : tmp1.size = tmp.size := by
  unfold small_string_span.set at h
  split at h
  · simp only [Option.some.injEq] at h
    rw [← h]
    rfl
  · exact absurd h (by simp)

/-- The digit loop performs exactly the recorded writes, in order. -/
theorem append_uint_loop_eq_write_all (fuel : Nat) :
    ∀ (j k : Nat) (tmp : small_string_span), j ≤ fuel →
      append_uint_loop fuel j k tmp = write_all tmp (uint_loop_writes tmp.size fuel j k) := by
  induction fuel with
  | zero =>
    intro j k tmp hj
    have h0 : j = 0 := by omega
    subst h0
    simp [append_uint_loop, uint_loop_writes, write_all]
  | succ fuel ih =>
    intro j k tmp hj
    by_cases h0 : j = 0
    · subst h0
      simp [append_uint_loop, uint_loop_writes, write_all]
    · simp only [append_uint_loop, uint_loop_writes, ne_eq, h0, not_false_eq_true, if_true,
        write_all]
      cases hd : digits[j % 10]? with
      | none => rfl
      | some c =>
        simp only []
        cases hs : tmp.set (size_sub tmp.size k) c with
        | none => rfl
        | some tmp1 =>
          simp only []
          rw [ih (j / 10) (k + 1) tmp1 (by omega), set_size tmp tmp1 _ _ hs]

/-- The indices of the recorded writes run downwards from `size - k`, one per decimal
digit. -/
theorem uint_loop_writes_indices (size : Nat) (hsz : size < word) (fuel : Nat) :
    ∀ (j k : Nat), j ≤ fuel → 0 < j → 1 ≤ k → k - 1 + num_digits j ≤ size →
      (uint_loop_writes size fuel j k).map Prod.fst =
        (List.range (num_digits j)).map (fun t => size - k - t) := by
  induction fuel with
  | zero => intro j k hj hpos; omega
  | succ fuel ih =>
    intro j k hj hpos hk hfit
    have h0 : j ≠ 0 := by omega
    have hnd := num_digits_unfold j
    have hidx : size_sub size k = size - k :=
      size_sub_eq size k (by have := num_digits_pos j; omega) hsz
    simp only [uint_loop_writes, ne_eq, h0, not_false_eq_true, if_true, List.map_cons, hidx]
    by_cases h10 : j ≥ 10
    · simp only [h10, if_true] at hnd
      rw [ih (j / 10) (k + 1) (by omega) (by omega) (by omega) (by omega), hnd,
        Nat.add_comm 1, List.range_succ_eq_map, List.map_cons, List.map_map]
      congr 1
      apply List.map_congr_left
      intro t _
      simp only [Function.comp, Nat.succ_eq_add_one]
      omega
    · simp only [h10, if_false] at hnd
      have hj10 : j / 10 = 0 := by omega
      have hend : uint_loop_writes size fuel 0 (k + 1) = [] := by
        cases fuel <;> simp [uint_loop_writes]
      rw [hj10, hend, hnd]
      rfl

/-- Indices running downwards from `hi - 1` over `n` steps hit every position of
`hi - n .. hi - 1` exactly once. -/
theorem written_once_range (n hi : Nat) (hn : n ≤ hi) :
    written_once ((List.range n).map (fun t => hi - 1 - t)) (hi - n) hi := by
  constructor
  · apply List.Nodup.map_on _ (List.nodup_range n)
    intro a ha b hb hab
    rw [List.mem_range] at ha hb
    omega
  · intro pos
    simp only [List.mem_map, List.mem_range]
    constructor
    · rintro ⟨t, ht, rfl⟩
      omega
    · intro hpos
      exact ⟨hi - 1 - pos, by omega, by omega⟩

/-- The digit loop on a scratch string resized to `off + num_digits n`, `off` being the
number of sign positions in front of the digits. -/
theorem uint_scratch_trace (n off : Nat) (hn : 0 < n) (hnw : n < word) (hoff : off ≤ 1)
    (post : List Char) :
    append_uint_loop n n 1
        (small_string_span.mk (List.replicate off (Char.ofNat 0) ++
          List.replicate (num_digits n) (Char.ofNat 0) ++ post) (off + num_digits n)) =
      write_all
        (small_string_span.mk (List.replicate off (Char.ofNat 0) ++
          List.replicate (num_digits n) (Char.ofNat 0) ++ post) (off + num_digits n))
        (uint_loop_writes (off + num_digits n) n n 1) ∧
    (append_uint_loop n n 1
        (small_string_span.mk (List.replicate off (Char.ofNat 0) ++
          List.replicate (num_digits n) (Char.ofNat 0) ++ post) (off + num_digits n))).isSome
      = true ∧
    (uint_loop_writes (off + num_digits n) n n 1).length = (decimal_text n).length ∧
    written_once ((uint_loop_writes (off + num_digits n) n n 1).map Prod.fst) off
      (off + num_digits n) := by
  have hmax := num_digits_le_max n hnw
  rw [max_uint_length_eq] at hmax
  have hszw : off + num_digits n < word := by unfold word; omega
  have hidx := uint_loop_writes_indices (off + num_digits n) hszw n n 1 (le_refl _) hn
    (le_refl _) (by omega)
  refine ⟨append_uint_loop_eq_write_all n n 1 _ (le_refl _), ?_, ?_, ?_⟩
  · rw [append_uint_loop_spec (off + num_digits n) hszw n n 1 _ _ post (le_refl _) hn
      (le_refl _) (by simp) (by simp)]
    rfl
  · have hlen := congrArg List.length hidx
    simp only [List.length_map, List.length_range] at hlen
    rw [hlen, decimal_text_length]
  · rw [hidx]
    have h := written_once_range (num_digits n) (off + num_digits n) (by omega)
    have hlo : off + num_digits n - num_digits n = off := by omega
    rw [hlo] at h
    exact h

end impl

namespace impl

theorem num_digits_int_le_max (x : Int) (hx : in_int_range x) :
    num_digits_int x ≤ max_int_length := by
  unfold in_int_range at hx
  rw [max_int_length_eq]
  by_cases h0 : x = 0
  · subst h0
    decide
  · rw [num_digits_int_of_ne_zero x h0]
    have hw : x.natAbs < word := by unfold word; omega
    have := num_digits_le_max x.natAbs hw
    rw [max_uint_length_eq] at this
    split <;> omega

/-- C18: the scratch strings of the integer renderers are large enough and every scratch
write is in bounds.  `max_uint_length = 20` bounds `num_digits(i)` for every unsigned
64-bit `i`, `max_int_length = 21` bounds `num_digits(x)` for every signed 64-bit `x`, so
`resize` succeeds.  In each overload the digit loop performs exactly the recorded writes
and completes; it runs once per decimal digit of the magnitude; the indices
`tmp.size() - k` are below `tmp.size()` and hit every position from 0 (unsigned and
positive values) or from 1 (negative values) up to `tmp.size() - 1` exactly once; for a
negative value position 0 is left to the write of the `-` sign, which is in bounds. -/
theorem integer_scratch_in_bounds (i : Nat) (x : Int) (hi : i < 2 ^ 64)
    (hlo : -(2 : Int) ^ 63 ≤ x) (hhi : x < (2 : Int) ^ 63) :
    max_uint_length = 20 ∧ max_int_length = 21 ∧
    num_digits i ≤ max_uint_length ∧ num_digits_int x ≤ max_int_length ∧
    (i ≠ 0 → ∃ tmp : small_string_span,
      (small_string max_uint_length).resize (num_digits i) = some tmp ∧
      tmp.size = num_digits i ∧
      append_uint_loop i i 1 tmp = write_all tmp (uint_loop_writes tmp.size i i 1) ∧
      (append_uint_loop i i 1 tmp).isSome = true ∧
      (uint_loop_writes tmp.size i i 1).length = (decimal_text i).length ∧
      written_once ((uint_loop_writes tmp.size i i 1).map Prod.fst) 0 tmp.size) ∧
    (0 < x → ∃ tmp : small_string_span,
      (small_string max_int_length).resize (num_digits_int x) = some tmp ∧
      tmp.size = num_digits_int x ∧
      append_int_pos_loop x.natAbs x 1 tmp =
        write_all tmp (uint_loop_writes tmp.size x.natAbs x.natAbs 1) ∧
      (append_int_pos_loop x.natAbs x 1 tmp).isSome = true ∧
      (uint_loop_writes tmp.size x.natAbs x.natAbs 1).length =
        (decimal_text x.natAbs).length ∧
      written_once ((uint_loop_writes tmp.size x.natAbs x.natAbs 1).map Prod.fst) 0
        tmp.size) ∧
    (x < 0 → ∃ tmp : small_string_span,
      (small_string max_int_length).resize (num_digits_int x) = some tmp ∧
      tmp.size = num_digits_int x ∧
      append_int_neg_loop x.natAbs x 1 tmp =
        write_all tmp (uint_loop_writes tmp.size x.natAbs x.natAbs 1) ∧
      (append_int_neg_loop x.natAbs x 1 tmp).isSome = true ∧
      (uint_loop_writes tmp.size x.natAbs x.natAbs 1).length =
        (decimal_text x.natAbs).length ∧
      written_once ((uint_loop_writes tmp.size x.natAbs x.natAbs 1).map Prod.fst) 1
        tmp.size ∧
      (∀ tmp1 : small_string_span, append_int_neg_loop x.natAbs x 1 tmp = some tmp1 →
        (tmp1.set 0 '-').isSome = true)) := by
  have hiw : i < word := hi
  have hmu := num_digits_le_max i hiw
  refine ⟨max_uint_length_eq, max_int_length_eq, hmu,
    num_digits_int_le_max x ⟨hlo, hhi⟩, ?_, ?_, ?_⟩
  · intro hi0
    have h := uint_scratch_trace i 0 (by omega) hiw (by omega)
      (List.replicate (max_uint_length - num_digits i) (Char.ofNat 0))
    simp only [Nat.zero_add, List.replicate_zero, List.nil_append] at h
    refine ⟨small_string_span.mk (List.replicate (num_digits i) (Char.ofNat 0) ++
      List.replicate (max_uint_length - num_digits i) (Char.ofNat 0)) (num_digits i),
      ?_, rfl, h⟩
    rw [small_string_resize _ _ hmu]
    rfl
  · intro hpos
    obtain ⟨n, hn⟩ : ∃ n : Nat, x = (n : Int) := ⟨x.natAbs, by omega⟩
    subst hn
    have hn0 : 0 < n := by omega
    have hnw : n < word := by unfold word; omega
    have hnd : num_digits_int (n : Int) = num_digits n := by
      unfold num_digits_int
      exact num_digits_int_pos _ n (by simp) hn0
    have hmax := num_digits_le_max n hnw
    rw [max_uint_length_eq] at hmax
    have hle : num_digits n ≤ max_int_length := by rw [max_int_length_eq]; omega
    have habs : (n : Int).natAbs = n := by simp
    have h := uint_scratch_trace n 0 hn0 hnw (by omega)
      (List.replicate (max_int_length - num_digits n) (Char.ofNat 0))
    simp only [Nat.zero_add, List.replicate_zero, List.nil_append] at h
    rw [hnd, habs]
    simp only [append_int_pos_loop_eq]
    refine ⟨small_string_span.mk (List.replicate (num_digits n) (Char.ofNat 0) ++
      List.replicate (max_int_length - num_digits n) (Char.ofNat 0)) (num_digits n),
      ?_, rfl, h⟩
    rw [small_string_resize _ _ hle]
    rfl
  · intro hneg
    obtain ⟨n, hn⟩ : ∃ n : Nat, x = -(n : Int) := ⟨x.natAbs, by omega⟩
    subst hn
    have hn0 : 0 < n := by omega
    have hnw : n < word := by unfold word; omega
    have hnd : num_digits_int (-(n : Int)) = 1 + num_digits n := by
      unfold num_digits_int
      exact num_digits_int_neg _ n (by simp) hn0
    have hmax := num_digits_le_max n hnw
    rw [max_uint_length_eq] at hmax
    have habs : (-(n : Int)).natAbs = n := by simp
    have h := uint_scratch_trace n 1 hn0 hnw (le_refl _)
      (List.replicate (20 - num_digits n) (Char.ofNat 0))
    rw [hnd, habs]
    simp only [append_int_neg_loop_eq]
    refine ⟨small_string_span.mk (List.replicate 1 (Char.ofNat 0) ++
      List.replicate (num_digits n) (Char.ofNat 0) ++
      List.replicate (20 - num_digits n) (Char.ofNat 0)) (1 + num_digits n),
      ?_, rfl, h.1, h.2.1, h.2.2.1, h.2.2.2, ?_⟩
    · have hle : 1 + num_digits n ≤ 21 := by omega
      simp only [small_string, max_int_length_eq, small_string_span.resize,
        small_string_span.capacity, List.length_replicate, hle, if_true,
        List.append_replicate_replicate]
      congr 3
      omega
    · intro tmp1 h1
      have hspec := append_uint_loop_spec (1 + num_digits n) (by unfold word; omega)
        n n 1 (List.replicate 1 (Char.ofNat 0)) (List.replicate (num_digits n) (Char.ofNat 0))
        (List.replicate (20 - num_digits n) (Char.ofNat 0)) (le_refl _) hn0 (le_refl _)
        (by simp) (by simp)
      rw [hspec] at h1
      simp only [Option.some.injEq] at h1
      rw [← h1]
      have hp : 0 < 1 + num_digits n := by omega
      simp [small_string_span.set, small_string_span.size, hp]

/-- The scratch writes at concrete inputs: `2^64 - 1` and the minimum signed value. -/
theorem integer_scratch_in_bounds_witness :
    max_uint_length = 20 ∧ max_int_length = 21 ∧
    num_digits 18446744073709551615 ≤ max_uint_length ∧
    num_digits_int (-9223372036854775808) ≤ max_int_length ∧
    (18446744073709551615 ≠ 0 → ∃ tmp : small_string_span,
      (small_string max_uint_length).resize (num_digits 18446744073709551615) = some tmp ∧
      tmp.size = num_digits 18446744073709551615 ∧
      append_uint_loop 18446744073709551615 18446744073709551615 1 tmp =
        write_all tmp
          (uint_loop_writes tmp.size 18446744073709551615 18446744073709551615 1) ∧
      (append_uint_loop 18446744073709551615 18446744073709551615 1 tmp).isSome = true ∧
      (uint_loop_writes tmp.size 18446744073709551615 18446744073709551615 1).length =
        (decimal_text 18446744073709551615).length ∧
      written_once
        ((uint_loop_writes tmp.size 18446744073709551615 18446744073709551615 1).map Prod.fst)
        0 tmp.size) ∧
    (0 < (-9223372036854775808 : Int) → ∃ tmp : small_string_span,
      (small_string max_int_length).resize (num_digits_int (-9223372036854775808)) =
        some tmp ∧
      tmp.size = num_digits_int (-9223372036854775808) ∧
      append_int_pos_loop (-9223372036854775808 : Int).natAbs (-9223372036854775808) 1 tmp =
        write_all tmp (uint_loop_writes tmp.size (-9223372036854775808 : Int).natAbs
          (-9223372036854775808 : Int).natAbs 1) ∧
      (append_int_pos_loop (-9223372036854775808 : Int).natAbs (-9223372036854775808) 1
        tmp).isSome = true ∧
      (uint_loop_writes tmp.size (-9223372036854775808 : Int).natAbs
          (-9223372036854775808 : Int).natAbs 1).length =
        (decimal_text (-9223372036854775808 : Int).natAbs).length ∧
      written_once ((uint_loop_writes tmp.size (-9223372036854775808 : Int).natAbs
        (-9223372036854775808 : Int).natAbs 1).map Prod.fst) 0 tmp.size) ∧
    ((-9223372036854775808 : Int) < 0 → ∃ tmp : small_string_span,
      (small_string max_int_length).resize (num_digits_int (-9223372036854775808)) =
        some tmp ∧
      tmp.size = num_digits_int (-9223372036854775808) ∧
      append_int_neg_loop (-9223372036854775808 : Int).natAbs (-9223372036854775808) 1 tmp =
        write_all tmp (uint_loop_writes tmp.size (-9223372036854775808 : Int).natAbs
          (-9223372036854775808 : Int).natAbs 1) ∧
      (append_int_neg_loop (-9223372036854775808 : Int).natAbs (-9223372036854775808) 1
        tmp).isSome = true ∧
      (uint_loop_writes tmp.size (-9223372036854775808 : Int).natAbs
          (-9223372036854775808 : Int).natAbs 1).length =
        (decimal_text (-9223372036854775808 : Int).natAbs).length ∧
      written_once ((uint_loop_writes tmp.size (-9223372036854775808 : Int).natAbs
        (-9223372036854775808 : Int).natAbs 1).map Prod.fst) 1 tmp.size ∧
      (∀ tmp1 : small_string_span,
        append_int_neg_loop (-9223372036854775808 : Int).natAbs (-9223372036854775808) 1 tmp
          = some tmp1 →
        (tmp1.set 0 '-').isSome = true)) :=
  integer_scratch_in_bounds 18446744073709551615 (-9223372036854775808) (by norm_num)
    (by norm_num) (by norm_num)

end impl

end snitch
